import Mathlib

/-! LZ77 compressor (`LZ77.cpp`, `LZ77.h`): a shallow embedding

Bytes are natural numbers below 256 and buffers are lists of bytes.  Machine
integers are natural numbers reduced modulo `2 ^ 32` (`uint32_t`) or
`2 ^ 64` (`size_t`) where the source narrows or may wrap.  Pointers into a
buffer are byte offsets from its start.

Loops of the source are recursive functions over a fuel argument; running out
of fuel is the distinguished result `Fault.outOfFuel`, and the theorems that
speak of a loop's result show that the fuel supplied is enough.
-/

namespace LZ77

/-! ## Constants of `LZ77.h` -/

/-- The tag `EncodeType::END_OF_BUFFER`. -/
def END_OF_BUFFER : Nat := 1

/-- The tag `EncodeType::SEQ_LOOKUP`. -/
def SEQ_LOOKUP : Nat := 2

/-- The tag `EncodeType::SEQ_LEN`. -/
def SEQ_LEN : Nat := 3

/-- The constant `SequenceHdr::LSB7_MASK`. -/
def LSB7_MASK : Nat := 0x7F

/-- The constant `SequenceHdr::SEQ_LIMIT`. -/
def SEQ_LIMIT : Nat := 0x80

/-- The constant `SequenceHdr::LEN_SHIFT`. -/
def LEN_SHIFT : Nat := 7

/-- The bit-field `SequenceHdr::data` (bits 0 to 6) of the byte a header overlays. -/
def hdrData (b : Nat) : Nat := b % 128

/-- The bit-field `SequenceHdr::continueFlag` (bit 7) of the byte a header overlays. -/
def hdrContinueFlag (b : Nat) : Nat := b / 128 % 2

/-- The method `SequenceHdr::To8`: the byte of a header with the given two bit-fields
(an assignment to a bit-field keeps its low bits). -/
def To8 (data continueFlag : Nat) : Nat := data % 128 + 128 * (continueFlag % 2)

/-! ## Faults

The source has no error channel: `Compress` and `Decompress` return `void` and
nothing is thrown.  A `Fault` is an event at which C++ gives the run no
result. -/

/-- Events that end a run without a result. -/
inductive Fault where
  /-- A loop of the embedding used up its fuel (shown not to happen). -/
  | outOfFuel
  /-- The integer division `(sequenceLen * SearchTblCnt) / delta` or the
  reduction `% SearchTblCnt` with a zero divisor. -/
  | divByZero
  /-- A read of the compressed input past its terminating null character. -/
  | inputAccess
  /-- A `memcpy` whose source or destination range leaves the output buffer. -/
  | outputAccess
  /-- A `memcpy` whose source and destination ranges overlap. -/
  | overlap
  /-- A shift of an `int` by 32 bits or more. -/
  | shiftWidth
  /-- An access to a slot of the lookup table outside the bytes the constructor
  allocated for it. -/
  | tableAccess
  deriving DecidableEq, Repr

deriving instance DecidableEq for Except

/-! ## VarInt codec: `Encode`, `Decode` -/

/-- The `while (remaining >= SEQ_LIMIT)` loop of `Encode` and the final
`output += static_cast<char>(remaining)`. -/
def EncodeLoop : Nat → Nat → List Nat → List Nat
  | 0, _, output => output
  | fuel + 1, remaining, output =>
    if remaining ≥ SEQ_LIMIT then
      EncodeLoop fuel (remaining >>> LEN_SHIFT) (output ++ [To8 (remaining &&& LSB7_MASK) 1])
    else
      output ++ [remaining % 256]

/-- The method `LZ77::Encode(value, output)`: `uint32_t remaining = value` narrows the
`size_t` argument to 32 bits; five rounds of the loop exhaust a 32-bit value. -/
def Encode (value : Nat) (output : List Nat) : List Nat :=
  EncodeLoop 5 (value % 2 ^ 32) output

/-- Conversion of a 32-bit pattern held in an `int` to `size_t` (sign extension). -/
def intToSizeT (x : Nat) : Nat :=
  if x % 2 ^ 32 < 2 ^ 31 then x % 2 ^ 32 else x % 2 ^ 32 + (2 ^ 64 - 2 ^ 32)

/-- The loop of `LZ77::Decode` over the memory image `mem`, from `dataPtr`.
The bit-field `data` is promoted to `int`, so `data << (bitShift * shift)` is a
32-bit shift (wrapping, as compiled) whose result is converted to `size_t`; the
last byte is shifted as a `size_t`.  The result is the new `dataPtr` and `value`. -/
def DecodeLoop (mem : List Nat) : Nat → Nat → Nat → Nat → Except Fault (Nat × Nat)
  | 0, _, _, _ => .error .outOfFuel
  | fuel + 1, dataPtr, shift, value =>
    match mem.get? dataPtr with
    | none => .error .inputAccess
    | some b =>
      if hdrContinueFlag b = 1 then
        if LEN_SHIFT * shift ≥ 32 then .error .shiftWidth
        else
          DecodeLoop mem fuel (dataPtr + 1) (shift + 1)
            (value ||| intToSizeT (hdrData b <<< (LEN_SHIFT * shift)))
      else
        .ok (dataPtr + 1, value ||| (b <<< (LEN_SHIFT * shift)) % 2 ^ 64)

/-- The method `LZ77::Decode(dataPtr, value)`.  A continuation byte at group index 5 is a
shift by 35 bits, so six rounds settle every input. -/
def Decode (mem : List Nat) (dataPtr value : Nat) : Except Fault (Nat × Nat) :=
  DecodeLoop mem 6 dataPtr 0 value

/-! ## `Decompress` -/

/-- The memory behind `std::string input`: its bytes and the terminating null
character that `&input[input.size()]` refers to. -/
def inputImage (input : List Nat) : List Nat := input ++ [0]

/-- The call `output.resize(n, ' ')`. -/
def resize (output : List Nat) (n : Nat) : List Nat :=
  output.take n ++ List.replicate (n - output.length) 0x20

/-- Writing the bytes `src` into `output` from index `dst` on. -/
def overwrite (output : List Nat) (dst : Nat) (src : List Nat) : List Nat :=
  output.take dst ++ src ++ output.drop (dst + src.length)

/-- The call `memcpy(&output[dst], &input[src], n)`: a copy of no bytes touches nothing;
otherwise the source range lies in the input image and the destination range
in the output buffer. -/
def memcpyFromInput (mem output : List Nat) (dst src n : Nat) : Except Fault (List Nat) :=
  if n = 0 then .ok output
  else if mem.length < src + n then .error .inputAccess
  else if output.length < dst + n then .error .outputAccess
  else .ok (overwrite output dst ((mem.drop src).take n))

/-- The call `memcpy(&output[dst], &output[dst - offset], n)` with the `size_t`
subtraction `dst - offset`: both ranges lie in the output buffer and do not
overlap. -/
def memcpyWithin (output : List Nat) (dst offset n : Nat) : Except Fault (List Nat) :=
  let src := (dst + 2 ^ 64 - offset % 2 ^ 64) % 2 ^ 64
  if n = 0 then .ok output
  else if output.length < src + n ∨ output.length < dst + n then .error .outputAccess
  else if src < dst + n ∧ dst < src + n then .error .overlap
  else .ok (overwrite output dst ((output.drop src).take n))

/-- State of the `while (itr < endPtr)` loop of `Decompress`. -/
structure DecompState where
  /-- The cursor `itr`, as an offset from `begPtr`. -/
  itr : Nat
  /-- The output cursor `decompPos`. -/
  decompPos : Nat
  /-- The output buffer. -/
  output : List Nat
  deriving DecidableEq, Repr

/-- One round of the loop of `Decompress`: decode the type and dispatch on it.
The `switch` has no `default` label, so any other type does nothing. -/
def DecompressStep (input : List Nat) (s : DecompState) : Except Fault DecompState :=
  match Decode (inputImage input) s.itr 0 with
  | .error f => .error f
  | .ok (itr, type) =>
    if type = END_OF_BUFFER then
      match memcpyFromInput (inputImage input) s.output s.decompPos itr
          ((input.length + 2 ^ 64 - itr) % 2 ^ 64) with
      | .error f => .error f
      | .ok output => .ok ⟨input.length, s.decompPos, output⟩
    else if type = SEQ_LEN then
      match Decode (inputImage input) itr 0 with
      | .error f => .error f
      | .ok (itr, length) =>
        match memcpyFromInput (inputImage input) s.output s.decompPos itr length with
        | .error f => .error f
        | .ok output => .ok ⟨itr + length, (s.decompPos + length) % 2 ^ 64, output⟩
    else if type = SEQ_LOOKUP then
      match Decode (inputImage input) itr 0 with
      | .error f => .error f
      | .ok (itr, offset) =>
        match Decode (inputImage input) itr 0 with
        | .error f => .error f
        | .ok (itr, runLen) =>
          match memcpyWithin s.output s.decompPos offset runLen with
          | .error f => .error f
          | .ok output => .ok ⟨itr, (s.decompPos + runLen) % 2 ^ 64, output⟩
    else .ok ⟨itr, s.decompPos, s.output⟩

/-- The `while (itr < endPtr)` loop of `Decompress`. -/
def DecompressLoop (input : List Nat) : Nat → DecompState → Except Fault DecompState
  | 0, s => if s.itr < input.length then .error .outOfFuel else .ok s
  | fuel + 1, s =>
    if s.itr < input.length then
      match DecompressStep input s with
      | .error f => .error f
      | .ok s => DecompressLoop input fuel s
    else .ok s

/-- The method `LZ77::Decompress(input, output)`; the result is the final content of the
reference parameter `output`.  Every round of the loop moves `itr` forward, so
`input.length` rounds are enough. -/
def Decompress (input output : List Nat) : Except Fault (List Nat) :=
  if input.length = 0 then .ok output
  else
    match Decode (inputImage input) 0 0 with
    | .error f => .error f
    | .ok (itr, uncompressedLen) =>
      match DecompressLoop input input.length ⟨itr, 0, resize output uncompressedLen⟩ with
      | .error f => .error f
      | .ok s => .ok s.output

/-! ## The match finder: `Hash32`, `ProcessHash` -/

/-- What a run of `Compress` depends on without setting it.  `ProcessHash` reads
`*endPtr`, where `endPtr` is `&LookupBuffer[SearchTblCnt]`, the word behind the
last slot of the table; it compares bytes at `itr[sequenceLen]` without regard
to the end of the input; and `Compress` compares `itr` with the pointer
`endPtr - MinSearchLen`, whose value depends on the address of the input.  None
of these is set by the program, so they are parameters.  The reads behind the
input are taken to return a byte: surroundings describe memory that can be read
as far as the run reads it. -/
structure Surroundings where
  /-- The pointer read as `*endPtr`, as a byte offset from the start of the
  input buffer, modulo `2 ^ 64`. -/
  tableEnd : Nat
  /-- The bytes that follow the terminating null character of the input. -/
  pastInput : Nat → Nat
  /-- The address `begPtr` of the first byte of the input; the input and its
  terminating null character lie in the address space. -/
  inputAddr : Nat

/-- The byte at `begPtr[i]` for the input of `Compress`: a byte of the input,
its terminating null character, or a byte of the memory that follows. -/
def readInput (env : Surroundings) (input : List Nat) (i : Nat) : Nat :=
  if i < input.length then input.getD i 0
  else if i = input.length then 0
  else env.pastInput (i - input.length - 1) % 256

/-- A `char` (signed) converted to `unsigned int` for the product with the
`unsigned` literal `0xDEADBEEF`. -/
def charToUnsigned (b : Nat) : Nat :=
  if b < 128 then b else b + (2 ^ 32 - 256)

/-- The method `LZ77::Hash32(ptr, len)` with `Flags = FAST_COMPRESSION`, the value the
constructor gives `Flags` and the only one it ever has: `maxChars + 1` bytes
are folded into the hash, which is reduced modulo `SearchTblCnt`. -/
def Hash32 (SearchTblCnt : Nat) (env : Surroundings) (input : List Nat) (ptr : Nat) :
    Except Fault Nat :=
  let maxChars := SearchTblCnt / 0xFF % 2 ^ 32
  let hash := (List.range ((maxChars + 1) % 2 ^ 32)).foldl
    (fun hash i => hash ^^^ (charToUnsigned (readInput env input (ptr + i)) * 0xDEADBEEF % 2 ^ 32))
    0x13371337
  if SearchTblCnt = 0 then .error .divByZero else .ok (hash % SearchTblCnt)

/-- The `size_t` value `static_cast<size_t>(*endPtr - itr)`. -/
def endDistance (env : Surroundings) (itr : Nat) : Nat :=
  (env.tableEnd % 2 ^ 64 + 2 ^ 64 - itr % 2 ^ 64) % 2 ^ 64

/-- The loop `while (itr[sequenceLen] == (*currItr)[sequenceLen])` of
`ProcessHash`, for the candidate `cand = *currItr`; the result is `sequenceLen`. -/
def MatchLoop (env : Surroundings) (input : List Nat) (itr cand : Nat) :
    Nat → Nat → Except Fault Nat
  | 0, _ => .error .outOfFuel
  | fuel + 1, sequenceLen =>
    if readInput env input (itr + sequenceLen) = readInput env input (cand + sequenceLen) then
      if sequenceLen + 1 ≥ endDistance env itr ∨ cand + (sequenceLen + 1) ≥ itr then
        .ok (sequenceLen + 1)
      else MatchLoop env input itr cand fuel (sequenceLen + 1)
    else .ok sequenceLen

/-- The lookup table: a slot is `none` for a null pointer and `some p` for a
pointer to byte `p` of the input. -/
abbrev Table := List (Option Nat)

/-- The content of slot `i`. -/
def slot (table : Table) (i : Nat) : Option Nat := table.getD i none

/-- Result of the scan of `ProcessHash`: the reference parameters `runLen` and
`offset`, and the slot `currItr` the scan ended on. -/
structure Scan where
  /-- The reference parameter `runLen`. -/
  runLen : Nat
  /-- The reference parameter `offset`. -/
  offset : Nat
  /-- The index of the slot `currItr` points to. -/
  curr : Nat
  deriving DecidableEq, Repr

/-- The `do ... while (*currItr != *baseItr)` loop of `ProcessHash` with
`Flags = FAST_COMPRESSION`.  `compressionQuality` is `0.0f` at the one
comparison made before the `break`, and a `size_t` converts to a float above
`0.0f` exactly when it is not zero. -/
def ScanLoop (MinSearchLen SearchTblCnt : Nat) (env : Surroundings) (input : List Nat)
    (table : Table) (itr base runLen offset : Nat) : Nat → Nat → Except Fault Scan
  | 0, _ => .error .outOfFuel
  | fuel + 1, curr =>
    match slot table curr with
    | none => .ok ⟨runLen, offset, curr⟩
    | some cand =>
      match MatchLoop env input itr cand (itr + 1) 0 with
      | .error f => .error f
      | .ok sequenceLen =>
        if sequenceLen ≥ MinSearchLen then
          let delta := (itr + 2 ^ 64 - cand % 2 ^ 64) % 2 ^ 64
          if delta = 0 then .error .divByZero
          else if (sequenceLen * SearchTblCnt % 2 ^ 64) / delta > 0 then
            .ok ⟨sequenceLen, delta, curr⟩
          else .ok ⟨runLen, offset, curr⟩
        else
          let prev := if curr = 0 then SearchTblCnt - 1 else curr - 1
          if slot table prev ≠ slot table base then
            ScanLoop MinSearchLen SearchTblCnt env input table itr base runLen offset fuel prev
          else .ok ⟨runLen, offset, prev⟩

/-- The method `LZ77::ProcessHash(itr, runLen, offset)`: the scan, then `*currItr = itr`.
The result is the scan and the table after the update.  `table` holds the slots
the constructor allocated.  The scan reads `LookupBuffer[sequenceHash]` first;
a slot it reaches outside the allocation reads as it may, and the scan as
embedded then ends on that slot, where `*currItr = itr` writes outside the
allocation. -/
def ProcessHash (MinSearchLen SearchTblCnt : Nat) (env : Surroundings) (input : List Nat)
    (table : Table) (itr runLen offset : Nat) : Except Fault (Scan × Table) :=
  match Hash32 SearchTblCnt env input itr with
  | .error f => .error f
  | .ok sequenceHash =>
    if table.length ≤ sequenceHash then .error .tableAccess
    else
      match ScanLoop MinSearchLen SearchTblCnt env input table itr sequenceHash runLen offset
          SearchTblCnt sequenceHash with
      | .error f => .error f
      | .ok r =>
        if table.length ≤ r.curr then .error .tableAccess
        else .ok (r, table.set r.curr (some itr))

/-! ## `Compress` -/

/-- State of the `while (itr <= endPtr)` loop of `Compress`. -/
structure CompState where
  /-- The cursor `itr`, as an offset from `begPtr`. -/
  itr : Nat
  /-- The string `pendingData`. -/
  pendingData : List Nat
  /-- The reference parameter `output`. -/
  output : List Nat
  /-- The member `LookupBuffer`. -/
  table : Table
  deriving DecidableEq, Repr

/-- The test `itr > (endPtr - MinSearchLen)` of `Compress`, a comparison of
addresses.  When `MinSearchLen` is at most the address of `endPtr`, the pointer
`endPtr - MinSearchLen` lies `MinSearchLen` bytes before `endPtr` and the test is
`itr + MinSearchLen > input.size()` on the offsets.  Otherwise the subtraction
wraps around the address space to the address `2 ^ 64 - MinSearchLen` bytes
behind `endPtr`. -/
def nearEnd (MinSearchLen : Nat) (env : Surroundings) (input : List Nat) (itr : Nat) : Prop :=
  if MinSearchLen ≤ env.inputAddr + input.length then itr + MinSearchLen > input.length
  else itr + MinSearchLen > input.length + 2 ^ 64

instance nearEndDecidable (MinSearchLen : Nat) (env : Surroundings) (input : List Nat)
    (itr : Nat) : Decidable (nearEnd MinSearchLen env input itr) :=
  inferInstanceAs (Decidable (if MinSearchLen ≤ env.inputAddr + input.length then
    itr + MinSearchLen > input.length else itr + MinSearchLen > input.length + 2 ^ 64))

attribute [irreducible] nearEnd

/-- The body of the `while (itr <= endPtr)` loop of `Compress`: the state after
one round, and whether the loop goes on (`false` for a `break`). -/
def CompressStep (MinSearchLen SearchTblCnt : Nat) (env : Surroundings) (input : List Nat)
    (s : CompState) : Except Fault (Bool × CompState) :=
  if nearEnd MinSearchLen env input s.itr then
    .ok (false, ⟨s.itr, s.pendingData,
      Encode END_OF_BUFFER s.output ++ s.pendingData ++ input.drop s.itr, s.table⟩)
  else
    match ProcessHash MinSearchLen SearchTblCnt env input s.table s.itr 0 0 with
    | .error f => .error f
    | .ok (r, table) =>
      if r.runLen < MinSearchLen then
        let pendingData := s.pendingData ++ [readInput env input s.itr]
        if s.itr + 1 > input.length then
          .ok (false, ⟨s.itr + 1, pendingData, Encode END_OF_BUFFER s.output ++ pendingData, table⟩)
        else
          .ok (true, ⟨s.itr + 1, pendingData, s.output, table⟩)
      else
        let output :=
          if s.pendingData.length ≠ 0 then
            Encode s.pendingData.length (Encode SEQ_LEN s.output) ++ s.pendingData
          else s.output
        .ok (true, ⟨s.itr + r.runLen, [],
          Encode r.runLen (Encode r.offset (Encode SEQ_LOOKUP output)), table⟩)

/-- The `while (itr <= endPtr)` loop of `Compress`. -/
def CompressLoop (MinSearchLen SearchTblCnt : Nat) (env : Surroundings) (input : List Nat) :
    Nat → CompState → Except Fault CompState
  | 0, s => if s.itr ≤ input.length then .error .outOfFuel else .ok s
  | fuel + 1, s =>
    if s.itr ≤ input.length then
      match CompressStep MinSearchLen SearchTblCnt env input s with
      | .error f => .error f
      | .ok (true, s) => CompressLoop MinSearchLen SearchTblCnt env input fuel s
      | .ok (false, s) => .ok s
    else .ok s

/-- The number of bytes `sizeof(char*) * SearchTblCnt` that the constructor
allocates for the lookup table and clears, a `size_t`. -/
def lookupBufferBytes (SearchTblCnt : Nat) : Nat := 8 * SearchTblCnt % 2 ^ 64

/-- The table of a freshly constructed compressor: the null slots in the bytes
allocated, which are `SearchTblCnt` slots when `sizeof(char*) * SearchTblCnt` does
not wrap. -/
def freshTable (SearchTblCnt : Nat) : Table :=
  List.replicate (lookupBufferBytes SearchTblCnt / 8) none

/-- The method `LZ77::Compress(input, output, compressionRatio)` on a compressor whose
table is `table`; the result is the final state, whose `output` is the reference
parameter.  With `MinSearchLen ≥ 1` every round but the last moves the cursor,
so `input.length + 1` rounds are enough. -/
def CompressFrom (MinSearchLen SearchTblCnt : Nat) (env : Surroundings) (table : Table)
    (input output : List Nat) : Except Fault CompState :=
  CompressLoop MinSearchLen SearchTblCnt env input (input.length + 1)
    ⟨0, [], Encode input.length output, table⟩

/-- The method `Compress` on a freshly constructed `LZ77(minRun, maxCnt)` with an empty
`output`: the compressed bytes. -/
def Compress (MinSearchLen SearchTblCnt : Nat) (env : Surroundings) (input : List Nat) :
    Except Fault (List Nat) :=
  match CompressFrom MinSearchLen SearchTblCnt env (freshTable SearchTblCnt) input [] with
  | .error f => .error f
  | .ok s => .ok s.output

/-- The numerator `input.size() - output.size()` of the ratio, a `size_t`. -/
def ratioNumerator (inputSize outputSize : Nat) : Nat :=
  (inputSize % 2 ^ 64 + 2 ^ 64 - outputSize % 2 ^ 64) % 2 ^ 64

/-- The value `compressionRatio` is set to, as an exact quotient (the source
rounds numerator, denominator and quotient to `float`). -/
def compressionRatio (inputSize outputSize : Nat) : ℚ :=
  (ratioNumerator inputSize outputSize : ℚ) / (inputSize : ℚ)

/-- Surroundings in which the word behind the table is a null pointer seen
from an input buffer at address `2 ^ 32`, and the memory behind the input is
zero. -/
def quietEnv : Surroundings := ⟨2 ^ 64 - 2 ^ 32, fun _ => 0, 2 ^ 32⟩

/-- Surroundings like `quietEnv`, but with the byte `0xAA` everywhere behind
the terminating null character of the input. -/
def noisyEnv : Surroundings := ⟨2 ^ 64 - 2 ^ 32, fun _ => 0xAA, 2 ^ 32⟩

/-! ## Reference notions and sample data -/

/-- Halving `v` until it is zero, counting the rounds. -/
def bitLengthAux : Nat → Nat → Nat
  | 0, _ => 0
  | fuel + 1, v => if v = 0 then 0 else bitLengthAux fuel (v / 2) + 1

/-- The number of binary digits of `v`. -/
def bitLength (v : Nat) : Nat := bitLengthAux v v

/-- The number of bytes the format description gives a VarInt:
`ceil(bitLength(v) / 7)`, and one byte for zero. -/
def varIntLength (v : Nat) : Nat := if v = 0 then 1 else (bitLength v + 6) / 7

/-- The largest `size_t`. -/
def SIZE_MAX : Nat := 2 ^ 64 - 1

/-- A stream with header 12, the literal run `AB` and a back-reference with
offset 2 and length 10. -/
def overlapStream : List Nat := [0x0C, 0x03, 0x02, 0x41, 0x42, 0x02, 0x02, 0x0A]

/-- A stream with header 4, the literal run `AB` and a back-reference with
offset 2 and length 2. -/
def disjointStream : List Nat := [0x04, 0x03, 0x02, 0x41, 0x42, 0x02, 0x02, 0x02]

/-- Fourteen bytes that end in two zero bytes, followed by their first twelve. -/
def overrunInput : List Nat :=
  [1, 2, 3, 4, 5, 6, 7, 8, 9, 10, 11, 12, 0, 0, 1, 2, 3, 4, 5, 6, 7, 8, 9, 10, 11, 12]

/-- An input of `2 ^ 32` bytes `41`. -/
def hugeInput : List Nat := List.replicate (2 ^ 32) 0x41

/-- The input of 1024 repetitions of the two bytes `AB`. -/
def abInput : List Nat := (List.replicate 1024 [0x41, 0x42]).flatten

/-- Every pointer in the table points before byte `n` of the input. -/
def TableBelow (table : Table) (n : Nat) : Prop :=
  ∀ i p, slot table i = some p → p < n

/-- The first `n` rounds of the main loop of `Compress`: the state they lead to,
and whether the loop is still running. -/
def CompressRounds (MinSearchLen SearchTblCnt : Nat) (env : Surroundings) (input : List Nat) :
    Nat → CompState → Except Fault (Bool × CompState)
  | 0, s => .ok (true, s)
  | n + 1, s =>
    if s.itr ≤ input.length then
      match CompressStep MinSearchLen SearchTblCnt env input s with
      | .error f => .error f
      | .ok (true, s) => CompressRounds MinSearchLen SearchTblCnt env input n s
      | .ok (false, s) => .ok (false, s)
    else .ok (false, s)

/-- The table after the first twelve rounds on `abInput`: the even cursors 0 to
10 in the slots 408 down to 403, the odd cursors 1 to 11 in the slots 681 down
to 676. -/
def abTable : Table :=
  ((((((((((((freshTable 1024).set 408 (some 0)).set 681 (some 1)).set 407 (some 2)).set 680
    (some 3)).set 406 (some 4)).set 679 (some 5)).set 405 (some 6)).set 678 (some 7)).set 404
    (some 8)).set 677 (some 9)).set 403 (some 10)).set 676 (some 11)



/-- The state in which the main loop of `Compress` starts on a freshly
constructed compressor with an empty `output`. -/
def startState (SearchTblCnt : Nat) (input : List Nat) : CompState :=
  ⟨0, [], Encode input.length [], freshTable SearchTblCnt⟩

/-- The states with which the rounds of the main loop of `Compress` begin, on a
freshly constructed compressor. -/
def Reached (MinSearchLen SearchTblCnt : Nat) (env : Surroundings) (input : List Nat)
    (s : CompState) : Prop :=
  ∃ n, CompressRounds MinSearchLen SearchTblCnt env input n (startState SearchTblCnt input)
    = .ok (true, s)

/-- No two slots of the table hold the same pointer. -/
def TableDistinct (table : Table) : Prop :=
  ∀ i j p, slot table i = some p → slot table j = some p → i = j


/-- The copy of a back-reference as the format description words it: `n` bytes,
one at a time in forward order, from `src` to `dst` inside the output buffer,
so that a byte written earlier in the same copy can be read back as source. -/
def copyForwardLoop : Nat → List Nat → Nat → Nat → Except Fault (List Nat)
  | 0, output, _, _ => .ok output
  | n + 1, output, dst, src =>
    if output.length ≤ src ∨ output.length ≤ dst then .error .outputAccess
    else copyForwardLoop n (output.set dst (output.getD src 0)) (dst + 1) (src + 1)

/-- The forward byte-by-byte copy of `n` bytes from `offset` positions behind
`dst`, with the `size_t` subtraction of `memcpyWithin`. -/
def copyForward (output : List Nat) (dst offset n : Nat) : Except Fault (List Nat) :=
  copyForwardLoop n output dst ((dst + 2 ^ 64 - offset % 2 ^ 64) % 2 ^ 64)


/-- The slot before `curr`, with the wrap from slot 0 to the last slot:
`currItr - 1`, or `endPtr - 1` when that is before `begPtr`. -/
def prevSlot (SearchTblCnt curr : Nat) : Nat :=
  if curr = 0 then SearchTblCnt - 1 else curr - 1

/-- The slot `k` steps before slot `base`, for `k < SearchTblCnt`. -/
def slotBack (SearchTblCnt base k : Nat) : Nat :=
  if k ≤ base then base - k else base + SearchTblCnt - k

/-- The slots at which the body of the `do ... while` loop of `ProcessHash` runs,
in order: the slots the scan probes.  It follows `ScanLoop` step by step. -/
def ScanProbes (MinSearchLen SearchTblCnt : Nat) (env : Surroundings) (input : List Nat)
    (table : Table) (itr base : Nat) : Nat → Nat → List Nat
  | 0, _ => []
  | fuel + 1, curr =>
    curr :: (match slot table curr with
      | none => []
      | some cand =>
        match MatchLoop env input itr cand (itr + 1) 0 with
        | .error _ => []
        | .ok sequenceLen =>
          if sequenceLen ≥ MinSearchLen then []
          else
            let prev := if curr = 0 then SearchTblCnt - 1 else curr - 1
            if slot table prev ≠ slot table base then
              ScanProbes MinSearchLen SearchTblCnt env input table itr base fuel prev
            else [])

/-- The candidate in slot `c` qualifies: its common length with the bytes at the
cursor is at least `MinSearchLen`. -/
def Qualifies (MinSearchLen : Nat) (env : Surroundings) (input : List Nat) (table : Table)
    (itr c : Nat) : Prop :=
  ∃ cand n, slot table c = some cand ∧ MatchLoop env input itr cand (itr + 1) 0 = .ok n ∧
    MinSearchLen ≤ n

/-- The sixteen bytes 1 to 16: no byte occurs twice, so a run on them never finds
a match, and with a table of two slots the scan wraps around the table. -/
def ascendingInput : List Nat := [1, 2, 3, 4, 5, 6, 7, 8, 9, 10, 11, 12, 13, 14, 15, 16]


/-- The table after the first fourteen rounds on `overrunInput` with 1024 slots:
each cursor from 0 to 13 in the slot of its hash, the cursors 10 and 13 one slot
before it. -/
def overrunTable : Table :=
  ((((((((((((((freshTable 1024).set 476 (some 0)).set 681 (some 1)).set 1022 (some 2)).set 75
    (some 3)).set 400 (some 4)).set 621 (some 5)).set 946 (some 6)).set 15 (some 7)).set 887
    (some 8)).set 272 (some 9)).set 680 (some 10)).set 818 (some 11)).set 203 (some 12)).set 886
    (some 13)

/-- The indices of the bytes `ptr[i]` that the `for` loop of `Hash32` reads,
as offsets from the start of the input. -/
def Hash32Reads (SearchTblCnt ptr : Nat) : List Nat :=
  (List.range ((SearchTblCnt / 0xFF % 2 ^ 32 + 1) % 2 ^ 32)).map (fun i => ptr + i)

/-- A token of the compressed stream, as the format describes it. -/
inductive Token where
  /-- Tag 1 and the bytes that follow it to the end of the stream. -/
  | endOfBuffer (payload : List Nat)
  /-- Tag 2, an offset and a length. -/
  | backReference (offset length : Nat)
  /-- Tag 3, a length and as many bytes. -/
  | literalRun (bytes : List Nat)
  deriving DecidableEq, Repr

/-- The number of bytes of the uncompressed data a token stands for. -/
def Token.size : Token → Nat
  | .endOfBuffer payload => payload.length
  | .backReference _ length => length
  | .literalRun bytes => bytes.length

/-- Whether a token is an end-of-buffer token. -/
def Token.isEnd : Token → Bool
  | .endOfBuffer _ => true
  | _ => false

/-- The tokens of a stream from byte `pos` on, read as the format describes them,
with `Decode` for the VarInts; `none` when the bytes are not a sequence of tokens. -/
def parseTokens (stream : List Nat) : Nat → Nat → Option (List Token)
  | 0, pos => if pos ≥ stream.length then some [] else none
  | fuel + 1, pos =>
    if pos ≥ stream.length then some []
    else
      match Decode (inputImage stream) pos 0 with
      | .error _ => none
      | .ok (p, tag) =>
        if tag = END_OF_BUFFER then some [.endOfBuffer (stream.drop p)]
        else if tag = SEQ_LOOKUP then
          match Decode (inputImage stream) p 0 with
          | .error _ => none
          | .ok (q, offset) =>
            match Decode (inputImage stream) q 0 with
            | .error _ => none
            | .ok (q1, length) =>
              (parseTokens stream fuel q1).map (fun ts => .backReference offset length :: ts)
        else if tag = SEQ_LEN then
          match Decode (inputImage stream) p 0 with
          | .error _ => none
          | .ok (q, length) =>
            if q + length ≤ stream.length then
              (parseTokens stream fuel (q + length)).map
                (fun ts => .literalRun ((stream.drop q).take length) :: ts)
            else none
        else none

/-- A compressed stream read as the format describes it: the length in the header
and the tokens behind it. -/
def parseStream (stream : List Nat) : Option (Nat × List Token) :=
  match Decode (inputImage stream) 0 0 with
  | .error _ => none
  | .ok (p, uncompressedLen) =>
    (parseTokens stream stream.length p).map (fun ts => (uncompressedLen, ts))


/-! ## VarInt codec: results -/

/-- C3 (code at the failing input): `Encode` narrows its argument to 32 bits, so
`2 ^ 32` is written as the single byte 0 and decodes to 0, not to `2 ^ 32`. -/
theorem Encode_narrows_to_32_bits :
    Encode (2 ^ 32) [] = [0] ∧
    Decode (inputImage (Encode (2 ^ 32) [])) 0 0 = .ok (1, 0) := by
  decide

/-- C4 (code at the failing input): for 0, 1, 127, 128, 16383 and 16384 `Encode`
writes `ceil(bitLength / 7)` bytes (one for 0), but for the largest `size_t` it
writes 5 bytes where the format description gives 10. -/
theorem Encode_length_at_samples :
    (∀ v ∈ [0, 1, 127, 128, 16383, 16384], (Encode v []).length = varIntLength v) ∧
    (Encode SIZE_MAX []).length = 5 ∧ varIntLength SIZE_MAX = 10 := by
  decide

/-- Five rounds settle `Encode`: a 32-bit value has at most five groups of seven
bits, so the loop ends and the final byte, below 128, is written. -/
theorem EncodeLoop_fuel :
    ∀ fuel remaining output, 1 ≤ fuel → remaining < 128 ^ fuel →
      ∃ bytes last, EncodeLoop fuel remaining output = output ++ bytes ++ [last] ∧ last < 128 := by
  intro fuel
  induction fuel with
  | zero => intro _ _ h _; omega
  | succ fuel ih =>
    intro remaining output _ hlt
    unfold EncodeLoop
    by_cases hge : remaining ≥ SEQ_LIMIT
    · rw [if_pos hge]
      unfold SEQ_LIMIT at hge
      have hfuel : 1 ≤ fuel := by
        by_contra h0
        have : fuel = 0 := by omega
        subst this
        simp at hlt
        omega
      have hdiv : remaining >>> LEN_SHIFT < 128 ^ fuel := by
        unfold LEN_SHIFT
        rw [Nat.shiftRight_eq_div_pow]
        rw [pow_succ] at hlt
        exact Nat.div_lt_of_lt_mul (by rw [Nat.mul_comm]; exact hlt)
      obtain ⟨bytes, last, hrec, hlast⟩ := ih (remaining >>> LEN_SHIFT)
        (output ++ [To8 (remaining &&& LSB7_MASK) 1]) hfuel hdiv
      exact ⟨To8 (remaining &&& LSB7_MASK) 1 :: bytes, last, by rw [hrec]; simp, hlast⟩
    · rw [if_neg hge]
      unfold SEQ_LIMIT at hge
      exact ⟨[], remaining % 256, by simp, by omega⟩

theorem Encode_ends (value : Nat) (output : List Nat) :
    ∃ bytes last, Encode value output = output ++ bytes ++ [last] ∧ last < 128 :=
  EncodeLoop_fuel 5 (value % 2 ^ 32) output (by omega)
    (Nat.lt_of_lt_of_le (Nat.mod_lt _ (by positivity)) (by norm_num))

/-! ## `Decompress`: results -/

theorem overwrite_length (output : List Nat) (dst : Nat) (src : List Nat)
    (h : dst + src.length ≤ output.length) : (overwrite output dst src).length = output.length := by
  simp [overwrite]; omega

theorem overwrite_get_mid (output : List Nat) (dst : Nat) (src : List Nat) (k : Nat)
    (h : dst ≤ output.length) (hk : k < src.length) :
    (overwrite output dst src)[dst + k]? = src[k]? := by
  unfold overwrite
  rw [List.append_assoc, List.getElem?_append_right (by simp),
    List.getElem?_append_left (by simp; omega)]
  congr 1
  simp; omega

theorem overwrite_get_left (output : List Nat) (dst : Nat) (src : List Nat) (i : Nat)
    (h : dst ≤ output.length) (hi : i < dst) :
    (overwrite output dst src)[i]? = output[i]? := by
  unfold overwrite
  rw [List.append_assoc, List.getElem?_append_left (by simp; omega), List.getElem?_take]
  simp [hi]

theorem overwrite_get_right (output : List Nat) (dst : Nat) (src : List Nat) (i : Nat)
    (h : dst ≤ output.length) (hi : dst + src.length ≤ i) :
    (overwrite output dst src)[i]? = output[i]? := by
  unfold overwrite
  rw [List.getElem?_append_right (by simp; omega), List.getElem?_drop]
  congr 1
  simp; omega

/-- A block copy inside the output buffer whose source ends before its
destination begins succeeds and moves exactly the source bytes. -/
theorem memcpyWithin_disjoint (output : List Nat) (dst offset n : Nat)
    (hdisj : n ≤ offset) (hback : offset ≤ dst) (hfit : dst + n ≤ output.length)
    (hsize : output.length < 2 ^ 64) :
    ∃ out, memcpyWithin output dst offset n = .ok out ∧ out.length = output.length ∧
      (∀ k, k < n → out.getD (dst + k) 0 = output.getD (dst - offset + k) 0) ∧
      (∀ i, i < dst ∨ dst + n ≤ i → out.getD i 0 = output.getD i 0) := by
  have hsrc : (dst + 2 ^ 64 - offset % 2 ^ 64) % 2 ^ 64 = dst - offset := by
    rw [Nat.mod_eq_of_lt (by omega : offset < 2 ^ 64)]
    have : dst + 2 ^ 64 - offset = (dst - offset) + 2 ^ 64 := by omega
    rw [this, Nat.add_mod_right, Nat.mod_eq_of_lt (by omega)]
  unfold memcpyWithin
  simp only [hsrc]
  by_cases hn : n = 0
  · subst hn
    refine ⟨output, by simp, rfl, fun k hk => absurd hk (by omega), fun _ _ => rfl⟩
  · have hlen : ((output.drop (dst - offset)).take n).length = n := by
      simp; omega
    rw [if_neg hn, if_neg (by omega), if_neg (by omega)]
    refine ⟨_, rfl, ?_, ?_, ?_⟩
    · rw [overwrite_length]; omega
    · intro k hk
      rw [List.getD_eq_getElem?_getD, List.getD_eq_getElem?_getD,
        overwrite_get_mid _ _ _ _ (by omega) (by omega), List.getElem?_take, if_pos hk,
        List.getElem?_drop]
    · intro i hi
      rw [List.getD_eq_getElem?_getD, List.getD_eq_getElem?_getD]
      rcases hi with hi | hi
      · rw [overwrite_get_left _ _ _ _ (by omega) hi]
      · rw [overwrite_get_right _ _ _ _ (by omega) (by omega)]

/-- C5 (counterexample): on the stream with offset 2 and length 10 the block copy
of `Decompress` has overlapping source and destination, and the result is not
the buffer `ABABABABABAB`. -/
theorem Decompress_overlapStream :
    Decompress overlapStream [] = .error .overlap ∧
    Decompress overlapStream [] ≠
      .ok [0x41, 0x42, 0x41, 0x42, 0x41, 0x42, 0x41, 0x42, 0x41, 0x42, 0x41, 0x42] := by
  decide

/-- C5 (amended): a round of `Decompress` that reads a back-reference with
`runLen ≤ offset ≤ decompPos` and `decompPos + runLen` inside the output buffer
copies the `runLen` bytes found `offset` positions back to the output position,
changes no other byte, and advances the output position by `runLen`. -/
theorem DecompressStep_backReference (input : List Nat) (s : DecompState)
    (itr1 itr2 itr3 offset runLen : Nat)
    (htag : Decode (inputImage input) s.itr 0 = .ok (itr1, SEQ_LOOKUP))
    (hoff : Decode (inputImage input) itr1 0 = .ok (itr2, offset))
    (hrun : Decode (inputImage input) itr2 0 = .ok (itr3, runLen))
    (hdisj : runLen ≤ offset) (hback : offset ≤ s.decompPos)
    (hfit : s.decompPos + runLen ≤ s.output.length) (hsize : s.output.length < 2 ^ 64) :
    ∃ out, DecompressStep input s = .ok ⟨itr3, s.decompPos + runLen, out⟩ ∧
      out.length = s.output.length ∧
      (∀ k, k < runLen →
        out.getD (s.decompPos + k) 0 = s.output.getD (s.decompPos - offset + k) 0) ∧
      (∀ i, i < s.decompPos ∨ s.decompPos + runLen ≤ i →
        out.getD i 0 = s.output.getD i 0) := by
  obtain ⟨out, hcopy, hlen, hmid, hrest⟩ :=
    memcpyWithin_disjoint s.output s.decompPos offset runLen hdisj hback hfit hsize
  refine ⟨out, ?_, hlen, hmid, hrest⟩
  unfold DecompressStep
  simp only [htag, hoff, hrun, hcopy]
  rw [if_neg (by decide), if_neg (by decide), if_pos trivial, Nat.mod_eq_of_lt (by omega)]

/-- C5 (amended, at an input): the stream with header 4, literal run `AB` and a
back-reference with offset 2 and length 2 meets the hypotheses at its second
round. -/
theorem DecompressStep_backReference_witness :
    ∃ out, DecompressStep disjointStream ⟨5, 2, [0x41, 0x42, 0x20, 0x20]⟩ = .ok ⟨8, 2 + 2, out⟩ ∧
      out.length = 4 ∧
      (∀ k, k < 2 → out.getD (2 + k) 0 = [0x41, 0x42, 0x20, 0x20].getD (2 - 2 + k) 0) ∧
      (∀ i, i < 2 ∨ 2 + 2 ≤ i → out.getD i 0 = [0x41, 0x42, 0x20, 0x20].getD i 0) :=
  DecompressStep_backReference disjointStream ⟨5, 2, [0x41, 0x42, 0x20, 0x20]⟩ 6 7 8 2 2
    (by decide) (by decide) (by decide) (by decide) (by decide) (by decide) (by decide)

/-- C9 (counterexample): the stream `00 04` carries the unknown tag 4, and
`Decompress` returns an output buffer, the empty one. -/
theorem Decompress_unknown_tag : Decompress [0x00, 0x04] [] = .ok [] := by
  decide

/-- C9 (amended): a round of `Decompress` whose tag decodes to a value other than
1, 2 and 3 is no fault: it writes nothing, keeps the output position and goes on
behind the tag. -/
theorem DecompressStep_unknown_tag (input : List Nat) (s : DecompState) (itr type : Nat)
    (htag : Decode (inputImage input) s.itr 0 = .ok (itr, type))
    (h1 : type ≠ END_OF_BUFFER) (h2 : type ≠ SEQ_LOOKUP) (h3 : type ≠ SEQ_LEN) :
    DecompressStep input s = .ok ⟨itr, s.decompPos, s.output⟩ := by
  unfold DecompressStep
  simp only [htag]
  rw [if_neg h1, if_neg h3, if_neg h2]

/-- C9 (amended, at an input): the round at the tag of the stream `00 04`. -/
theorem DecompressStep_unknown_tag_witness :
    DecompressStep [0x00, 0x04] ⟨1, 0, []⟩ = .ok ⟨2, 0, []⟩ :=
  DecompressStep_unknown_tag [0x00, 0x04] ⟨1, 0, []⟩ 2 4 (by decide) (by decide) (by decide)
    (by decide)

/-- C10 (counterexample): on the stream `01 02 05 01` (declared length 1, then a
back-reference with offset 5 and length 1 at output position 0) the block copy
of `Decompress` is run with a source outside the output buffer. -/
theorem Decompress_offset_before_start :
    Decompress [0x01, 0x02, 0x05, 0x01] [] = .error .outputAccess := by
  decide

/-- A block copy inside the output buffer of at least one byte whose source
starts before the buffer, or whose destination ends behind it, leaves the
buffer. -/
theorem memcpyWithin_outside (output : List Nat) (dst offset n : Nat) (hn : n ≠ 0)
    (hbad : (dst < offset ∧ offset < 2 ^ 63 ∧ output.length < 2 ^ 63) ∨
      output.length < dst + n) :
    memcpyWithin output dst offset n = .error .outputAccess := by
  unfold memcpyWithin
  simp only []
  rw [if_neg hn, if_pos]
  rcases hbad with ⟨h1, h2, h3⟩ | h
  · left
    by_cases hd : dst < 2 ^ 63
    · rw [Nat.mod_eq_of_lt (by omega : offset < 2 ^ 64),
        Nat.mod_eq_of_lt (by omega : dst + 2 ^ 64 - offset < 2 ^ 64)]
      omega
    · omega
  · right; exact h

/-- C10 (amended): `Decompress` checks no range.  A round that reads a
back-reference of non-zero length whose offset exceeds the output position
(offset and buffer size below `2 ^ 63`), or whose length passes the end of the
output buffer, runs its block copy outside the output buffer; a round that
reads a literal run of non-zero length that passes the end of the output buffer runs its
block copy outside the output buffer or outside the input. -/
theorem DecompressStep_unchecked :
    (∀ (input : List Nat) (s : DecompState) (itr1 itr2 itr3 offset runLen : Nat),
      Decode (inputImage input) s.itr 0 = .ok (itr1, SEQ_LOOKUP) →
      Decode (inputImage input) itr1 0 = .ok (itr2, offset) →
      Decode (inputImage input) itr2 0 = .ok (itr3, runLen) →
      runLen ≠ 0 →
      ((s.decompPos < offset ∧ offset < 2 ^ 63 ∧ s.output.length < 2 ^ 63) ∨
        s.output.length < s.decompPos + runLen) →
      DecompressStep input s = .error .outputAccess) ∧
    (∀ (input : List Nat) (s : DecompState) (itr1 itr2 length : Nat),
      Decode (inputImage input) s.itr 0 = .ok (itr1, SEQ_LEN) →
      Decode (inputImage input) itr1 0 = .ok (itr2, length) →
      length ≠ 0 →
      s.output.length < s.decompPos + length →
      DecompressStep input s = .error .outputAccess ∨
        DecompressStep input s = .error .inputAccess) := by
  constructor
  · intro input s itr1 itr2 itr3 offset runLen htag hoff hrun hn hbad
    unfold DecompressStep
    simp only [htag, hoff, hrun, memcpyWithin_outside s.output s.decompPos offset runLen hn hbad]
    rw [if_neg (by decide), if_neg (by decide), if_pos trivial]
  · intro input s itr1 itr2 length htag hlen hn hbad
    unfold DecompressStep
    simp only [htag, hlen]
    rw [if_neg (by decide), if_pos trivial]
    unfold memcpyFromInput
    rw [if_neg hn]
    by_cases hin : (inputImage input).length < itr2 + length
    · right; rw [if_pos hin]
    · left; rw [if_neg hin, if_pos hbad]

/-- C10 (amended, at inputs): the back-reference of the stream `01 02 05 01` and
the literal run of length 2 of the stream `01 03 02 41 42`, each in an output
buffer of one byte. -/
theorem DecompressStep_unchecked_witness :
    DecompressStep [0x01, 0x02, 0x05, 0x01] ⟨1, 0, [0x20]⟩ = .error .outputAccess ∧
    (DecompressStep [0x01, 0x03, 0x02, 0x41, 0x42] ⟨1, 0, [0x20]⟩ = .error .outputAccess ∨
      DecompressStep [0x01, 0x03, 0x02, 0x41, 0x42] ⟨1, 0, [0x20]⟩ = .error .inputAccess) :=
  ⟨DecompressStep_unchecked.1 [0x01, 0x02, 0x05, 0x01] ⟨1, 0, [0x20]⟩ 2 3 4 5 1
      (by decide) (by decide) (by decide) (by decide) (by decide),
    DecompressStep_unchecked.2 [0x01, 0x03, 0x02, 0x41, 0x42] ⟨1, 0, [0x20]⟩ 2 3 2
      (by decide) (by decide) (by decide) (by decide)⟩

/-! ## Fuel of the decoder loops -/

/-- Six rounds settle `Decode`: a continuation byte at group index 5 is a fault,
so no round is asked for after the sixth. -/
theorem DecodeLoop_fuel (mem : List Nat) :
    ∀ fuel dataPtr shift value, 1 ≤ fuel → 6 ≤ fuel + shift →
      DecodeLoop mem fuel dataPtr shift value ≠ .error .outOfFuel := by
  intro fuel
  induction fuel with
  | zero => intro _ _ _ h; omega
  | succ fuel ih =>
    intro dataPtr shift value _ hsum
    unfold DecodeLoop
    cases mem.get? dataPtr with
    | none => simp
    | some b =>
      simp only []
      by_cases hc : hdrContinueFlag b = 1
      · rw [if_pos hc]
        by_cases hs : LEN_SHIFT * shift ≥ 32
        · rw [if_pos hs]; simp
        · rw [if_neg hs]
          unfold LEN_SHIFT at hs
          exact ih _ _ _ (by omega) (by omega)
      · rw [if_neg hc]; simp

/-- A successful `Decode` moves the cursor forward. -/
theorem DecodeLoop_advances (mem : List Nat) :
    ∀ fuel dataPtr shift value q x,
      DecodeLoop mem fuel dataPtr shift value = .ok (q, x) → dataPtr < q := by
  intro fuel
  induction fuel with
  | zero => intro _ _ _ _ _ h; simp [DecodeLoop] at h
  | succ fuel ih =>
    intro dataPtr shift value q x h
    unfold DecodeLoop at h
    cases hb : mem.get? dataPtr with
    | none => rw [hb] at h; simp at h
    | some b =>
      rw [hb] at h
      simp only [] at h
      by_cases hc : hdrContinueFlag b = 1
      · rw [if_pos hc] at h
        by_cases hs : LEN_SHIFT * shift ≥ 32
        · rw [if_pos hs] at h; simp at h
        · rw [if_neg hs] at h
          have := ih _ _ _ _ _ h
          omega
      · rw [if_neg hc] at h
        simp only [Except.ok.injEq, Prod.mk.injEq] at h
        omega

/-- A round of `Decompress` that returns has moved the cursor forward. -/
theorem DecompressStep_advances (input : List Nat) (s s1 : DecompState)
    (hin : s.itr < input.length) (h : DecompressStep input s = .ok s1) : s.itr < s1.itr := by
  unfold DecompressStep at h
  cases h0 : Decode (inputImage input) s.itr 0 with
  | error f => rw [h0] at h; simp at h
  | ok r =>
    obtain ⟨itr1, type⟩ := r
    have a0 := DecodeLoop_advances _ _ _ _ _ _ _ h0
    rw [h0] at h
    simp only [] at h
    split at h
    · split at h
      · simp at h
      · simp only [Except.ok.injEq] at h
        rw [← h]; exact hin
    · split at h
      · cases h1 : Decode (inputImage input) itr1 0 with
        | error f => rw [h1] at h; simp at h
        | ok r1 =>
          obtain ⟨itr2, length⟩ := r1
          have a1 := DecodeLoop_advances _ _ _ _ _ _ _ h1
          rw [h1] at h
          simp only [] at h
          split at h
          · simp at h
          · simp only [Except.ok.injEq] at h
            rw [← h]
            show s.itr < itr2 + length
            omega
      · split at h
        · cases h1 : Decode (inputImage input) itr1 0 with
          | error f => rw [h1] at h; simp at h
          | ok r1 =>
            obtain ⟨itr2, offset⟩ := r1
            have a1 := DecodeLoop_advances _ _ _ _ _ _ _ h1
            rw [h1] at h
            simp only [] at h
            cases h2 : Decode (inputImage input) itr2 0 with
            | error f => rw [h2] at h; simp at h
            | ok r2 =>
              obtain ⟨itr3, runLen⟩ := r2
              have a2 := DecodeLoop_advances _ _ _ _ _ _ _ h2
              rw [h2] at h
              simp only [] at h
              split at h
              · simp at h
              · simp only [Except.ok.injEq] at h
                rw [← h]
                show s.itr < itr3
                omega
        · simp only [Except.ok.injEq] at h
          rw [← h]
          exact a0

theorem Decode_fuel (mem : List Nat) (dataPtr value : Nat) :
    Decode mem dataPtr value ≠ .error .outOfFuel :=
  DecodeLoop_fuel mem 6 dataPtr 0 value (by omega) (by omega)

theorem memcpyFromInput_fuel (mem output : List Nat) (dst src n : Nat) :
    memcpyFromInput mem output dst src n ≠ .error .outOfFuel := by
  unfold memcpyFromInput
  split
  · simp
  · split
    · simp
    · split <;> simp

theorem memcpyWithin_fuel (output : List Nat) (dst offset n : Nat) :
    memcpyWithin output dst offset n ≠ .error .outOfFuel := by
  unfold memcpyWithin
  simp only []
  split
  · simp
  · split
    · simp
    · split <;> simp

/-- A round of `Decompress` is no loop of the embedding out of fuel. -/
theorem DecompressStep_fuel (input : List Nat) (s : DecompState) :
    DecompressStep input s ≠ .error .outOfFuel := by
  unfold DecompressStep
  cases h0 : Decode (inputImage input) s.itr 0 with
  | error f =>
    simp only []
    intro hf
    cases hf
    exact Decode_fuel _ _ _ h0
  | ok r =>
    obtain ⟨itr1, type⟩ := r
    simp only []
    split
    · have := memcpyFromInput_fuel (inputImage input) s.output s.decompPos itr1
        ((input.length + 2 ^ 64 - itr1) % 2 ^ 64)
      split
      · rename_i f hf
        intro hg
        cases hg
        exact this hf
      · simp
    · split
      · cases h1 : Decode (inputImage input) itr1 0 with
        | error f =>
          simp only []
          intro hf
          cases hf
          exact Decode_fuel _ _ _ h1
        | ok r1 =>
          obtain ⟨itr2, length⟩ := r1
          simp only []
          have := memcpyFromInput_fuel (inputImage input) s.output s.decompPos itr2 length
          split
          · rename_i f hf
            intro hg
            cases hg
            exact this hf
          · simp
      · split
        · cases h1 : Decode (inputImage input) itr1 0 with
          | error f =>
            simp only []
            intro hf
            cases hf
            exact Decode_fuel _ _ _ h1
          | ok r1 =>
            obtain ⟨itr2, offset⟩ := r1
            simp only []
            cases h2 : Decode (inputImage input) itr2 0 with
            | error f =>
              simp only []
              intro hf
              cases hf
              exact Decode_fuel _ _ _ h2
            | ok r2 =>
              obtain ⟨itr3, runLen⟩ := r2
              simp only []
              have := memcpyWithin_fuel s.output s.decompPos offset runLen
              split
              · rename_i f hf
                intro hg
                cases hg
                exact this hf
              · simp
        · simp

/-- The loop of `Decompress` ends within `input.length` rounds. -/
theorem DecompressLoop_fuel (input : List Nat) :
    ∀ fuel s, input.length ≤ s.itr + fuel →
      DecompressLoop input fuel s ≠ .error .outOfFuel := by
  intro fuel
  induction fuel with
  | zero =>
    intro s h
    unfold DecompressLoop
    rw [if_neg (by omega)]
    simp
  | succ fuel ih =>
    intro s h
    unfold DecompressLoop
    by_cases hin : s.itr < input.length
    · rw [if_pos hin]
      cases hs : DecompressStep input s with
      | error f =>
        simp only []
        intro hf
        cases hf
        exact DecompressStep_fuel input s hs
      | ok s1 =>
        simp only []
        have := DecompressStep_advances input s s1 hin hs
        exact ih s1 (by omega)
    · rw [if_neg hin]; simp

/-- The fuel of `Decompress` is enough: its result is an output buffer or a fault
of the source. -/
theorem Decompress_fuel (input output : List Nat) :
    Decompress input output ≠ .error .outOfFuel := by
  unfold Decompress
  split
  · simp
  · cases h0 : Decode (inputImage input) 0 0 with
    | error f =>
      simp only []
      intro hf
      cases hf
      exact Decode_fuel _ _ _ h0
    | ok r =>
      obtain ⟨itr, uncompressedLen⟩ := r
      simp only []
      have := DecompressLoop_fuel input input.length ⟨itr, 0, resize output uncompressedLen⟩
        (by show input.length ≤ itr + input.length; omega)
      split
      · rename_i f hf
        intro hg
        cases hg
        exact this hf
      · simp

/-! ## `Compress`: results -/

/-- A value below 128 is encoded as one byte, itself. -/
theorem Encode_small (v : Nat) (output : List Nat) (hv : v < 128) :
    Encode v output = output ++ [v] := by
  unfold Encode EncodeLoop
  have h1 : v % 2 ^ 32 = v := Nat.mod_eq_of_lt (by omega)
  rw [h1, if_neg (by unfold SEQ_LIMIT; omega), Nat.mod_eq_of_lt (by omega)]

/-- The test `itr > (endPtr - MinSearchLen)` when the subtraction does not wrap. -/
theorem nearEnd_of_fits (MinSearchLen : Nat) (env : Surroundings) (input : List Nat) (itr : Nat)
    (h : MinSearchLen ≤ env.inputAddr + input.length) :
    nearEnd MinSearchLen env input itr ↔ itr + MinSearchLen > input.length := by
  unfold nearEnd
  rw [if_pos h]

/-- The test `itr > (endPtr - MinSearchLen)` when the subtraction wraps. -/
theorem nearEnd_of_wraps (MinSearchLen : Nat) (env : Surroundings) (input : List Nat) (itr : Nat)
    (h : ¬ MinSearchLen ≤ env.inputAddr + input.length) :
    nearEnd MinSearchLen env input itr ↔ itr + MinSearchLen > input.length + 2 ^ 64 := by
  unfold nearEnd
  rw [if_neg h]

/-- A cursor at which the test fails is a `size_t`. -/
theorem lt_of_not_nearEnd (MinSearchLen : Nat) (env : Surroundings) (input : List Nat)
    (itr : Nat) (hlen : input.length < 2 ^ 64) (h : ¬ nearEnd MinSearchLen env input itr) :
    itr < 2 ^ 64 := by
  unfold nearEnd at h
  split at h <;> omega

/-- A round in which the test holds ends the loop with the end-of-buffer tag, the
pending bytes and the rest of the input. -/
theorem CompressStep_of_nearEnd (MinSearchLen SearchTblCnt : Nat) (env : Surroundings)
    (input : List Nat) (s : CompState) (h : nearEnd MinSearchLen env input s.itr) :
    CompressStep MinSearchLen SearchTblCnt env input s =
      .ok (false, ⟨s.itr, s.pendingData,
        Encode END_OF_BUFFER s.output ++ s.pendingData ++ input.drop s.itr, s.table⟩) := by
  unfold CompressStep
  rw [if_pos h]

/-- The table of a fresh compressor has `SearchTblCnt` slots when the size of the
allocation does not wrap. -/
theorem freshTable_length (SearchTblCnt : Nat) (h : SearchTblCnt < 2 ^ 61) :
    (freshTable SearchTblCnt).length = SearchTblCnt := by
  unfold freshTable lookupBufferBytes
  rw [List.length_replicate]
  omega

/-- An input shorter than `MinSearchLen`, where `endPtr - MinSearchLen` does not
wrap, is compressed to `Encode` of its length, the byte 1 (`END_OF_BUFFER`) and the
input itself. -/
theorem Compress_short_input (MinSearchLen SearchTblCnt : Nat) (env : Surroundings)
    (input : List Nat) (hfit : MinSearchLen ≤ env.inputAddr + input.length)
    (hlen : input.length < MinSearchLen) :
    Compress MinSearchLen SearchTblCnt env input =
      .ok (Encode input.length [] ++ [0x01] ++ input) := by
  unfold Compress CompressFrom CompressLoop
  simp only [Nat.zero_le, if_true]
  unfold CompressStep
  simp only []
  rw [if_pos ((nearEnd_of_fits MinSearchLen env input 0 hfit).mpr (by omega))]
  simp [Encode_small, END_OF_BUFFER]

set_option maxRecDepth 100000 in
/-- C6 (code at the failing input): with `MinSearchLen = 2 ^ 64 - 1` (or
`2 ^ 63`) the pointer `endPtr - MinSearchLen` wraps to an address behind `endPtr`,
the test for a short rest of the input fails at every cursor, and `ProcessHash`
runs up to the terminating null character, which is taken as a literal.  The two
bytes `AB` are compressed to `02 01 41 42 00` and not to `02 01 41 42`, and the
empty input to `00 01 00` and not to `00 01`. -/
theorem Compress_wrapped_minimum :
    Compress (2 ^ 64 - 1) 1024 quietEnv [0x41, 0x42] = .ok [0x02, 0x01, 0x41, 0x42, 0x00] ∧
    Compress (2 ^ 64 - 1) 1024 quietEnv [] = .ok [0x00, 0x01, 0x00] ∧
    Compress (2 ^ 63) 1024 quietEnv [] = .ok [0x00, 0x01, 0x00] ∧
    Encode [0x41, 0x42].length [] ++ [0x01] ++ [0x41, 0x42] = [0x02, 0x01, 0x41, 0x42] ∧
    [0x41, 0x42].length < 2 ^ 64 - 1 := by
  decide

/-! ## Termination of `Compress` -/

theorem TableBelow_freshTable (SearchTblCnt n : Nat) : TableBelow (freshTable SearchTblCnt) n := by
  intro i p h
  unfold slot freshTable at h
  rw [List.getD_eq_getElem?_getD, List.getElem?_replicate] at h
  split at h <;> simp at h

theorem TableBelow_mono (table : Table) (n m : Nat) (h : TableBelow table n) (hnm : n ≤ m) :
    TableBelow table m :=
  fun i p hp => Nat.lt_of_lt_of_le (h i p hp) hnm

/-- A slot of an updated table holds the new value or its old content. -/
theorem slot_set (table : Table) (c i : Nat) (v : Option Nat) :
    slot (table.set c v) i = v ∨ slot (table.set c v) i = slot table i := by
  unfold slot
  rw [List.getD_eq_getElem?_getD, List.getD_eq_getElem?_getD, List.getElem?_set]
  by_cases h : c = i
  · by_cases hc : i < table.length
    · left; simp [h, hc]
    · right
      rw [List.getElem?_eq_none (by omega)]
      simp [h, hc]
  · right; simp [h]

theorem TableBelow_set (table : Table) (c itr : Nat) (h : TableBelow table itr) :
    TableBelow (table.set c (some itr)) (itr + 1) := by
  intro i p hp
  rcases slot_set table c i (some itr) with h1 | h1
  · rw [h1] at hp
    cases hp
    omega
  · rw [h1] at hp
    exact Nat.lt_succ_of_lt (h i p hp)

/-- The comparison loop ends: a round goes on only while the candidate range
stays before the cursor. -/
theorem MatchLoop_ok (env : Surroundings) (input : List Nat) (itr cand : Nat) :
    ∀ fuel sequenceLen, 1 ≤ fuel → itr ≤ fuel + cand + sequenceLen →
      ∃ n, MatchLoop env input itr cand fuel sequenceLen = .ok n := by
  intro fuel
  induction fuel with
  | zero => intro _ h; omega
  | succ fuel ih =>
    intro sequenceLen _ hfuel
    unfold MatchLoop
    by_cases heq : readInput env input (itr + sequenceLen) = readInput env input (cand + sequenceLen)
    · rw [if_pos heq]
      by_cases hstop : sequenceLen + 1 ≥ endDistance env itr ∨ cand + (sequenceLen + 1) ≥ itr
      · rw [if_pos hstop]; exact ⟨_, rfl⟩
      · rw [if_neg hstop]
        have h2 : ¬ cand + (sequenceLen + 1) ≥ itr := fun h => hstop (Or.inr h)
        exact ih (sequenceLen + 1) (by omega) (by omega)
    · rw [if_neg heq]; exact ⟨_, rfl⟩

/-- The scan ends within `SearchTblCnt` probes, on a slot of the table, and
divides by no zero, when the table points before the cursor. -/
theorem ScanLoop_ok (MinSearchLen SearchTblCnt : Nat) (env : Surroundings) (input : List Nat)
    (table : Table) (itr base runLen offset : Nat) (hbase : base < SearchTblCnt)
    (htab : TableBelow table itr) (hitr : itr < 2 ^ 64) :
    ∀ fuel curr, curr < SearchTblCnt →
      ((curr = base ∧ SearchTblCnt ≤ fuel) ∨ (base < curr ∧ curr - base ≤ fuel) ∨
        (curr < base ∧ curr + SearchTblCnt - base ≤ fuel)) →
      ∃ r, ScanLoop MinSearchLen SearchTblCnt env input table itr base runLen offset fuel curr
        = .ok r ∧ r.curr < SearchTblCnt := by
  intro fuel
  induction fuel with
  | zero => intro curr hcurr h; omega
  | succ fuel ih =>
    intro curr hcurr hfuel
    unfold ScanLoop
    cases hslot : slot table curr with
    | none => exact ⟨_, rfl, hcurr⟩
    | some cand =>
      have hcand : cand < itr := htab curr cand hslot
      obtain ⟨n, hn⟩ := MatchLoop_ok env input itr cand (itr + 1) 0 (by omega) (by omega)
      simp only [hn]
      by_cases hmin : n ≥ MinSearchLen
      · rw [if_pos hmin]
        have hdelta : (itr + 2 ^ 64 - cand % 2 ^ 64) % 2 ^ 64 = itr - cand := by
          rw [Nat.mod_eq_of_lt (by omega : cand < 2 ^ 64)]
          have : itr + 2 ^ 64 - cand = (itr - cand) + 2 ^ 64 := by omega
          rw [this, Nat.add_mod_right, Nat.mod_eq_of_lt (by omega)]
        rw [hdelta, if_neg (by omega)]
        by_cases hq : n * SearchTblCnt % 2 ^ 64 / (itr - cand) > 0
        · rw [if_pos hq]; exact ⟨_, rfl, hcurr⟩
        · rw [if_neg hq]; exact ⟨_, rfl, hcurr⟩
      · rw [if_neg hmin]
        by_cases hne : slot table (if curr = 0 then SearchTblCnt - 1 else curr - 1) ≠ slot table base
        · rw [if_pos hne]
          have hprev : (if curr = 0 then SearchTblCnt - 1 else curr - 1) ≠ base := by
            intro h; exact hne (by rw [h])
          apply ih
          · split <;> omega
          · split at hprev <;> split <;> omega
        · rw [if_neg hne]
          refine ⟨_, rfl, ?_⟩
          show (if curr = 0 then SearchTblCnt - 1 else curr - 1) < SearchTblCnt
          split <;> omega

/-- With a divisor that is not zero `Hash32` returns a slot index. -/
theorem Hash32_ok (SearchTblCnt : Nat) (env : Surroundings) (input : List Nat) (ptr : Nat)
    (hcap : 1 ≤ SearchTblCnt) :
    ∃ bucket, Hash32 SearchTblCnt env input ptr = .ok bucket ∧ bucket < SearchTblCnt := by
  unfold Hash32
  simp only []
  rw [if_neg (by omega)]
  exact ⟨_, rfl, Nat.mod_lt _ (by omega)⟩

/-- On a table of `SearchTblCnt` slots that points before the cursor `ProcessHash`
returns, and the updated table has as many slots and points before the next
byte. -/
theorem ProcessHash_ok (MinSearchLen SearchTblCnt : Nat) (env : Surroundings) (input : List Nat)
    (table : Table) (itr runLen offset : Nat) (hcap : 1 ≤ SearchTblCnt)
    (htab : TableBelow table itr) (hitr : itr < 2 ^ 64) (hsize : table.length = SearchTblCnt) :
    ∃ r table1, ProcessHash MinSearchLen SearchTblCnt env input table itr runLen offset
        = .ok (r, table1) ∧ TableBelow table1 (itr + 1) ∧ table1.length = SearchTblCnt := by
  obtain ⟨bucket, hh, hb⟩ := Hash32_ok SearchTblCnt env input itr hcap
  obtain ⟨r, hr, hc⟩ := ScanLoop_ok MinSearchLen SearchTblCnt env input table itr bucket
    runLen offset hb htab hitr SearchTblCnt bucket hb (Or.inl ⟨rfl, Nat.le_refl _⟩)
  unfold ProcessHash
  rw [hh]
  simp only []
  rw [if_neg (by omega), hr]
  simp only []
  rw [if_neg (by omega)]
  exact ⟨r, _, rfl, TableBelow_set table r.curr itr htab, by rw [List.length_set]; exact hsize⟩

/-- The result of `ProcessHash` from the results of `Hash32` and of the scan, when
both slots lie in the table. -/
theorem ProcessHash_of_scan (MinSearchLen SearchTblCnt : Nat) (env : Surroundings)
    (input : List Nat) (table : Table) (itr runLen offset bucket : Nat) (r : Scan)
    (hh : Hash32 SearchTblCnt env input itr = .ok bucket) (hb : bucket < table.length)
    (hs : ScanLoop MinSearchLen SearchTblCnt env input table itr bucket runLen offset
      SearchTblCnt bucket = .ok r)
    (hc : r.curr < table.length) :
    ProcessHash MinSearchLen SearchTblCnt env input table itr runLen offset
      = .ok (r, table.set r.curr (some itr)) := by
  unfold ProcessHash
  rw [hh]
  simp only []
  rw [if_neg (by omega), hs]
  simp only []
  rw [if_neg (by omega)]

/-- The scan ends within `SearchTblCnt` probes, whatever the table holds: after
at most that many steps backward it is at the slot it started from. -/
theorem ScanLoop_ends (MinSearchLen SearchTblCnt : Nat) (env : Surroundings) (input : List Nat)
    (table : Table) (itr base runLen offset : Nat) (hbase : base < SearchTblCnt) :
    ∀ fuel curr, curr < SearchTblCnt →
      ((curr = base ∧ SearchTblCnt ≤ fuel) ∨ (base < curr ∧ curr - base ≤ fuel) ∨
        (curr < base ∧ curr + SearchTblCnt - base ≤ fuel)) →
      ScanLoop MinSearchLen SearchTblCnt env input table itr base runLen offset fuel curr
        ≠ .error .outOfFuel := by
  intro fuel
  induction fuel with
  | zero => intro curr hcurr h; omega
  | succ fuel ih =>
    intro curr hcurr hfuel
    unfold ScanLoop
    cases hslot : slot table curr with
    | none => simp
    | some cand =>
      obtain ⟨n, hn⟩ := MatchLoop_ok env input itr cand (itr + 1) 0 (by omega) (by omega)
      simp only [hn]
      by_cases hmin : n ≥ MinSearchLen
      · rw [if_pos hmin]
        split
        · simp
        · split <;> simp
      · rw [if_neg hmin]
        by_cases hne : slot table (if curr = 0 then SearchTblCnt - 1 else curr - 1) ≠ slot table base
        · rw [if_pos hne]
          have hprev : (if curr = 0 then SearchTblCnt - 1 else curr - 1) ≠ base := by
            intro h; exact hne (by rw [h])
          apply ih
          · split <;> omega
          · split at hprev <;> split <;> omega
        · rw [if_neg hne]; simp

/-- A round of the main loop that goes on has moved the cursor forward. -/
theorem CompressStep_advances (MinSearchLen SearchTblCnt : Nat) (env : Surroundings)
    (input : List Nat) (s s1 : CompState) (hMin : 1 ≤ MinSearchLen)
    (h : CompressStep MinSearchLen SearchTblCnt env input s = .ok (true, s1)) :
    s.itr + 1 ≤ s1.itr := by
  unfold CompressStep at h
  split at h
  · simp at h
  · split at h
    · simp at h
    · rename_i r table hp
      simp only [] at h
      split at h
      · split at h
        · simp at h
        · simp only [Except.ok.injEq, Prod.mk.injEq, true_and] at h
          subst h
          exact Nat.le_refl _
      · rename_i hrun
        simp only [Except.ok.injEq, Prod.mk.injEq, true_and] at h
        subst h
        show s.itr + 1 ≤ s.itr + r.runLen
        omega

/-- A round of the main loop on a table of `SearchTblCnt` slots that points before
the cursor returns, and leaves such a table that points before the new cursor. -/
theorem CompressStep_ok (MinSearchLen SearchTblCnt : Nat) (env : Surroundings)
    (input : List Nat) (s : CompState) (hMin : 1 ≤ MinSearchLen) (hcap : 1 ≤ SearchTblCnt)
    (htab : TableBelow s.table s.itr) (hitr : s.itr < 2 ^ 64)
    (hsize : s.table.length = SearchTblCnt) :
    ∃ b s1, CompressStep MinSearchLen SearchTblCnt env input s = .ok (b, s1) ∧
      TableBelow s1.table s1.itr ∧ s1.table.length = SearchTblCnt := by
  unfold CompressStep
  by_cases hend : nearEnd MinSearchLen env input s.itr
  · rw [if_pos hend]; exact ⟨_, _, rfl, htab, hsize⟩
  · rw [if_neg hend]
    obtain ⟨r, table1, hp, htab1, hsize1⟩ :=
      ProcessHash_ok MinSearchLen SearchTblCnt env input s.table s.itr 0 0 hcap htab hitr hsize
    simp only [hp]
    by_cases hrun : r.runLen < MinSearchLen
    · rw [if_pos hrun]
      by_cases hlast : s.itr + 1 > input.length
      · rw [if_pos hlast]; exact ⟨_, _, rfl, htab1, hsize1⟩
      · rw [if_neg hlast]; exact ⟨_, _, rfl, htab1, hsize1⟩
    · rw [if_neg hrun]
      exact ⟨_, _, rfl,
        TableBelow_mono _ _ _ htab1 (by show s.itr + 1 ≤ s.itr + r.runLen; omega), hsize1⟩

/-- The main loop returns when its fuel covers the bytes left. -/
theorem CompressLoop_ok (MinSearchLen SearchTblCnt : Nat) (env : Surroundings)
    (input : List Nat) (hMin : 1 ≤ MinSearchLen) (hcap : 1 ≤ SearchTblCnt)
    (hlen : input.length < 2 ^ 64) :
    ∀ fuel s, TableBelow s.table s.itr → s.table.length = SearchTblCnt →
      input.length + 1 ≤ s.itr + fuel →
      ∃ s1, CompressLoop MinSearchLen SearchTblCnt env input fuel s = .ok s1 := by
  intro fuel
  induction fuel with
  | zero =>
    intro s _ _ hfuel
    unfold CompressLoop
    rw [if_neg (by omega)]
    exact ⟨_, rfl⟩
  | succ fuel ih =>
    intro s htab hsize hfuel
    unfold CompressLoop
    by_cases hin : s.itr ≤ input.length
    · rw [if_pos hin]
      obtain ⟨b, s1, hs, htab1, hsize1⟩ :=
        CompressStep_ok MinSearchLen SearchTblCnt env input s hMin hcap htab (by omega) hsize
      rw [hs]
      cases b with
      | false => exact ⟨_, rfl⟩
      | true =>
        have := CompressStep_advances MinSearchLen SearchTblCnt env input s s1 hMin hs
        exact ih s1 htab1 hsize1 (by omega)
    · rw [if_neg hin]; exact ⟨_, rfl⟩

/-- With `MinSearchLen ≥ 1` and a table of `1 ≤ SearchTblCnt < 2 ^ 61` slots, in
surroundings whose memory behind the input can be read, `Compress` on a fresh
compressor returns an output for every input of a size a `size_t` can hold;
every round of its main loop that does not stop moves the cursor forward by at
least one byte; and every scan of `ProcessHash` ends within `SearchTblCnt`
probes. -/
theorem Compress_terminates (MinSearchLen SearchTblCnt : Nat) (env : Surroundings)
    (input : List Nat) (hMin : 1 ≤ MinSearchLen) (hcap : 1 ≤ SearchTblCnt)
    (hcap1 : SearchTblCnt < 2 ^ 61) (hlen : input.length < 2 ^ 64) :
    (∃ output, Compress MinSearchLen SearchTblCnt env input = .ok output) ∧
    (∀ s s1, CompressStep MinSearchLen SearchTblCnt env input s = .ok (true, s1) →
      s.itr + 1 ≤ s1.itr) ∧
    (∀ table itr base runLen offset, base < SearchTblCnt →
      ScanLoop MinSearchLen SearchTblCnt env input table itr base runLen offset SearchTblCnt base
        ≠ .error .outOfFuel) := by
  refine ⟨?_, ?_, ?_⟩
  · obtain ⟨s1, hs⟩ := CompressLoop_ok MinSearchLen SearchTblCnt env input hMin hcap hlen
      (input.length + 1) ⟨0, [], Encode input.length [], freshTable SearchTblCnt⟩
      (TableBelow_freshTable SearchTblCnt 0) (freshTable_length SearchTblCnt hcap1) (by simp)
    unfold Compress CompressFrom
    rw [hs]
    exact ⟨_, rfl⟩
  · intro s s1 h
    exact CompressStep_advances MinSearchLen SearchTblCnt env input s s1 hMin h
  · intro table itr base runLen offset hbase
    exact ScanLoop_ends MinSearchLen SearchTblCnt env input table itr base runLen offset hbase
      SearchTblCnt base hbase (Or.inl ⟨rfl, Nat.le_refl _⟩)

/-! ## Compression of the repetitive input -/

theorem getD_flatten_replicate_pair (a b : Nat) :
    ∀ n i, i < 2 * n → ((List.replicate n [a, b]).flatten).getD i 0 = if i % 2 = 0 then a else b := by
  intro n
  induction n with
  | zero => intro i hi; omega
  | succ n ih =>
    intro i hi
    rw [List.replicate_succ, List.flatten_cons]
    match i with
    | 0 => rfl
    | 1 => rfl
    | i + 2 =>
      show ((List.replicate n [a, b]).flatten).getD i 0 = _
      rw [ih i (by omega)]
      have : (i + 2) % 2 = i % 2 := by omega
      rw [this]

theorem length_flatten_replicate_pair (a b : Nat) :
    ∀ n, ((List.replicate n [a, b]).flatten).length = 2 * n := by
  intro n
  induction n with
  | zero => rfl
  | succ n ih =>
    rw [List.replicate_succ, List.flatten_cons, List.length_append, ih]
    show 2 + 2 * n = 2 * (n + 1)
    omega

theorem abInput_length : abInput.length = 2048 :=
  length_flatten_replicate_pair 0x41 0x42 1024

theorem readInput_abInput (env : Surroundings) (i : Nat) (hi : i < 2048) :
    readInput env abInput i = if i % 2 = 0 then 0x41 else 0x42 := by
  unfold readInput
  rw [abInput_length, if_pos hi]
  exact getD_flatten_replicate_pair 0x41 0x42 1024 i (by omega)

/-- The comparison loop returns `n` when the first `n` bytes agree and the loop
is stopped by its exit test exactly at `n`. -/
theorem MatchLoop_agree (env : Surroundings) (input : List Nat) (itr cand n : Nat)
    (heq : ∀ j, j < n → readInput env input (itr + j) = readInput env input (cand + j))
    (hgo : ∀ j, j + 1 < n → ¬ (j + 1 ≥ endDistance env itr ∨ cand + (j + 1) ≥ itr))
    (hstop : n ≥ endDistance env itr ∨ cand + n ≥ itr) :
    ∀ fuel sequenceLen, sequenceLen < n → n ≤ fuel + sequenceLen →
      MatchLoop env input itr cand fuel sequenceLen = .ok n := by
  intro fuel
  induction fuel with
  | zero => intro sequenceLen h1 h2; omega
  | succ fuel ih =>
    intro sequenceLen h1 h2
    unfold MatchLoop
    rw [if_pos (heq sequenceLen h1)]
    by_cases hlast : sequenceLen + 1 = n
    · rw [if_pos (by rw [hlast]; exact hstop), hlast]
    · rw [if_neg (hgo sequenceLen (by omega))]
      exact ih (sequenceLen + 1) (by omega) (by omega)

theorem Hash32_abInput_even (k : Nat) (hk : 12 * k + 12 ≤ 2048) :
    Hash32 1024 quietEnv abInput (12 * k) = .ok 408 := by
  have hr : ∀ i, i < 5 → readInput quietEnv abInput (12 * k + i)
      = if i % 2 = 0 then 0x41 else 0x42 := by
    intro i hi
    rw [readInput_abInput quietEnv _ (by omega)]
    have : (12 * k + i) % 2 = i % 2 := by omega
    rw [this]
  unfold Hash32
  have hcount : (1024 / 0xFF % 2 ^ 32 + 1) % 2 ^ 32 = 5 := by decide
  have hrange : List.range 5 = [0, 1, 2, 3, 4] := by decide
  simp only [hcount, hrange, List.foldl_cons, List.foldl_nil]
  rw [hr 0 (by omega), hr 1 (by omega), hr 2 (by omega), hr 3 (by omega), hr 4 (by omega)]
  decide

theorem slot_set_self (table : Table) (c : Nat) (v : Option Nat) (hc : c < table.length) :
    slot (table.set c v) c = v := by
  unfold slot
  rw [List.getD_eq_getElem?_getD, List.getElem?_set]
  simp [hc]

/-- On the repetitive input, at a cursor `12 * k` whose hash slot points twelve
bytes back, `ProcessHash` finds the match of length 12 and offset 12 and moves the
slot to the cursor. -/
theorem ProcessHash_abInput (k : Nat) (table : Table) (hk1 : 1 ≤ k) (hk : 12 * k + 12 ≤ 2048)
    (hslot : slot table 408 = some (12 * (k - 1))) (hsize : table.length = 1024) :
    ProcessHash 12 1024 quietEnv abInput table (12 * k) 0 0
      = .ok (⟨12, 12, 408⟩, table.set 408 (some (12 * k))) := by
  have hmatch : MatchLoop quietEnv abInput (12 * k) (12 * (k - 1)) (12 * k + 1) 0 = .ok 12 := by
    have hd : endDistance quietEnv (12 * k) = 2 ^ 64 - 2 ^ 32 - 12 * k := by
      unfold endDistance quietEnv
      simp only []
      omega
    apply MatchLoop_agree
    · intro j hj
      rw [readInput_abInput quietEnv _ (by omega), readInput_abInput quietEnv _ (by omega)]
      have : (12 * k + j) % 2 = (12 * (k - 1) + j) % 2 := by omega
      rw [this]
    · intro j hj
      rw [hd]
      omega
    · right; omega
    · omega
    · omega
  have hscan : ScanLoop 12 1024 quietEnv abInput table (12 * k) 408 0 0 (1023 + 1) 408
      = .ok ⟨12, 12, 408⟩ := by
    unfold ScanLoop
    simp only [hslot, hmatch]
    have hdelta : (12 * k + 2 ^ 64 - 12 * (k - 1) % 2 ^ 64) % 2 ^ 64 = 12 := by omega
    rw [if_pos (by decide), hdelta, if_neg (by decide), if_pos (by decide)]
  exact ProcessHash_of_scan 12 1024 quietEnv abInput table (12 * k) 0 0 408 ⟨12, 12, 408⟩
    (Hash32_abInput_even k hk) (by omega) hscan (by show 408 < table.length; omega)

theorem CompressLoop_after_rounds (MinSearchLen SearchTblCnt : Nat) (env : Surroundings)
    (input : List Nat) :
    ∀ n s s1 m, CompressRounds MinSearchLen SearchTblCnt env input n s = .ok (true, s1) →
      CompressLoop MinSearchLen SearchTblCnt env input (n + m) s
        = CompressLoop MinSearchLen SearchTblCnt env input m s1 := by
  intro n
  induction n with
  | zero =>
    intro s s1 m h
    unfold CompressRounds at h
    simp only [Except.ok.injEq, Prod.mk.injEq, true_and] at h
    rw [h, Nat.zero_add]
  | succ n ih =>
    intro s s1 m h
    unfold CompressRounds at h
    rw [show n + 1 + m = (n + m) + 1 by omega]
    conv_lhs => unfold CompressLoop
    by_cases hin : s.itr ≤ input.length
    · rw [if_pos hin] at h
      rw [if_pos hin]
      cases hstep : CompressStep MinSearchLen SearchTblCnt env input s with
      | error f => rw [hstep] at h; simp at h
      | ok r =>
        obtain ⟨b, s2⟩ := r
        rw [hstep] at h
        cases b with
        | false => simp at h
        | true => exact ih s2 s1 m h
    · rw [if_neg hin] at h
      simp at h

set_option maxRecDepth 100000 in
/-- The first twelve rounds on `abInput` find no match: twelve bytes are pending
and the table is `abTable`. -/
theorem CompressRounds_abInput :
    CompressRounds 12 1024 quietEnv abInput 12 ⟨0, [], [0x80, 0x10], freshTable 1024⟩
      = .ok (true, ⟨12, [0x41, 0x42, 0x41, 0x42, 0x41, 0x42, 0x41, 0x42, 0x41, 0x42, 0x41, 0x42],
          [0x80, 0x10], abTable⟩) := by
  decide!

/-- On `abInput` with `MinSearchLen = 12` the pointer `endPtr - MinSearchLen`
does not wrap. -/
theorem nearEnd_abInput (env : Surroundings) (itr : Nat) :
    nearEnd 12 env abInput itr ↔ itr + 12 > 2048 := by
  rw [nearEnd_of_fits 12 env abInput itr (by rw [abInput_length]; omega), abInput_length]

/-- The last round on `abInput`, at the cursor `12 * 170` with nothing pending. -/
theorem CompressStep_abInput_last (output : List Nat) (table : Table)
    (h : nearEnd 12 quietEnv abInput (12 * 170)) :
    CompressStep 12 1024 quietEnv abInput ⟨12 * 170, [], output, table⟩ =
      .ok (false, ⟨12 * 170, [],
        Encode END_OF_BUFFER output ++ [] ++ abInput.drop (12 * 170), table⟩) := by
  unfold CompressStep
  rw [if_pos h]

/-- A round on `abInput` at a cursor `12 * k` whose hash slot points twelve bytes
back emits the pending bytes and a back-reference of three bytes. -/
theorem CompressStep_abInput (k : Nat) (s : CompState) (hitr : s.itr = 12 * k) (hk1 : 1 ≤ k)
    (hk : 12 * k + 12 ≤ 2048) (hslot : slot s.table 408 = some (12 * (k - 1)))
    (hsize : s.table.length = 1024) :
    CompressStep 12 1024 quietEnv abInput s = .ok (true, ⟨12 * k + 12, [],
      (if s.pendingData.length ≠ 0 then
        Encode s.pendingData.length (s.output ++ [3]) ++ s.pendingData
      else s.output) ++ [2, 12, 12], s.table.set 408 (some (12 * k))⟩) := by
  unfold CompressStep
  rw [hitr, if_neg (by rw [nearEnd_abInput]; omega),
    ProcessHash_abInput k s.table hk1 hk hslot hsize]
  simp only []
  rw [if_neg (by decide)]
  simp only [SEQ_LEN, SEQ_LOOKUP, Encode_small 3 _ (by decide), Encode_small 2 _ (by decide),
    Encode_small 12 _ (by decide), List.append_assoc, List.singleton_append, List.cons_append,
    List.nil_append]

/-- From a cursor `12 * k` on, with nothing pending, every round on `abInput`
emits a back-reference of three bytes, until the last eight bytes follow an
end-of-buffer tag. -/
theorem CompressLoop_abInput :
    ∀ m k itr table output fuel, itr = 12 * k → k + m = 170 → 1 ≤ k →
      slot table 408 = some (12 * (k - 1)) → table.length = 1024 → m + 1 ≤ fuel →
      ∃ s1, CompressLoop 12 1024 quietEnv abInput fuel ⟨itr, [], output, table⟩ = .ok s1 ∧
        s1.output.length = output.length + 3 * m + 9 := by
  intro m
  induction m with
  | zero =>
    intro k itr table output fuel hitr hkm hk1 hslot hlen hfuel
    obtain ⟨fuel, rfl⟩ : ∃ f, fuel = f + 1 := ⟨fuel - 1, by omega⟩
    have hk : k = 170 := by omega
    subst hk
    subst hitr
    unfold CompressLoop
    rw [abInput_length, if_pos (by show 12 * 170 ≤ 2048; omega)]
    have hne : nearEnd 12 quietEnv abInput (12 * 170) := by
      rw [nearEnd_abInput]
      omega
    rw [CompressStep_abInput_last output table hne]
    refine ⟨_, rfl, ?_⟩
    simp [Encode_small, END_OF_BUFFER, abInput_length]
  | succ m ih =>
    intro k itr table output fuel hitr hkm hk1 hslot hlen hfuel
    obtain ⟨fuel, rfl⟩ : ∃ f, fuel = f + 1 := ⟨fuel - 1, by omega⟩
    subst hitr
    unfold CompressLoop
    rw [abInput_length, if_pos (by show 12 * k ≤ 2048; omega),
      CompressStep_abInput k ⟨12 * k, [], output, table⟩ rfl hk1 (by omega) hslot hlen]
    simp only [List.length_nil, ne_eq, not_true_eq_false, if_false]
    obtain ⟨s1, hs1, hl⟩ := ih (k + 1) (12 * k + 12) (table.set 408 (some (12 * k)))
      (output ++ [2, 12, 12]) fuel (by omega)
      (by omega) (by omega) (by rw [slot_set_self table 408 _ (by omega)]; simp)
      (by rw [List.length_set]; exact hlen) (by omega)
    refine ⟨s1, hs1, ?_⟩
    rw [hl]
    simp
    omega

theorem abTable_length : abTable.length = 1024 := by
  simp only [abTable, List.length_set]
  exact freshTable_length 1024 (by norm_num)

theorem abTable_slot : slot abTable 408 = some 0 := by
  decide!

theorem CompressLoop_succ (MinSearchLen SearchTblCnt : Nat) (env : Surroundings)
    (input : List Nat) (fuel : Nat) (s : CompState) :
    CompressLoop MinSearchLen SearchTblCnt env input (fuel + 1) s =
      if s.itr ≤ input.length then
        match CompressStep MinSearchLen SearchTblCnt env input s with
        | .error f => .error f
        | .ok (true, s) => CompressLoop MinSearchLen SearchTblCnt env input fuel s
        | .ok (false, s) => .ok s
      else .ok s := rfl

theorem CompressStep_abInput_first : CompressStep 12 1024 quietEnv abInput
    ⟨12, [0x41, 0x42, 0x41, 0x42, 0x41, 0x42, 0x41, 0x42, 0x41, 0x42, 0x41, 0x42],
      [0x80, 0x10], abTable⟩ = .ok (true, ⟨24, [],
      [0x80, 0x10, 3, 12, 0x41, 0x42, 0x41, 0x42, 0x41, 0x42, 0x41, 0x42, 0x41, 0x42, 0x41, 0x42,
        2, 12, 12], abTable.set 408 (some 12)⟩) := by
  rw [CompressStep_abInput 1 _ rfl (Nat.le_refl 1) (by omega) abTable_slot abTable_length]
  simp only [List.length_cons, List.length_nil, ne_eq, if_true, Encode_small 12 _ (by omega : 12 < 128)]
  rfl

theorem CompressLoop_abInput_start :
    CompressLoop 12 1024 quietEnv abInput (12 + (2036 + 1)) ⟨0, [], [0x80, 0x10], freshTable 1024⟩
      = CompressLoop 12 1024 quietEnv abInput 2036 ⟨24, [],
      [0x80, 0x10, 3, 12, 0x41, 0x42, 0x41, 0x42, 0x41, 0x42, 0x41, 0x42, 0x41, 0x42, 0x41, 0x42,
        2, 12, 12], abTable.set 408 (some 12)⟩ := by
  rw [CompressLoop_after_rounds 12 1024 quietEnv abInput 12 _ _ _ CompressRounds_abInput,
    CompressLoop_succ, abInput_length, if_pos (by show 12 ≤ 2048; omega),
    CompressStep_abInput_first]


/-- The result of `Compress` on a fresh compressor is the output of its main loop. -/
theorem Compress_of_loop (MinSearchLen SearchTblCnt : Nat) (env : Surroundings)
    (input : List Nat) (s : CompState)
    (h : CompressLoop MinSearchLen SearchTblCnt env input (input.length + 1)
      ⟨0, [], Encode input.length [], freshTable SearchTblCnt⟩ = .ok s) :
    Compress MinSearchLen SearchTblCnt env input = .ok s.output := by
  unfold Compress CompressFrom
  rw [h]

/-- The compressed size of `abInput` in quiet surroundings. -/
theorem Compress_abInput_quiet :
    ∃ output, Compress 12 1024 quietEnv abInput = .ok output ∧ output.length = 532 := by
  have hhead : Encode 2048 [] = [0x80, 0x10] := by decide
  obtain ⟨s1, hs1, hl⟩ := CompressLoop_abInput 168 2 24 (abTable.set 408 (some 12))
    [0x80, 0x10, 3, 12, 0x41, 0x42, 0x41, 0x42, 0x41, 0x42, 0x41, 0x42, 0x41, 0x42, 0x41, 0x42,
      2, 12, 12] 2036 (by omega) (by omega) (by omega)
    (by rw [slot_set_self abTable 408 _ (by rw [abTable_length]; omega)])
    (by rw [List.length_set]; exact abTable_length) (by omega)
  refine ⟨s1.output, Compress_of_loop 12 1024 quietEnv abInput s1 ?_, hl⟩
  rw [abInput_length, hhead, show 2048 + 1 = 12 + (2036 + 1) by omega,
    CompressLoop_abInput_start]
  exact hs1

/-! ## Independence of the surroundings -/

/-- A read inside the input or at its terminating null character does not
depend on the surroundings. -/
theorem readInput_within (env env1 : Surroundings) (input : List Nat) (i : Nat)
    (hi : i ≤ input.length) : readInput env input i = readInput env1 input i := by
  unfold readInput
  by_cases h : i < input.length
  · rw [if_pos h, if_pos h]
  · rw [if_neg h, if_neg h, if_pos (by omega), if_pos (by omega)]

/-- On an input without zero bytes the comparison loop stops at the terminating
null character at the latest; its result depends on the surroundings only through
an end distance shorter than the distance to the candidate. -/
theorem MatchLoop_indep (env env1 : Surroundings) (input : List Nat) (itr cand : Nat)
    (hz : ∀ i, i < input.length → input.getD i 0 ≠ 0) (hcand : cand < itr)
    (h1 : itr - cand ≤ endDistance env itr)
    (h2 : itr - cand ≤ endDistance env1 itr) :
    ∀ fuel sequenceLen, itr + sequenceLen ≤ input.length →
      MatchLoop env input itr cand fuel sequenceLen
        = MatchLoop env1 input itr cand fuel sequenceLen := by
  intro fuel
  induction fuel with
  | zero => intro _ _; rfl
  | succ fuel ih =>
    intro sequenceLen hlen
    unfold MatchLoop
    rw [readInput_within env env1 input (itr + sequenceLen) hlen,
      readInput_within env env1 input (cand + sequenceLen) (by omega)]
    by_cases heq : readInput env1 input (itr + sequenceLen)
        = readInput env1 input (cand + sequenceLen)
    · rw [if_pos heq, if_pos heq]
      have hlt : itr + sequenceLen < input.length := by
        by_contra hge
        have hend : itr + sequenceLen = input.length := by omega
        have hc : cand + sequenceLen < input.length := by omega
        unfold readInput at heq
        rw [if_neg (by omega), if_pos hend, if_pos hc] at heq
        exact hz _ hc heq.symm
      by_cases hstop : cand + (sequenceLen + 1) ≥ itr
      · rw [if_pos (Or.inr hstop), if_pos (Or.inr hstop)]
      · rw [if_neg (by intro h; rcases h with h | h <;> omega),
          if_neg (by intro h; rcases h with h | h <;> omega)]
        exact ih (sequenceLen + 1) (by omega)
    · rw [if_neg heq, if_neg heq]

theorem Hash32_indep (SearchTblCnt : Nat) (env env1 : Surroundings) (input : List Nat)
    (itr : Nat) (hwin : itr + (SearchTblCnt / 0xFF % 2 ^ 32 + 1) % 2 ^ 32 ≤ input.length + 1) :
    Hash32 SearchTblCnt env input itr = Hash32 SearchTblCnt env1 input itr := by
  unfold Hash32
  simp only []
  have hfold : ∀ (l : List Nat) (a : Nat), (∀ i ∈ l, itr + i ≤ input.length) →
      List.foldl (fun hash i =>
        hash ^^^ (charToUnsigned (readInput env input (itr + i)) * 0xDEADBEEF % 2 ^ 32)) a l
      = List.foldl (fun hash i =>
        hash ^^^ (charToUnsigned (readInput env1 input (itr + i)) * 0xDEADBEEF % 2 ^ 32)) a l := by
    intro l
    induction l with
    | nil => intro a _; rw [List.foldl_nil, List.foldl_nil]
    | cons x l ih =>
      intro a hl
      rw [List.foldl_cons, List.foldl_cons,
        readInput_within env env1 input (itr + x) (hl x (List.mem_cons_self x l))]
      exact ih _ (fun i hi => hl i (List.mem_cons_of_mem x hi))
  rw [hfold _ _ (fun i hi => by have := List.mem_range.mp hi; omega)]

theorem ScanLoop_indep (MinSearchLen SearchTblCnt : Nat) (env env1 : Surroundings)
    (input : List Nat) (table : Table) (itr base runLen offset : Nat)
    (hz : ∀ i, i < input.length → input.getD i 0 ≠ 0) (htab : TableBelow table itr)
    (hitr : itr ≤ input.length) (h1 : itr ≤ endDistance env itr)
    (h2 : itr ≤ endDistance env1 itr) :
    ∀ fuel curr,
      ScanLoop MinSearchLen SearchTblCnt env input table itr base runLen offset fuel curr
        = ScanLoop MinSearchLen SearchTblCnt env1 input table itr base runLen offset fuel curr := by
  intro fuel
  induction fuel with
  | zero => intro _; rfl
  | succ fuel ih =>
    intro curr
    unfold ScanLoop
    cases hslot : slot table curr with
    | none => rfl
    | some cand =>
      have hcand : cand < itr := htab curr cand hslot
      simp only []
      rw [MatchLoop_indep env env1 input itr cand hz hcand (by omega) (by omega) (itr + 1) 0
        (by omega)]
      cases MatchLoop env1 input itr cand (itr + 1) 0 with
      | error f => rfl
      | ok n =>
        simp only []
        by_cases hmin : n ≥ MinSearchLen
        · rw [if_pos hmin, if_pos hmin]
        · rw [if_neg hmin, if_neg hmin, ih]

theorem ProcessHash_indep (MinSearchLen SearchTblCnt : Nat) (env env1 : Surroundings)
    (input : List Nat) (table : Table) (itr runLen offset : Nat)
    (hz : ∀ i, i < input.length → input.getD i 0 ≠ 0) (htab : TableBelow table itr)
    (hwin : itr + (SearchTblCnt / 0xFF % 2 ^ 32 + 1) % 2 ^ 32 ≤ input.length + 1)
    (hitr : itr ≤ input.length) (h1 : itr ≤ endDistance env itr)
    (h2 : itr ≤ endDistance env1 itr) :
    ProcessHash MinSearchLen SearchTblCnt env input table itr runLen offset
      = ProcessHash MinSearchLen SearchTblCnt env1 input table itr runLen offset := by
  unfold ProcessHash
  rw [Hash32_indep SearchTblCnt env env1 input itr hwin]
  cases Hash32 SearchTblCnt env1 input itr with
  | error f => rfl
  | ok sequenceHash =>
    simp only []
    rw [ScanLoop_indep MinSearchLen SearchTblCnt env env1 input table itr sequenceHash runLen
      offset hz htab hitr h1 h2]

theorem CompressStep_indep (MinSearchLen SearchTblCnt : Nat) (env env1 : Surroundings)
    (input : List Nat) (s : CompState)
    (hz : ∀ i, i < input.length → input.getD i 0 ≠ 0) (htab : TableBelow s.table s.itr)
    (hwin : (SearchTblCnt / 0xFF % 2 ^ 32 + 1) % 2 ^ 32 ≤ MinSearchLen + 1)
    (hitr : s.itr ≤ input.length) (h1 : s.itr ≤ endDistance env s.itr)
    (h2 : s.itr ≤ endDistance env1 s.itr)
    (hfit : MinSearchLen ≤ env.inputAddr + input.length)
    (hfit1 : MinSearchLen ≤ env1.inputAddr + input.length) :
    CompressStep MinSearchLen SearchTblCnt env input s
      = CompressStep MinSearchLen SearchTblCnt env1 input s := by
  unfold CompressStep
  by_cases hend : s.itr + MinSearchLen > input.length
  · rw [if_pos ((nearEnd_of_fits MinSearchLen env input s.itr hfit).mpr hend),
      if_pos ((nearEnd_of_fits MinSearchLen env1 input s.itr hfit1).mpr hend)]
  · rw [if_neg (fun h => hend ((nearEnd_of_fits MinSearchLen env input s.itr hfit).mp h)),
      if_neg (fun h => hend ((nearEnd_of_fits MinSearchLen env1 input s.itr hfit1).mp h)),
      ProcessHash_indep MinSearchLen SearchTblCnt env env1 input s.table s.itr 0 0 hz htab
        (by omega) hitr h1 h2,
      readInput_within env env1 input s.itr hitr]

/-- On an input without zero bytes whose hash window fits into `MinSearchLen`
bytes and the terminating null character, the main loop does not depend on
surroundings whose end distance is at least the cursor. -/
theorem CompressLoop_indep (MinSearchLen SearchTblCnt : Nat) (env env1 : Surroundings)
    (input : List Nat) (hMin : 1 ≤ MinSearchLen) (hcap : 1 ≤ SearchTblCnt)
    (hlen : input.length < 2 ^ 64)
    (hz : ∀ i, i < input.length → input.getD i 0 ≠ 0)
    (hwin : (SearchTblCnt / 0xFF % 2 ^ 32 + 1) % 2 ^ 32 ≤ MinSearchLen + 1)
    (h1 : ∀ itr, itr ≤ input.length → itr ≤ endDistance env itr)
    (h2 : ∀ itr, itr ≤ input.length → itr ≤ endDistance env1 itr)
    (hfit : MinSearchLen ≤ env.inputAddr + input.length)
    (hfit1 : MinSearchLen ≤ env1.inputAddr + input.length) :
    ∀ fuel s, TableBelow s.table s.itr → s.table.length = SearchTblCnt →
      CompressLoop MinSearchLen SearchTblCnt env input fuel s
        = CompressLoop MinSearchLen SearchTblCnt env1 input fuel s := by
  intro fuel
  induction fuel with
  | zero => intro _ _ _; rfl
  | succ fuel ih =>
    intro s htab hsize
    unfold CompressLoop
    by_cases hin : s.itr ≤ input.length
    · rw [if_pos hin, if_pos hin,
        CompressStep_indep MinSearchLen SearchTblCnt env env1 input s hz htab hwin hin
          (h1 _ hin) (h2 _ hin) hfit hfit1]
      obtain ⟨b, s1, hs, htab1, hsize1⟩ :=
        CompressStep_ok MinSearchLen SearchTblCnt env1 input s hMin hcap htab (by omega) hsize
      rw [hs]
      cases b with
      | false => rfl
      | true => exact ih s1 htab1 hsize1
    · rw [if_neg hin, if_neg hin]

theorem Compress_indep (MinSearchLen SearchTblCnt : Nat) (env env1 : Surroundings)
    (input : List Nat) (hMin : 1 ≤ MinSearchLen) (hcap : 1 ≤ SearchTblCnt)
    (hlen : input.length < 2 ^ 64)
    (hz : ∀ i, i < input.length → input.getD i 0 ≠ 0)
    (hwin : (SearchTblCnt / 0xFF % 2 ^ 32 + 1) % 2 ^ 32 ≤ MinSearchLen + 1)
    (h1 : ∀ itr, itr ≤ input.length → itr ≤ endDistance env itr)
    (h2 : ∀ itr, itr ≤ input.length → itr ≤ endDistance env1 itr)
    (hfit : MinSearchLen ≤ env.inputAddr + input.length)
    (hfit1 : MinSearchLen ≤ env1.inputAddr + input.length)
    (hcap1 : SearchTblCnt < 2 ^ 61) :
    Compress MinSearchLen SearchTblCnt env input = Compress MinSearchLen SearchTblCnt env1 input := by
  unfold Compress CompressFrom
  rw [CompressLoop_indep MinSearchLen SearchTblCnt env env1 input hMin hcap hlen hz hwin h1 h2
    hfit hfit1 _ _ (TableBelow_freshTable SearchTblCnt 0) (freshTable_length SearchTblCnt hcap1)]

theorem abInput_nonzero (i : Nat) (hi : i < abInput.length) : abInput.getD i 0 ≠ 0 := by
  rw [abInput_length] at hi
  unfold abInput
  rw [getD_flatten_replicate_pair 0x41 0x42 1024 i (by omega)]
  split <;> decide

theorem quietEnv_far (itr : Nat) (h : itr ≤ 2048) : itr ≤ endDistance quietEnv itr := by
  unfold endDistance quietEnv
  simp only []
  omega

/-- C7: on the input of 1024 repetitions of `AB`, a fresh compressor with
`MinSearchLen = 12` and `SearchTblCnt = 1024` returns an output shorter than the
input, and the ratio it reports is positive; this holds in all surroundings in
which the pointer read as `*endPtr` is at least as far from every cursor as the
cursor is from the start of the input. -/
theorem Compress_abInput (env : Surroundings)
    (hfar : ∀ itr, itr ≤ 2048 → itr ≤ endDistance env itr) :
    ∃ output, Compress 12 1024 env abInput = .ok output ∧ output.length < abInput.length ∧
      0 < compressionRatio abInput.length output.length := by
  obtain ⟨output, hout, hl⟩ := Compress_abInput_quiet
  refine ⟨output, ?_, ?_, ?_⟩
  · rw [Compress_indep 12 1024 env quietEnv abInput (by omega) (by omega)
      (by rw [abInput_length]; omega) abInput_nonzero (by decide)
      (by rw [abInput_length]; exact hfar) (by rw [abInput_length]; exact quietEnv_far)
      (by rw [abInput_length]; omega) (by rw [abInput_length]; omega) (by norm_num)]
    exact hout
  · rw [hl, abInput_length]; omega
  · rw [hl, abInput_length]
    unfold compressionRatio ratioNumerator
    norm_num

/-- C7 (at an input): the quiet surroundings. -/
theorem Compress_abInput_witness :
    (∀ itr, itr ≤ 2048 → itr ≤ endDistance quietEnv itr) ∧
    ∃ output, Compress 12 1024 quietEnv abInput = .ok output ∧
      output.length < abInput.length ∧ 0 < compressionRatio abInput.length output.length :=
  ⟨quietEnv_far, Compress_abInput quietEnv quietEnv_far⟩

/-! ## VarInt round trip -/

theorem EncodeLoop_append :
    ∀ fuel remaining output,
      EncodeLoop fuel remaining output = output ++ EncodeLoop fuel remaining [] := by
  intro fuel
  induction fuel with
  | zero => intro _ output; simp [EncodeLoop]
  | succ fuel ih =>
    intro remaining output
    unfold EncodeLoop
    by_cases hge : remaining ≥ SEQ_LIMIT
    · rw [if_pos hge, if_pos hge, ih _ (output ++ _), ih _ ([] ++ _)]
      simp
    · rw [if_neg hge, if_neg hge]; simp

theorem Encode_append (value : Nat) (output : List Nat) :
    Encode value output = output ++ Encode value [] :=
  EncodeLoop_append 5 (value % 2 ^ 32) output

/-- The bytes `Encode` writes: at most `fuel` of them, all but the last with the
high bit set, the last with the high bit clear. -/
theorem EncodeLoop_shape :
    ∀ fuel remaining, 1 ≤ fuel → remaining < 128 ^ fuel →
      1 ≤ (EncodeLoop fuel remaining []).length ∧ (EncodeLoop fuel remaining []).length ≤ fuel ∧
      (∀ i, i + 1 < (EncodeLoop fuel remaining []).length →
        128 ≤ (EncodeLoop fuel remaining []).getD i 0 ∧
          (EncodeLoop fuel remaining []).getD i 0 < 256) ∧
      (EncodeLoop fuel remaining []).getD ((EncodeLoop fuel remaining []).length - 1) 0 < 128 := by
  intro fuel
  induction fuel with
  | zero => intro _ h _; omega
  | succ fuel ih =>
    intro remaining _ hlt
    unfold EncodeLoop
    by_cases hge : remaining ≥ SEQ_LIMIT
    · rw [if_pos hge, EncodeLoop_append]
      unfold SEQ_LIMIT at hge
      have hfuel : 1 ≤ fuel := by
        by_contra h0
        have : fuel = 0 := by omega
        subst this
        simp at hlt
        omega
      have hdiv : remaining >>> LEN_SHIFT < 128 ^ fuel := by
        unfold LEN_SHIFT
        rw [Nat.shiftRight_eq_div_pow]
        rw [pow_succ] at hlt
        exact Nat.div_lt_of_lt_mul (by rw [Nat.mul_comm]; exact hlt)
      obtain ⟨h1, h2, h3, h4⟩ := ih (remaining >>> LEN_SHIFT) hfuel hdiv
      simp only [List.nil_append, List.singleton_append, List.length_cons]
      refine ⟨by omega, by omega, ?_, ?_⟩
      · intro i hi
        match i with
        | 0 =>
          simp only [List.getD_cons_zero]
          unfold To8
          omega
        | j + 1 =>
          simp only [List.getD_cons_succ]
          exact h3 j (by omega)
      · have : (EncodeLoop fuel (remaining >>> LEN_SHIFT) []).length + 1 - 1
            = ((EncodeLoop fuel (remaining >>> LEN_SHIFT) []).length - 1) + 1 := by omega
        rw [this, List.getD_cons_succ]
        exact h4
    · rw [if_neg hge]
      unfold SEQ_LIMIT at hge
      simp only [List.nil_append, List.length_singleton]
      refine ⟨by omega, by omega, fun i hi => by omega, ?_⟩
      simp only [Nat.sub_self, List.getD_cons_zero]
      omega

theorem get?_append_cons (P rest : List Nat) (b : Nat) :
    (P ++ b :: rest).get? P.length = some b := by
  rw [List.get?_eq_getElem?, List.getElem?_append_right (Nat.le_refl _)]
  simp

/-- Decoding what `Encode` wrote: from the group index `shift` on, with the
accumulator holding the lower groups, the loop of `Decode` consumes exactly the
bytes of `EncodeLoop` and adds `remaining` at that group index. -/
theorem DecodeLoop_EncodeLoop :
    ∀ fuel remaining shift value (P R : List Nat) dfuel, 1 ≤ fuel → remaining < 128 ^ fuel →
      value < 2 ^ (7 * shift) → remaining * 2 ^ (7 * shift) + value < 2 ^ 32 → fuel ≤ dfuel →
      DecodeLoop (P ++ EncodeLoop fuel remaining [] ++ R) dfuel P.length shift value
        = .ok (P.length + (EncodeLoop fuel remaining []).length,
            value + remaining * 2 ^ (7 * shift)) := by
  intro fuel
  induction fuel with
  | zero => intro _ _ _ _ _ _ h; omega
  | succ fuel ih =>
    intro remaining shift value P R dfuel _ hlt hval hsum hd
    obtain ⟨dfuel, rfl⟩ : ∃ d, dfuel = d + 1 := ⟨dfuel - 1, by omega⟩
    have hX : 0 < 2 ^ (7 * shift) := pow_pos (by norm_num) _
    unfold EncodeLoop
    by_cases hge : remaining ≥ SEQ_LIMIT
    · rw [if_pos hge, EncodeLoop_append]
      unfold SEQ_LIMIT at hge
      have hfuel : 1 ≤ fuel := by
        by_contra h0
        have : fuel = 0 := by omega
        subst this
        simp at hlt
        omega
      have hdiv : remaining >>> LEN_SHIFT < 128 ^ fuel := by
        unfold LEN_SHIFT
        rw [Nat.shiftRight_eq_div_pow]
        rw [pow_succ] at hlt
        exact Nat.div_lt_of_lt_mul (by rw [Nat.mul_comm]; exact hlt)
      have hshift : shift ≤ 3 := by
        by_contra hs
        have h28 : 2 ^ 28 ≤ 2 ^ (7 * shift) := Nat.pow_le_pow_right (by norm_num) (by omega)
        have : 128 * 2 ^ 28 ≤ remaining * 2 ^ (7 * shift) := Nat.mul_le_mul hge h28
        omega
      have hmask : remaining &&& LSB7_MASK = remaining % 128 :=
        Nat.and_pow_two_sub_one_eq_mod remaining 7
      have hbyte : To8 (remaining &&& LSB7_MASK) 1 = remaining % 128 + 128 := by
        rw [hmask]; unfold To8; omega
      have hX21 : 2 ^ (7 * shift) ≤ 2 ^ 21 := Nat.pow_le_pow_right (by norm_num) (by omega)
      have hprod : remaining % 128 * 2 ^ (7 * shift) ≤ 127 * 2 ^ 21 :=
        Nat.mul_le_mul (by omega) hX21
      have hdata : intToSizeT (hdrData (remaining % 128 + 128) <<< (LEN_SHIFT * shift))
          = remaining % 128 * 2 ^ (7 * shift) := by
        unfold hdrData LEN_SHIFT intToSizeT
        rw [Nat.shiftLeft_eq, show (remaining % 128 + 128) % 128 = remaining % 128 by omega,
          Nat.mod_eq_of_lt (by omega), if_pos (by omega)]
      have hor : value ||| remaining % 128 * 2 ^ (7 * shift)
          = value + remaining % 128 * 2 ^ (7 * shift) := by
        rw [Nat.lor_comm, Nat.mul_comm, ← Nat.mul_add_lt_is_or hval, Nat.add_comm]
      rw [hbyte]
      simp only [List.nil_append, List.singleton_append, List.length_cons]
      rw [show P ++ (remaining % 128 + 128) :: EncodeLoop fuel (remaining >>> LEN_SHIFT) [] ++ R
        = P ++ (remaining % 128 + 128) :: (EncodeLoop fuel (remaining >>> LEN_SHIFT) [] ++ R) by
          simp]
      unfold DecodeLoop
      rw [get?_append_cons]
      simp only []
      rw [if_pos (by unfold hdrContinueFlag; omega),
        if_neg (by unfold LEN_SHIFT; omega), hdata, hor]
      have hpow : 2 ^ (7 * (shift + 1)) = 2 ^ (7 * shift) * 128 := by
        rw [show 7 * (shift + 1) = 7 * shift + 7 by omega, pow_add]
        norm_num
      have h127 : remaining % 128 * 2 ^ (7 * shift) ≤ 127 * 2 ^ (7 * shift) :=
        Nat.mul_le_mul_right _ (by omega)
      have hsplit : remaining >>> LEN_SHIFT * (2 ^ (7 * shift) * 128)
          + remaining % 128 * 2 ^ (7 * shift) = remaining * 2 ^ (7 * shift) := by
        unfold LEN_SHIFT
        rw [Nat.shiftRight_eq_div_pow, show (2 : Nat) ^ 7 = 128 by norm_num]
        have := Nat.div_add_mod remaining 128
        calc remaining / 128 * (2 ^ (7 * shift) * 128) + remaining % 128 * 2 ^ (7 * shift)
            = (128 * (remaining / 128) + remaining % 128) * 2 ^ (7 * shift) := by ring
          _ = remaining * 2 ^ (7 * shift) := by rw [this]
      have hrec := ih (remaining >>> LEN_SHIFT) (shift + 1)
        (value + remaining % 128 * 2 ^ (7 * shift)) (P ++ [remaining % 128 + 128]) R dfuel
        hfuel hdiv (by rw [hpow]; omega)
        (by rw [hpow]; omega) (by omega)
      rw [List.length_append, List.length_singleton, hpow] at hrec
      rw [show P ++ (remaining % 128 + 128) :: (EncodeLoop fuel (remaining >>> LEN_SHIFT) [] ++ R)
        = P ++ [remaining % 128 + 128] ++ EncodeLoop fuel (remaining >>> LEN_SHIFT) [] ++ R by
          simp, hrec]
      congr 2
      · omega
      · omega
    · rw [if_neg hge]
      unfold SEQ_LIMIT at hge
      simp only [List.nil_append, List.singleton_append, List.append_assoc, List.cons_append,
        List.length_singleton]
      unfold DecodeLoop
      rw [get?_append_cons]
      simp only []
      rw [if_neg (by unfold hdrContinueFlag; omega), Nat.mod_eq_of_lt (by omega : remaining < 256)]
      unfold LEN_SHIFT
      rw [Nat.shiftLeft_eq, Nat.mod_eq_of_lt (by omega), Nat.lor_comm, Nat.mul_comm,
        ← Nat.mul_add_lt_is_or hval, Nat.mul_comm,
        Nat.add_comm (remaining * 2 ^ (7 * shift)) value]

/-- C19: for every `v < 2 ^ 32`, `Encode` writes between one and five bytes, all
but the last with the high bit set and the last with the high bit clear; and
`Decode`, started with the accumulator 0 at these bytes inside any stream,
returns `v` and leaves the cursor on the byte that follows them. -/
theorem Decode_Encode (v : Nat) (P R : List Nat) (hv : v < 2 ^ 32) :
    Decode (P ++ Encode v [] ++ R) P.length 0 = .ok (P.length + (Encode v []).length, v) ∧
    1 ≤ (Encode v []).length ∧ (Encode v []).length ≤ 5 ∧
    (∀ i, i + 1 < (Encode v []).length → 128 ≤ (Encode v []).getD i 0) ∧
    (Encode v []).getD ((Encode v []).length - 1) 0 < 128 := by
  have h5 : v % 2 ^ 32 < 128 ^ 5 := by
    rw [Nat.mod_eq_of_lt hv]
    exact Nat.lt_trans hv (by norm_num)
  obtain ⟨h1, h2, h3, h4⟩ := EncodeLoop_shape 5 (v % 2 ^ 32) (by omega) h5
  refine ⟨?_, h1, h2, fun i hi => (h3 i hi).1, h4⟩
  have := DecodeLoop_EncodeLoop 5 (v % 2 ^ 32) 0 0 P R 6 (by omega) h5 (by norm_num)
    (by rw [Nat.mod_eq_of_lt hv]; simpa using hv) (by omega)
  unfold Decode Encode
  rw [this, Nat.mod_eq_of_lt hv]
  simp

/-- C19 (at an input): the value 300 between the bytes `03` and `41`. -/
theorem Decode_Encode_witness :
    Decode ([3] ++ Encode 300 [] ++ [0x41]) [3].length 0
      = .ok ([3].length + (Encode 300 []).length, 300) ∧
    1 ≤ (Encode 300 []).length ∧ (Encode 300 []).length ≤ 5 ∧
    (∀ i, i + 1 < (Encode 300 []).length → 128 ≤ (Encode 300 []).getD i 0) ∧
    (Encode 300 []).getD ((Encode 300 []).length - 1) 0 < 128 :=
  Decode_Encode 300 [3] [0x41] (by norm_num)

/-! ## The reported ratio -/

/-- While the output is no longer than the input, the ratio is the quotient of
the difference of the sizes by the input size. -/
theorem compressionRatio_of_le (inputSize outputSize : Nat) (hle : outputSize ≤ inputSize)
    (hsize : inputSize < 2 ^ 64) :
    compressionRatio inputSize outputSize
      = ((inputSize : ℚ) - (outputSize : ℚ)) / (inputSize : ℚ) := by
  unfold compressionRatio ratioNumerator
  have h : (inputSize % 2 ^ 64 + 2 ^ 64 - outputSize % 2 ^ 64) % 2 ^ 64
      = inputSize - outputSize := by omega
  rw [h, Nat.cast_sub hle]

/-- When the output is longer than the input, the `size_t` difference wraps and
the ratio is positive. -/
theorem compressionRatio_of_gt (inputSize outputSize : Nat) (hgt : inputSize < outputSize)
    (hin : 0 < inputSize) (hsize : outputSize < 2 ^ 64) :
    compressionRatio inputSize outputSize
      = ((2 : ℚ) ^ 64 + (inputSize : ℚ) - (outputSize : ℚ)) / (inputSize : ℚ) ∧
    0 < compressionRatio inputSize outputSize := by
  unfold compressionRatio ratioNumerator
  have h : (inputSize % 2 ^ 64 + 2 ^ 64 - outputSize % 2 ^ 64) % 2 ^ 64
      = 2 ^ 64 + inputSize - outputSize := by omega
  rw [h]
  constructor
  · rw [Nat.cast_sub (by omega)]
    push_cast
    ring
  · apply div_pos
    · exact_mod_cast (by omega : 0 < 2 ^ 64 + inputSize - outputSize)
    · exact_mod_cast hin

/-- C11 (code at the failing input): the one-byte input `41` is compressed to the
three bytes `01 01 41`; the numerator `input.size() - output.size()` is computed
in `size_t` and wraps, so the reported ratio is `2 ^ 64 - 2`, not
`(1 - 3) / 1 = -2`, and it is positive. -/
theorem compressionRatio_wraps :
    Compress 12 1024 quietEnv [0x41] = .ok [0x01, 0x01, 0x41] ∧
    compressionRatio 1 3 = 18446744073709551614 ∧
    0 < compressionRatio 1 3 ∧
    ((1 : ℚ) - 3) / 1 = -2 := by
  refine ⟨by decide, ?_, ?_, by norm_num⟩
  · unfold compressionRatio ratioNumerator
    norm_num
  · unfold compressionRatio ratioNumerator
    norm_num

/-! ## The states of a run and the table invariant -/

theorem Reached_start (MinSearchLen SearchTblCnt : Nat) (env : Surroundings) (input : List Nat) :
    Reached MinSearchLen SearchTblCnt env input (startState SearchTblCnt input) :=
  ⟨0, rfl⟩

/-- What holds at the start and is kept by every round that goes on holds after
any number of rounds. -/
theorem CompressRounds_invariant (MinSearchLen SearchTblCnt : Nat) (env : Surroundings)
    (input : List Nat) (P : CompState → Prop)
    (hstep : ∀ s s1, P s → s.itr ≤ input.length →
      CompressStep MinSearchLen SearchTblCnt env input s = .ok (true, s1) → P s1) :
    ∀ n s0 s, P s0 →
      CompressRounds MinSearchLen SearchTblCnt env input n s0 = .ok (true, s) → P s := by
  intro n
  induction n with
  | zero =>
    intro s0 s h0 h
    unfold CompressRounds at h
    simp only [Except.ok.injEq, Prod.mk.injEq, true_and] at h
    rw [← h]; exact h0
  | succ n ih =>
    intro s0 s h0 h
    unfold CompressRounds at h
    by_cases hin : s0.itr ≤ input.length
    · rw [if_pos hin] at h
      cases hs : CompressStep MinSearchLen SearchTblCnt env input s0 with
      | error f => rw [hs] at h; simp at h
      | ok r =>
        obtain ⟨b, s2⟩ := r
        rw [hs] at h
        cases b with
        | false => simp at h
        | true => exact ih s2 s (hstep s0 s2 h0 hin hs) h
    · rw [if_neg hin] at h
      simp at h

theorem Reached_invariant (MinSearchLen SearchTblCnt : Nat) (env : Surroundings)
    (input : List Nat) (P : CompState → Prop) (h0 : P (startState SearchTblCnt input))
    (hstep : ∀ s s1, P s → s.itr ≤ input.length →
      CompressStep MinSearchLen SearchTblCnt env input s = .ok (true, s1) → P s1)
    (s : CompState) (hs : Reached MinSearchLen SearchTblCnt env input s) : P s := by
  obtain ⟨n, hn⟩ := hs
  exact CompressRounds_invariant MinSearchLen SearchTblCnt env input P hstep n _ s h0 hn

theorem slot_set_ne (table : Table) (c i : Nat) (v : Option Nat) (h : i ≠ c) :
    slot (table.set c v) i = slot table i := by
  unfold slot
  rw [List.getD_eq_getElem?_getD, List.getD_eq_getElem?_getD, List.getElem?_set]
  simp [Ne.symm h]

theorem slot_lt_length (table : Table) (i p : Nat) (h : slot table i = some p) :
    i < table.length := by
  by_contra hge
  unfold slot at h
  rw [List.getD_eq_getElem?_getD, List.getElem?_eq_none (by omega)] at h
  simp at h

theorem TableDistinct_freshTable (SearchTblCnt : Nat) : TableDistinct (freshTable SearchTblCnt) := by
  intro i j p hi _
  exact absurd (TableBelow_freshTable SearchTblCnt 0 i p hi) (by omega)

/-- Writing the cursor into a slot of a table that points before the cursor
keeps the pointers distinct. -/
theorem TableDistinct_set (table : Table) (c itr : Nat) (hbelow : TableBelow table itr)
    (hdist : TableDistinct table) : TableDistinct (table.set c (some itr)) := by
  intro i j p hi hj
  by_cases hic : i = c
  · by_cases hjc : j = c
    · rw [hic, hjc]
    · rw [slot_set_ne table c j _ hjc] at hj
      subst hic
      have hlt := slot_lt_length _ _ _ hi
      rw [List.length_set] at hlt
      rw [slot_set_self table i _ hlt] at hi
      cases hi
      exact absurd (hbelow j _ hj) (by omega)
  · rw [slot_set_ne table c i _ hic] at hi
    by_cases hjc : j = c
    · subst hjc
      have hlt := slot_lt_length _ _ _ hj
      rw [List.length_set] at hlt
      rw [slot_set_self table j _ hlt] at hj
      cases hj
      exact absurd (hbelow i _ hi) (by omega)
    · rw [slot_set_ne table c j _ hjc] at hj
      exact hdist i j p hi hj

/-- The table `ProcessHash` leaves is the old one with the cursor written into
the slot the scan ended on. -/
theorem ProcessHash_table (MinSearchLen SearchTblCnt : Nat) (env : Surroundings)
    (input : List Nat) (table table1 : Table) (itr runLen offset : Nat) (r : Scan)
    (h : ProcessHash MinSearchLen SearchTblCnt env input table itr runLen offset
      = .ok (r, table1)) :
    table1 = table.set r.curr (some itr) ∧
    ∃ base, Hash32 SearchTblCnt env input itr = .ok base ∧
      ScanLoop MinSearchLen SearchTblCnt env input table itr base runLen offset SearchTblCnt base
        = .ok r ∧ base < table.length ∧ r.curr < table.length := by
  unfold ProcessHash at h
  cases hh : Hash32 SearchTblCnt env input itr with
  | error f => rw [hh] at h; simp at h
  | ok base =>
    rw [hh] at h
    simp only [] at h
    by_cases hb : table.length ≤ base
    · rw [if_pos hb] at h
      simp at h
    · rw [if_neg hb] at h
      cases hs : ScanLoop MinSearchLen SearchTblCnt env input table itr base runLen offset
          SearchTblCnt base with
      | error f => rw [hs] at h; simp at h
      | ok r1 =>
        rw [hs] at h
        simp only [] at h
        by_cases hc : table.length ≤ r1.curr
        · rw [if_pos hc] at h
          simp at h
        · rw [if_neg hc] at h
          simp only [Except.ok.injEq, Prod.mk.injEq] at h
          obtain ⟨h1, h2⟩ := h
          subst h1
          exact ⟨h2.symm, base, rfl, hs, by omega, by omega⟩

/-- The shape of a round of the main loop that goes on: `ProcessHash` was called
at the cursor, and the cursor moved by one byte or by the length of the match. -/
theorem CompressStep_shape (MinSearchLen SearchTblCnt : Nat) (env : Surroundings)
    (input : List Nat) (s s1 : CompState)
    (h : CompressStep MinSearchLen SearchTblCnt env input s = .ok (true, s1)) :
    ¬ nearEnd MinSearchLen env input s.itr ∧
    ∃ r, ProcessHash MinSearchLen SearchTblCnt env input s.table s.itr 0 0 = .ok (r, s1.table) ∧
      ((r.runLen < MinSearchLen ∧ s1.itr = s.itr + 1) ∨
        (MinSearchLen ≤ r.runLen ∧ s1.itr = s.itr + r.runLen)) := by
  unfold CompressStep at h
  by_cases hend : nearEnd MinSearchLen env input s.itr
  · rw [if_pos hend] at h
    simp at h
  · rw [if_neg hend] at h
    refine ⟨hend, ?_⟩
    cases hp : ProcessHash MinSearchLen SearchTblCnt env input s.table s.itr 0 0 with
    | error f => rw [hp] at h; simp at h
    | ok rt =>
      obtain ⟨r, table⟩ := rt
      rw [hp] at h
      simp only [] at h
      by_cases hrun : r.runLen < MinSearchLen
      · rw [if_pos hrun] at h
        by_cases hlast : s.itr + 1 > input.length
        · rw [if_pos hlast] at h
          simp at h
        · rw [if_neg hlast] at h
          simp only [Except.ok.injEq, Prod.mk.injEq, true_and] at h
          subst h
          exact ⟨r, rfl, Or.inl ⟨hrun, rfl⟩⟩
      · rw [if_neg hrun] at h
        simp only [Except.ok.injEq, Prod.mk.injEq, true_and] at h
        subst h
        exact ⟨r, rfl, Or.inr ⟨by omega, rfl⟩⟩

/-- At every state of a run on a fresh compressor with `MinSearchLen ≥ 1`, the
table has the slots the constructor allocated, points before the cursor, and
holds no pointer twice. -/
theorem Reached_table (MinSearchLen SearchTblCnt : Nat) (env : Surroundings)
    (input : List Nat) (hMin : 1 ≤ MinSearchLen) (s : CompState)
    (hs : Reached MinSearchLen SearchTblCnt env input s) :
    s.table.length = lookupBufferBytes SearchTblCnt / 8 ∧ TableBelow s.table s.itr ∧
      TableDistinct s.table := by
  apply Reached_invariant MinSearchLen SearchTblCnt env input
    (fun s => s.table.length = lookupBufferBytes SearchTblCnt / 8 ∧ TableBelow s.table s.itr ∧
      TableDistinct s.table)
    ?_ ?_ s hs
  · exact ⟨by simp only [startState, freshTable, List.length_replicate],
      TableBelow_freshTable SearchTblCnt 0, TableDistinct_freshTable SearchTblCnt⟩
  · intro s s1 ⟨hlen, hbelow, hdist⟩ _ hstep
    obtain ⟨_, r, hp, hitr⟩ := CompressStep_shape MinSearchLen SearchTblCnt env input s s1 hstep
    obtain ⟨htab, _⟩ := ProcessHash_table _ _ _ _ _ _ _ _ _ _ hp
    rw [htab]
    refine ⟨by rw [List.length_set]; exact hlen, ?_, TableDistinct_set _ _ _ hbelow hdist⟩
    exact TableBelow_mono _ _ _ (TableBelow_set _ _ _ hbelow) (by omega)

/-- On a table that points before the cursor the quality division of the scan
has a non-zero divisor. -/
theorem ScanLoop_no_division_by_zero (MinSearchLen SearchTblCnt : Nat) (env : Surroundings)
    (input : List Nat) (table : Table) (itr base runLen offset : Nat)
    (htab : TableBelow table itr) (hitr : itr < 2 ^ 64) :
    ∀ fuel curr,
      ScanLoop MinSearchLen SearchTblCnt env input table itr base runLen offset fuel curr
        ≠ .error .divByZero := by
  intro fuel
  induction fuel with
  | zero => intro curr; simp [ScanLoop]
  | succ fuel ih =>
    intro curr
    unfold ScanLoop
    cases hslot : slot table curr with
    | none => simp
    | some cand =>
      have hcand : cand < itr := htab curr cand hslot
      obtain ⟨n, hn⟩ := MatchLoop_ok env input itr cand (itr + 1) 0 (by omega) (by omega)
      simp only [hn]
      by_cases hmin : n ≥ MinSearchLen
      · rw [if_pos hmin]
        have hdelta : (itr + 2 ^ 64 - cand % 2 ^ 64) % 2 ^ 64 = itr - cand := by
          rw [Nat.mod_eq_of_lt (by omega : cand < 2 ^ 64)]
          have : itr + 2 ^ 64 - cand = (itr - cand) + 2 ^ 64 := by omega
          rw [this, Nat.add_mod_right, Nat.mod_eq_of_lt (by omega)]
        rw [hdelta, if_neg (by omega)]
        split <;> simp
      · rw [if_neg hmin]
        by_cases hne : slot table (if curr = 0 then SearchTblCnt - 1 else curr - 1)
            ≠ slot table base
        · rw [if_pos hne]; exact ih _
        · rw [if_neg hne]; simp

/-- C14 (amended): in a run of `Compress` on a fresh compressor with
`MinSearchLen ≥ 1`, at the start of every call of `ProcessHash` every non-empty
slot of the table points strictly before the cursor, so the distance to every
candidate is at least 1; no two slots hold the same pointer; and no scan at the
cursor divides by zero. -/
theorem Reached_table_invariant (MinSearchLen SearchTblCnt : Nat) (env : Surroundings)
    (input : List Nat) (hMin : 1 ≤ MinSearchLen) (hlen : input.length < 2 ^ 64)
    (s : CompState) (hs : Reached MinSearchLen SearchTblCnt env input s)
    (hcall : ¬ nearEnd MinSearchLen env input s.itr) :
    (∀ i p, slot s.table i = some p → p < s.itr ∧ 1 ≤ s.itr - p) ∧
    (∀ i j p, slot s.table i = some p → slot s.table j = some p → i = j) ∧
    (∀ base runLen offset fuel curr,
      ScanLoop MinSearchLen SearchTblCnt env input s.table s.itr base runLen offset fuel curr
        ≠ .error .divByZero) := by
  obtain ⟨_, hbelow, hdist⟩ := Reached_table MinSearchLen SearchTblCnt env input hMin s hs
  refine ⟨fun i p h => ⟨hbelow i p h, ?_⟩, hdist, ?_⟩
  · have := hbelow i p h
    omega
  · intro base runLen offset fuel curr
    exact ScanLoop_no_division_by_zero MinSearchLen SearchTblCnt env input s.table s.itr base
      runLen offset hbelow (lt_of_not_nearEnd MinSearchLen env input s.itr hlen hcall) fuel curr

set_option maxRecDepth 100000 in
/-- C14 (amended, at an input): the call at cursor 14 in the run on `overrunInput` with
the default configuration, where the table holds the fourteen cursors before
it. -/
theorem Reached_table_invariant_witness :
    Reached 12 1024 quietEnv overrunInput
      ⟨14, [1, 2, 3, 4, 5, 6, 7, 8, 9, 10, 11, 12, 0, 0], [26], overrunTable⟩ ∧
    ¬ nearEnd 12 quietEnv overrunInput 14 ∧
    slot overrunTable 476 = some 0 ∧ slot overrunTable 886 = some 13 ∧
    (∀ i p, slot overrunTable i = some p → p < 14 ∧ 1 ≤ 14 - p) ∧
    (∀ i j p, slot overrunTable i = some p → slot overrunTable j = some p → i = j) ∧
    (∀ base runLen offset fuel curr,
      ScanLoop 12 1024 quietEnv overrunInput overrunTable 14 base runLen offset fuel curr
        ≠ .error .divByZero) :=
  ⟨⟨14, by decide⟩, by decide, by decide, by decide,
    Reached_table_invariant 12 1024 quietEnv overrunInput (by decide) (by decide)
      ⟨14, [1, 2, 3, 4, 5, 6, 7, 8, 9, 10, 11, 12, 0, 0], [26], overrunTable⟩
      ⟨14, by decide⟩ (by decide)⟩

set_option maxRecDepth 100000 in
/-- C14 (counterexample): with `MinSearchLen = 0` the
first round on the one-byte input `41` finds no match, takes the branch of a
match with length 0 and leaves the cursor at 0, with the cursor 0 written into
the table; the second call is made at cursor 0 with a slot that holds the
position 0 itself, and the quality division divides by `0 - 0`. -/
theorem Compress_zero_minimum :
    CompressRounds 0 1024 quietEnv [0x41] 1 (startState 1024 [0x41]) =
      .ok (true, ⟨0, [], [1, 2, 0, 0], (freshTable 1024).set 408 (some 0)⟩) ∧
    ¬ nearEnd 0 quietEnv [0x41] 0 ∧
    Hash32 1024 quietEnv [0x41] 0 = .ok 408 ∧
    slot ((freshTable 1024).set 408 (some 0)) 408 = some 0 ∧
    ScanLoop 0 1024 quietEnv [0x41] ((freshTable 1024).set 408 (some 0)) 0 408 0 0 1024 408 =
      .error .divByZero ∧
    Compress 0 1024 quietEnv [0x41] = .error .divByZero := by
  decide

/-! ## What the match finder returns -/

/-- The comparison loop returns a length up to which the bytes at the cursor and
at the candidate agree, and which does not exceed the distance between them. -/
theorem MatchLoop_sound (env : Surroundings) (input : List Nat) (itr cand : Nat) :
    ∀ fuel sequenceLen n, MatchLoop env input itr cand fuel sequenceLen = .ok n →
      (∀ k, k < sequenceLen → readInput env input (itr + k) = readInput env input (cand + k)) →
      (sequenceLen = 0 ∨ cand + sequenceLen < itr) →
      (∀ k, k < n → readInput env input (itr + k) = readInput env input (cand + k)) ∧
        (cand < itr → n ≤ itr - cand) := by
  intro fuel
  induction fuel with
  | zero => intro _ _ h; simp [MatchLoop] at h
  | succ fuel ih =>
    intro sequenceLen n h heq hinv
    unfold MatchLoop at h
    by_cases hb : readInput env input (itr + sequenceLen) = readInput env input (cand + sequenceLen)
    · rw [if_pos hb] at h
      have heq1 : ∀ k, k < sequenceLen + 1 →
          readInput env input (itr + k) = readInput env input (cand + k) := by
        intro k hk
        by_cases hks : k = sequenceLen
        · rw [hks]; exact hb
        · exact heq k (by omega)
      by_cases hstop : sequenceLen + 1 ≥ endDistance env itr ∨ cand + (sequenceLen + 1) ≥ itr
      · rw [if_pos hstop] at h
        simp only [Except.ok.injEq] at h
        subst h
        exact ⟨heq1, fun hc => by omega⟩
      · rw [if_neg hstop] at h
        have h2 : ¬ cand + (sequenceLen + 1) ≥ itr := fun h => hstop (Or.inr h)
        exact ih (sequenceLen + 1) n h heq1 (Or.inr (by omega))
    · rw [if_neg hb] at h
      simp only [Except.ok.injEq] at h
      subst h
      exact ⟨heq, fun hc => by omega⟩

/-- The scan returns `(0, 0)` or a match: a length of at least `MinSearchLen` and
the distance to a candidate of the table, with the length at most the distance
and the bytes read at the cursor equal to those read at the candidate. -/
theorem ScanLoop_sound (MinSearchLen SearchTblCnt : Nat) (env : Surroundings)
    (input : List Nat) (table : Table) (itr base : Nat)
    (htab : TableBelow table itr) (hitr : itr < 2 ^ 64) :
    ∀ fuel curr r,
      ScanLoop MinSearchLen SearchTblCnt env input table itr base 0 0 fuel curr = .ok r →
      (r.runLen = 0 ∧ r.offset = 0) ∨
      (MinSearchLen ≤ r.runLen ∧ r.runLen ≤ r.offset ∧ 1 ≤ r.offset ∧ r.offset ≤ itr ∧
        slot table r.curr = some (itr - r.offset) ∧
        ∀ k, k < r.runLen →
          readInput env input (itr - r.offset + k) = readInput env input (itr + k)) := by
  intro fuel
  induction fuel with
  | zero => intro _ _ h; simp [ScanLoop] at h
  | succ fuel ih =>
    intro curr r h
    unfold ScanLoop at h
    cases hslot : slot table curr with
    | none =>
      rw [hslot] at h
      simp only [Except.ok.injEq] at h
      subst h
      exact Or.inl ⟨rfl, rfl⟩
    | some cand =>
      rw [hslot] at h
      simp only [] at h
      have hcand : cand < itr := htab curr cand hslot
      cases hm : MatchLoop env input itr cand (itr + 1) 0 with
      | error f => rw [hm] at h; simp at h
      | ok n =>
        rw [hm] at h
        simp only [] at h
        obtain ⟨hbytes, hbound⟩ := MatchLoop_sound env input itr cand (itr + 1) 0 n hm
          (fun k hk => absurd hk (by omega)) (Or.inl rfl)
        have hn := hbound hcand
        by_cases hmin : n ≥ MinSearchLen
        · rw [if_pos hmin] at h
          have hdelta : (itr + 2 ^ 64 - cand % 2 ^ 64) % 2 ^ 64 = itr - cand := by
            rw [Nat.mod_eq_of_lt (by omega : cand < 2 ^ 64)]
            have : itr + 2 ^ 64 - cand = (itr - cand) + 2 ^ 64 := by omega
            rw [this, Nat.add_mod_right, Nat.mod_eq_of_lt (by omega)]
          rw [hdelta, if_neg (by omega)] at h
          by_cases hq : n * SearchTblCnt % 2 ^ 64 / (itr - cand) > 0
          · rw [if_pos hq] at h
            simp only [Except.ok.injEq] at h
            subst h
            refine Or.inr ⟨hmin, hn, by show 1 ≤ itr - cand; omega,
              by show itr - cand ≤ itr; omega, ?_, ?_⟩
            · show slot table curr = some (itr - (itr - cand))
              rw [hslot, show itr - (itr - cand) = cand by omega]
            · intro k hk
              show readInput env input (itr - (itr - cand) + k) = readInput env input (itr + k)
              rw [show itr - (itr - cand) = cand by omega]
              exact (hbytes k hk).symm
          · rw [if_neg hq] at h
            simp only [Except.ok.injEq] at h
            subst h
            exact Or.inl ⟨rfl, rfl⟩
        · rw [if_neg hmin] at h
          by_cases hne : slot table (if curr = 0 then SearchTblCnt - 1 else curr - 1)
              ≠ slot table base
          · rw [if_pos hne] at h
            exact ih _ r h
          · rw [if_neg hne] at h
            simp only [Except.ok.injEq] at h
            subst h
            exact Or.inl ⟨rfl, rfl⟩

/-- What `ProcessHash` returns at a state of a run on a fresh compressor: `(0, 0)`
or a match of at least `MinSearchLen` bytes, no longer than its distance, whose
bytes, read at the cursor and at the candidate, agree. -/
theorem ProcessHash_sound (MinSearchLen SearchTblCnt : Nat) (env : Surroundings)
    (input : List Nat) (hMin : 1 ≤ MinSearchLen)
    (s : CompState) (hs : Reached MinSearchLen SearchTblCnt env input s)
    (hitr : s.itr < 2 ^ 64) (r : Scan) (table1 : Table)
    (hp : ProcessHash MinSearchLen SearchTblCnt env input s.table s.itr 0 0 = .ok (r, table1)) :
    (r.runLen = 0 ∧ r.offset = 0) ∨
    (MinSearchLen ≤ r.runLen ∧ r.runLen ≤ r.offset ∧ 1 ≤ r.offset ∧ r.offset ≤ s.itr ∧
      ∀ k, k < r.runLen →
        readInput env input (s.itr - r.offset + k) = readInput env input (s.itr + k)) := by
  obtain ⟨_, hbelow, _⟩ := Reached_table MinSearchLen SearchTblCnt env input hMin s hs
  obtain ⟨_, base, _, hscan, _, _⟩ := ProcessHash_table _ _ _ _ _ _ _ _ _ _ hp
  rcases ScanLoop_sound MinSearchLen SearchTblCnt env input s.table s.itr base hbelow
    hitr SearchTblCnt base r hscan with h | ⟨h1, h2, h3, h4, _, h6⟩
  · exact Or.inl h
  · exact Or.inr ⟨h1, h2, h3, h4, h6⟩

/-! ## Back-references do not overlap -/

theorem take_drop_set (l : List Nat) (a n d v : Nat) (h : a + n ≤ d) :
    ((l.set d v).drop a).take n = (l.drop a).take n := by
  apply List.ext_getElem?
  intro i
  rw [List.getElem?_take, List.getElem?_take]
  by_cases hi : i < n
  · rw [if_pos hi, if_pos hi, List.getElem?_drop, List.getElem?_drop, List.getElem?_set]
    rw [if_neg (by omega)]
  · rw [if_neg hi, if_neg hi]

theorem overwrite_nil (output : List Nat) (dst : Nat) : overwrite output dst [] = output := by
  unfold overwrite
  simp

/-- Writing one byte and then the rest behind it is writing the whole block. -/
theorem overwrite_set (output : List Nat) (dst v : Nat) (X : List Nat)
    (hfit : dst + 1 + X.length ≤ output.length) :
    overwrite (output.set dst v) (dst + 1) X = overwrite output dst (v :: X) := by
  apply List.ext_getElem?
  intro i
  by_cases h1 : i < dst
  · rw [overwrite_get_left _ _ _ _ (by rw [List.length_set]; omega) (by omega),
      overwrite_get_left _ _ _ _ (by omega) h1, List.getElem?_set]
    rw [if_neg (by omega)]
  · by_cases h2 : i = dst
    · subst h2
      rw [overwrite_get_left _ _ _ _ (by rw [List.length_set]; omega) (by omega),
        List.getElem?_set]
      have := overwrite_get_mid output i (v :: X) 0 (by omega) (by simp)
      rw [Nat.add_zero] at this
      rw [this]
      simp
      omega
    · by_cases h3 : i < dst + 1 + X.length
      · have hA := overwrite_get_mid (output.set dst v) (dst + 1) X (i - (dst + 1))
          (by rw [List.length_set]; omega) (by omega)
        have hB := overwrite_get_mid output dst (v :: X) (i - dst) (by omega)
          (by simp; omega)
        rw [show dst + 1 + (i - (dst + 1)) = i by omega] at hA
        rw [show dst + (i - dst) = i by omega] at hB
        rw [hA, hB, show i - dst = (i - (dst + 1)) + 1 by omega, List.getElem?_cons_succ]
      · rw [overwrite_get_right _ _ _ _ (by rw [List.length_set]; omega) (by omega),
          overwrite_get_right _ _ _ _ (by omega) (by simp; omega), List.getElem?_set]
        rw [if_neg (by omega)]

/-- When the source range ends before the destination begins, the forward
byte-by-byte copy is the block copy. -/
theorem copyForwardLoop_disjoint :
    ∀ n (output : List Nat) dst src, src + n ≤ dst →
      copyForwardLoop n output dst src =
        if n ≠ 0 ∧ output.length < dst + n then .error .outputAccess
        else .ok (overwrite output dst ((output.drop src).take n)) := by
  intro n
  induction n with
  | zero =>
    intro output dst src _
    unfold copyForwardLoop
    simp [overwrite_nil]
  | succ n ih =>
    intro output dst src hsrc
    unfold copyForwardLoop
    by_cases hout : output.length ≤ src ∨ output.length ≤ dst
    · rw [if_pos hout, if_pos ⟨by omega, by omega⟩]
    · rw [if_neg hout, ih _ _ _ (by omega), List.length_set]
      by_cases hfit : output.length < dst + (n + 1)
      · rw [if_pos ⟨by omega, by omega⟩, if_pos ⟨by omega, by omega⟩]
      · rw [if_neg (by omega), if_neg (by omega), take_drop_set _ _ _ _ _ (by omega)]
        have hdrop : (output.drop src).take (n + 1)
            = output.getD src 0 :: (output.drop (src + 1)).take n := by
          rw [List.drop_eq_getElem_cons (by omega : src < output.length), List.take_succ_cons,
            List.getD_eq_getElem?_getD, List.getElem?_eq_getElem (by omega)]
          rfl
        rw [hdrop, overwrite_set _ _ _ _ (by simp; omega)]

theorem memcpyWithin_eq_copyForward (output : List Nat) (dst offset n : Nat)
    (hdisj : n ≤ offset) (hback : offset ≤ dst) (hdst : dst < 2 ^ 64) :
    memcpyWithin output dst offset n = copyForward output dst offset n := by
  have hsrc : (dst + 2 ^ 64 - offset % 2 ^ 64) % 2 ^ 64 = dst - offset := by
    rw [Nat.mod_eq_of_lt (by omega : offset < 2 ^ 64)]
    have : dst + 2 ^ 64 - offset = (dst - offset) + 2 ^ 64 := by omega
    rw [this, Nat.add_mod_right, Nat.mod_eq_of_lt (by omega)]
  unfold memcpyWithin copyForward
  simp only [hsrc]
  rw [copyForwardLoop_disjoint n output dst (dst - offset) (by omega)]
  by_cases hn : n = 0
  · subst hn
    simp [overwrite_nil]
  · rw [if_neg hn]
    by_cases hfit : output.length < dst + n
    · rw [if_pos (Or.inr hfit), if_pos ⟨hn, hfit⟩]
    · rw [if_neg (by omega), if_neg (by omega), if_neg (by omega)]

/-- What a round of the main loop that goes on writes: nothing when the match
finder found no match, and otherwise the pending literals, if any, and the
back-reference with the offset and length the match finder returned. -/
theorem CompressStep_output (MinSearchLen SearchTblCnt : Nat) (env : Surroundings)
    (input : List Nat) (s s1 : CompState) (r : Scan) (table1 : Table)
    (h : CompressStep MinSearchLen SearchTblCnt env input s = .ok (true, s1))
    (hp : ProcessHash MinSearchLen SearchTblCnt env input s.table s.itr 0 0 = .ok (r, table1)) :
    (r.runLen < MinSearchLen → s1.output = s.output ∧ s1.itr = s.itr + 1 ∧
      s1.pendingData = s.pendingData ++ [readInput env input s.itr]) ∧
    (MinSearchLen ≤ r.runLen → s1.itr = s.itr + r.runLen ∧ s1.pendingData = [] ∧
      s1.output = Encode r.runLen (Encode r.offset (Encode SEQ_LOOKUP
        (if s.pendingData.length ≠ 0 then
          Encode s.pendingData.length (Encode SEQ_LEN s.output) ++ s.pendingData
        else s.output)))) := by
  unfold CompressStep at h
  by_cases hend : nearEnd MinSearchLen env input s.itr
  · rw [if_pos hend] at h
    simp at h
  · rw [if_neg hend, hp] at h
    simp only [] at h
    by_cases hrun : r.runLen < MinSearchLen
    · rw [if_pos hrun] at h
      by_cases hlast : s.itr + 1 > input.length
      · rw [if_pos hlast] at h
        simp at h
      · rw [if_neg hlast] at h
        simp only [Except.ok.injEq, Prod.mk.injEq, true_and] at h
        subst h
        exact ⟨fun _ => ⟨rfl, rfl, rfl⟩, fun hge => absurd hge (by omega)⟩
    · rw [if_neg hrun] at h
      simp only [Except.ok.injEq, Prod.mk.injEq, true_and] at h
      subst h
      exact ⟨fun hlt => absurd hlt hrun, fun _ => ⟨rfl, rfl, rfl⟩⟩

/-- C18: in a run of `Compress` on a fresh compressor with `MinSearchLen ≥ 1`,
every round that writes a back-reference writes the offset and length returned
by `ProcessHash`, and these satisfy `length ≤ offset ≤ cursor`; and for a
back-reference with `length ≤ offset ≤ output position` the block copy of
`Decompress` is the forward byte-by-byte copy, in its result and in its
faults. -/
theorem backReference_disjoint (MinSearchLen SearchTblCnt : Nat) (env : Surroundings)
    (input : List Nat) (hMin : 1 ≤ MinSearchLen) (hlen : input.length < 2 ^ 64) :
    (∀ s s1 r table1, Reached MinSearchLen SearchTblCnt env input s →
      CompressStep MinSearchLen SearchTblCnt env input s = .ok (true, s1) →
      ProcessHash MinSearchLen SearchTblCnt env input s.table s.itr 0 0 = .ok (r, table1) →
      MinSearchLen ≤ r.runLen →
      (∃ output, s1.output = Encode r.runLen (Encode r.offset (Encode SEQ_LOOKUP output))) ∧
        r.runLen ≤ r.offset ∧ 1 ≤ r.offset ∧ r.offset ≤ s.itr) ∧
    (∀ output dst offset n, n ≤ offset → offset ≤ dst → dst < 2 ^ 64 →
      memcpyWithin output dst offset n = copyForward output dst offset n) := by
  constructor
  · intro s s1 r table1 hs hstep hp hrun
    obtain ⟨hcall, _⟩ := CompressStep_shape MinSearchLen SearchTblCnt env input s s1 hstep
    obtain ⟨_, hemit⟩ := CompressStep_output MinSearchLen SearchTblCnt env input s s1 r table1
      hstep hp
    obtain ⟨_, _, hout⟩ := hemit hrun
    rcases ProcessHash_sound MinSearchLen SearchTblCnt env input hMin s hs
      (lt_of_not_nearEnd MinSearchLen env input s.itr hlen hcall) r table1 hp
      with ⟨h0, _⟩ | ⟨_, h2, h3, h4, _⟩
    · omega
    · exact ⟨⟨_, hout⟩, h2, h3, h4⟩
  · intro output dst offset n h1 h2 h3
    exact memcpyWithin_eq_copyForward output dst offset n h1 h2 h3

/-- C18 (at an input): the default configuration and the input `overrunInput`,
and the copy of 2 bytes from 2 positions back in a buffer of 4 bytes. -/
theorem backReference_disjoint_witness :
    (∀ s s1 r table1, Reached 12 1024 quietEnv overrunInput s →
      CompressStep 12 1024 quietEnv overrunInput s = .ok (true, s1) →
      ProcessHash 12 1024 quietEnv overrunInput s.table s.itr 0 0 = .ok (r, table1) →
      12 ≤ r.runLen →
      (∃ output, s1.output = Encode r.runLen (Encode r.offset (Encode SEQ_LOOKUP output))) ∧
        r.runLen ≤ r.offset ∧ 1 ≤ r.offset ∧ r.offset ≤ s.itr) ∧
    memcpyWithin [0x41, 0x42, 0x20, 0x20] 2 2 2 = copyForward [0x41, 0x42, 0x20, 0x20] 2 2 2 :=
  ⟨(backReference_disjoint 12 1024 quietEnv overrunInput (by decide) (by decide)).1,
    (backReference_disjoint 12 1024 quietEnv overrunInput (by decide) (by decide)).2
      [0x41, 0x42, 0x20, 0x20] 2 2 2 (by decide) (by decide) (by decide)⟩

/-! ## The scan of the table -/

theorem slotBack_zero (SearchTblCnt base : Nat) : slotBack SearchTblCnt base 0 = base := by
  unfold slotBack
  simp

theorem slotBack_lt (SearchTblCnt base k : Nat) (hb : base < SearchTblCnt) (hk : k < SearchTblCnt) :
    slotBack SearchTblCnt base k < SearchTblCnt := by
  unfold slotBack
  split <;> omega

theorem slotBack_injective (SearchTblCnt base j k : Nat)
    (hj : j < SearchTblCnt) (hk : k < SearchTblCnt)
    (h : slotBack SearchTblCnt base j = slotBack SearchTblCnt base k) : j = k := by
  unfold slotBack at h
  split at h <;> split at h <;> omega

theorem prevSlot_slotBack (SearchTblCnt base k : Nat) (hb : base < SearchTblCnt)
    (hk : k + 1 < SearchTblCnt) :
    prevSlot SearchTblCnt (slotBack SearchTblCnt base k) = slotBack SearchTblCnt base (k + 1) := by
  unfold prevSlot slotBack
  split <;> split <;> split <;> omega

theorem prevSlot_slotBack_last (SearchTblCnt base k : Nat) (hb : base < SearchTblCnt)
    (hk : k + 1 = SearchTblCnt) :
    prevSlot SearchTblCnt (slotBack SearchTblCnt base k) = base := by
  unfold prevSlot slotBack
  split <;> split <;> omega

theorem prevSlot_ne_base (SearchTblCnt base k : Nat) (hb : base < SearchTblCnt)
    (hk : k < SearchTblCnt)
    (h : prevSlot SearchTblCnt (slotBack SearchTblCnt base k) ≠ base) : k + 1 < SearchTblCnt := by
  by_contra hlt
  exact h (prevSlot_slotBack_last SearchTblCnt base k hb (by omega))

theorem ScanProbes_succ (MinSearchLen SearchTblCnt : Nat) (env : Surroundings)
    (input : List Nat) (table : Table) (itr base fuel curr : Nat) :
    ScanProbes MinSearchLen SearchTblCnt env input table itr base (fuel + 1) curr =
      curr :: (match slot table curr with
        | none => []
        | some cand =>
          match MatchLoop env input itr cand (itr + 1) 0 with
          | .error _ => []
          | .ok sequenceLen =>
            if sequenceLen ≥ MinSearchLen then []
            else
              if slot table (prevSlot SearchTblCnt curr) ≠ slot table base then
                ScanProbes MinSearchLen SearchTblCnt env input table itr base fuel
                  (prevSlot SearchTblCnt curr)
              else []) := rfl

/-- The rest of the probes behind a slot is empty exactly when the scan stops at
that slot. -/
theorem ScanProbes_step (MinSearchLen SearchTblCnt : Nat) (env : Surroundings)
    (input : List Nat) (table : Table) (itr base fuel curr : Nat) :
    ∃ rest, ScanProbes MinSearchLen SearchTblCnt env input table itr base (fuel + 1) curr
        = curr :: rest ∧
      ((rest = [] ∧ (slot table curr = none ∨ Qualifies MinSearchLen env input table itr curr ∨
          (slot table curr ≠ none ∧
            slot table (prevSlot SearchTblCnt curr) = slot table base))) ∨
        (rest = ScanProbes MinSearchLen SearchTblCnt env input table itr base fuel
            (prevSlot SearchTblCnt curr) ∧
          slot table curr ≠ none ∧ ¬ Qualifies MinSearchLen env input table itr curr ∧
          slot table (prevSlot SearchTblCnt curr) ≠ slot table base)) := by
  rw [ScanProbes_succ]
  cases hslot : slot table curr with
  | none => exact ⟨[], rfl, Or.inl ⟨rfl, Or.inl rfl⟩⟩
  | some cand =>
    obtain ⟨n, hn⟩ := MatchLoop_ok env input itr cand (itr + 1) 0 (by omega) (by omega)
    simp only [hn]
    by_cases hmin : n ≥ MinSearchLen
    · rw [if_pos hmin]
      exact ⟨[], rfl, Or.inl ⟨rfl, Or.inr (Or.inl ⟨cand, n, hslot, hn, hmin⟩)⟩⟩
    · rw [if_neg hmin]
      have hnq : ¬ Qualifies MinSearchLen env input table itr curr := by
        rintro ⟨cand1, n1, h1, h2, h3⟩
        rw [hslot] at h1
        cases h1
        rw [hn] at h2
        cases h2
        omega
      by_cases hne : slot table (prevSlot SearchTblCnt curr) ≠ slot table base
      · rw [if_pos hne]
        exact ⟨_, rfl, Or.inr ⟨rfl, by simp, hnq, hne⟩⟩
      · rw [if_neg hne]
        exact ⟨[], rfl, Or.inl ⟨rfl, Or.inr (Or.inr ⟨by simp, not_not.mp hne⟩)⟩⟩


/-- The probes of a scan that has reached the slot `j` steps before `base` with
`SearchTblCnt - j` rounds left: their number, their positions, and which of them
is the last. -/
theorem ScanProbes_positions (MinSearchLen SearchTblCnt : Nat) (env : Surroundings)
    (input : List Nat) (table : Table) (itr base : Nat) (hb : base < SearchTblCnt)
    (hd : TableDistinct table) :
    ∀ fuel j, j + fuel = SearchTblCnt → j < SearchTblCnt →
      (1 ≤ j → slot table base ≠ none) →
      1 ≤ (ScanProbes MinSearchLen SearchTblCnt env input table itr base fuel
            (slotBack SearchTblCnt base j)).length ∧
      (ScanProbes MinSearchLen SearchTblCnt env input table itr base fuel
            (slotBack SearchTblCnt base j)).length ≤ fuel ∧
      (∀ k, k < (ScanProbes MinSearchLen SearchTblCnt env input table itr base fuel
            (slotBack SearchTblCnt base j)).length →
        (ScanProbes MinSearchLen SearchTblCnt env input table itr base fuel
            (slotBack SearchTblCnt base j)).getD k 0 = slotBack SearchTblCnt base (j + k)) ∧
      (∀ k, k < (ScanProbes MinSearchLen SearchTblCnt env input table itr base fuel
            (slotBack SearchTblCnt base j)).length →
        (k + 1 = (ScanProbes MinSearchLen SearchTblCnt env input table itr base fuel
            (slotBack SearchTblCnt base j)).length ↔
          (slot table ((ScanProbes MinSearchLen SearchTblCnt env input table itr base fuel
              (slotBack SearchTblCnt base j)).getD k 0) = none ∨
            Qualifies MinSearchLen env input table itr
              ((ScanProbes MinSearchLen SearchTblCnt env input table itr base fuel
                (slotBack SearchTblCnt base j)).getD k 0) ∨
            prevSlot SearchTblCnt
              ((ScanProbes MinSearchLen SearchTblCnt env input table itr base fuel
                (slotBack SearchTblCnt base j)).getD k 0) = base))) := by
  intro fuel
  induction fuel with
  | zero => intro j h1 h2; omega
  | succ f ih =>
    intro j hj hjlt hbase
    have hbase1 : slot table (slotBack SearchTblCnt base j) ≠ none → slot table base ≠ none := by
      intro hne
      by_cases hj0 : j = 0
      · rw [hj0, slotBack_zero] at hne
        exact hne
      · exact hbase (by omega)
    obtain ⟨rest, hL, hcase⟩ := ScanProbes_step MinSearchLen SearchTblCnt env input table itr
      base f (slotBack SearchTblCnt base j)
    rw [hL]
    rcases hcase with ⟨hrest, hstop⟩ | ⟨hrest, hne, hnq, hprev⟩
    · subst hrest
      have hstops : slot table (slotBack SearchTblCnt base j) = none ∨
          Qualifies MinSearchLen env input table itr (slotBack SearchTblCnt base j) ∨
          prevSlot SearchTblCnt (slotBack SearchTblCnt base j) = base := by
        rcases hstop with h | h | ⟨hne, heq⟩
        · exact Or.inl h
        · exact Or.inr (Or.inl h)
        · refine Or.inr (Or.inr ?_)
          have hbne := hbase1 hne
          cases hsb : slot table base with
          | none => exact absurd hsb hbne
          | some p => exact hd _ _ p (heq.trans hsb) hsb
      refine ⟨by simp, by simp, ?_, ?_⟩
      · intro k hk
        have hk0 : k = 0 := by simpa using hk
        subst hk0
        simp
      · intro k hk
        have hk0 : k = 0 := by simpa using hk
        subst hk0
        simpa using hstops
    · have hpne : prevSlot SearchTblCnt (slotBack SearchTblCnt base j) ≠ base := by
        intro h
        exact hprev (by rw [h])
      have hj1 : j + 1 < SearchTblCnt := prevSlot_ne_base SearchTblCnt base j hb hjlt hpne
      have hps := prevSlot_slotBack SearchTblCnt base j hb hj1
      rw [hps] at hrest
      obtain ⟨i1, i2, i3, i4⟩ := ih (j + 1) (by omega) hj1 (fun _ => hbase1 hne)
      rw [← hrest] at i1 i2 i3 i4
      refine ⟨by simp, by simp only [List.length_cons]; omega, ?_, ?_⟩
      · intro k hk
        cases k with
        | zero => simp
        | succ k1 =>
          simp only [List.length_cons] at hk
          have := i3 k1 (by omega)
          simp only [List.getD_cons_succ]
          rw [this]
          congr 1
          omega
      · intro k hk
        cases k with
        | zero =>
          simp only [List.getD_cons_zero, List.length_cons]
          constructor
          · intro h
            omega
          · intro h
            rcases h with h | h | h
            · exact absurd h hne
            · exact absurd h hnq
            · exact absurd h hpne
        | succ k1 =>
          simp only [List.length_cons] at hk
          have := i4 k1 (by omega)
          simp only [List.getD_cons_succ, List.length_cons]
          constructor
          · intro h
            exact this.mp (by omega)
          · intro h
            have := this.mpr h
            omega

theorem Hash32_lt (SearchTblCnt : Nat) (env : Surroundings) (input : List Nat) (ptr base : Nat)
    (h : Hash32 SearchTblCnt env input ptr = .ok base) : base < SearchTblCnt := by
  unfold Hash32 at h
  simp only at h
  split at h
  · cases h
  · cases h
    exact Nat.mod_lt _ (by omega)


/-- C15: the scan of a `ProcessHash` call of a run of `Compress`, as the list
`ScanProbes` of the slots it probes.  The scan starts at the slot `bucket` given by
`Hash32`; each further probe is at the slot before the last one, slot 0 being
followed by the last slot of the table; there are at most `SearchTblCnt` probes and
no slot is probed twice; and a probe is the last one exactly when its slot is
empty, or its candidate qualifies, or the slot before it is `bucket` again. -/
theorem ScanProbes_backward (MinSearchLen SearchTblCnt : Nat) (env : Surroundings)
    (input : List Nat) (hMin : 1 ≤ MinSearchLen) (s : CompState)
    (hs : Reached MinSearchLen SearchTblCnt env input s) (bucket : Nat)
    (hh : Hash32 SearchTblCnt env input s.itr = .ok bucket) :
    (ScanProbes MinSearchLen SearchTblCnt env input s.table s.itr bucket SearchTblCnt
        bucket).getD 0 0 = bucket ∧
    (∀ k, k + 1 < (ScanProbes MinSearchLen SearchTblCnt env input s.table s.itr bucket
          SearchTblCnt bucket).length →
      (ScanProbes MinSearchLen SearchTblCnt env input s.table s.itr bucket SearchTblCnt
          bucket).getD (k + 1) 0 =
        prevSlot SearchTblCnt ((ScanProbes MinSearchLen SearchTblCnt env input s.table s.itr
          bucket SearchTblCnt bucket).getD k 0)) ∧
    1 ≤ (ScanProbes MinSearchLen SearchTblCnt env input s.table s.itr bucket SearchTblCnt
        bucket).length ∧
    (ScanProbes MinSearchLen SearchTblCnt env input s.table s.itr bucket SearchTblCnt
        bucket).length ≤ SearchTblCnt ∧
    (ScanProbes MinSearchLen SearchTblCnt env input s.table s.itr bucket SearchTblCnt
        bucket).Nodup ∧
    (∀ k, k < (ScanProbes MinSearchLen SearchTblCnt env input s.table s.itr bucket
          SearchTblCnt bucket).length →
      (k + 1 = (ScanProbes MinSearchLen SearchTblCnt env input s.table s.itr bucket
          SearchTblCnt bucket).length ↔
        (slot s.table ((ScanProbes MinSearchLen SearchTblCnt env input s.table s.itr bucket
            SearchTblCnt bucket).getD k 0) = none ∨
          Qualifies MinSearchLen env input s.table s.itr
            ((ScanProbes MinSearchLen SearchTblCnt env input s.table s.itr bucket
              SearchTblCnt bucket).getD k 0) ∨
          prevSlot SearchTblCnt
            ((ScanProbes MinSearchLen SearchTblCnt env input s.table s.itr bucket
              SearchTblCnt bucket).getD k 0) = bucket))) := by
  have hb := Hash32_lt SearchTblCnt env input s.itr bucket hh
  obtain ⟨_, _, hd⟩ := Reached_table MinSearchLen SearchTblCnt env input hMin s hs
  obtain ⟨h1, h2, h3, h4⟩ := ScanProbes_positions MinSearchLen SearchTblCnt env input s.table
    s.itr bucket hb hd SearchTblCnt 0 (by omega) (by omega) (by omega)
  rw [slotBack_zero] at h1 h2 h3 h4
  refine ⟨?_, ?_, h1, h2, ?_, h4⟩
  · rw [h3 0 (by omega), Nat.zero_add, slotBack_zero]
  · intro k hk
    rw [h3 (k + 1) hk, h3 k (by omega), Nat.zero_add, Nat.zero_add,
      prevSlot_slotBack SearchTblCnt bucket k hb (by omega)]
  · rw [List.nodup_iff_injective_get]
    intro a b hab
    have ha := h3 a.1 a.2
    have hb2 := h3 b.1 b.2
    rw [List.getD_eq_getElem _ _ a.2] at ha
    rw [List.getD_eq_getElem _ _ b.2] at hb2
    have hab2 : slotBack SearchTblCnt bucket (0 + a.1) = slotBack SearchTblCnt bucket (0 + b.1) := by
      rw [← ha, ← hb2]
      exact hab
    have := slotBack_injective SearchTblCnt bucket (0 + a.1) (0 + b.1)
      (by have := a.2; omega) (by have := b.2; omega) hab2
    exact Fin.ext (by omega)

/-- C15 (at an input): the third call of the run on `ascendingInput` with a
table of two slots, in which both slots are occupied. -/
theorem ScanProbes_backward_witness :
    Reached 12 2 quietEnv ascendingInput ⟨2, [1, 2], [16], [some 0, some 1]⟩ ∧
    Hash32 2 quietEnv ascendingInput 2 = .ok 0 ∧
    ScanProbes 12 2 quietEnv ascendingInput [some 0, some 1] 2 0 2 0 = [0, 1] ∧
    (ScanProbes 12 2 quietEnv ascendingInput [some 0, some 1] 2 0 2 0).Nodup :=
  ⟨⟨2, by decide⟩, by decide, by decide,
    (ScanProbes_backward 12 2 quietEnv ascendingInput (by decide)
      ⟨2, [1, 2], [16], [some 0, some 1]⟩ ⟨2, by decide⟩ 0 (by decide)).2.2.2.2.1⟩


/-! ## The slot a call writes -/

/-- One round of the scan: where it ends, or how it goes on. -/
theorem ScanLoop_step (MinSearchLen SearchTblCnt : Nat) (env : Surroundings)
    (input : List Nat) (table : Table) (itr base runLen offset fuel curr : Nat) (r : Scan)
    (h : ScanLoop MinSearchLen SearchTblCnt env input table itr base runLen offset (fuel + 1) curr
      = .ok r) :
    (r.curr = curr ∧
      (slot table curr = none ∨ Qualifies MinSearchLen env input table itr curr)) ∨
    (slot table curr ≠ none ∧ ¬ Qualifies MinSearchLen env input table itr curr ∧
      ((slot table (prevSlot SearchTblCnt curr) = slot table base ∧
          r.curr = prevSlot SearchTblCnt curr) ∨
        (slot table (prevSlot SearchTblCnt curr) ≠ slot table base ∧
          ScanLoop MinSearchLen SearchTblCnt env input table itr base runLen offset fuel
            (prevSlot SearchTblCnt curr) = .ok r))) := by
  unfold ScanLoop at h
  cases hslot : slot table curr with
  | none =>
    rw [hslot] at h
    simp only [Except.ok.injEq] at h
    subst h
    exact Or.inl ⟨rfl, Or.inl rfl⟩
  | some cand =>
    rw [hslot] at h
    simp only at h
    cases hn : MatchLoop env input itr cand (itr + 1) 0 with
    | error f => rw [hn] at h; simp at h
    | ok n =>
      rw [hn] at h
      simp only at h
      by_cases hmin : n ≥ MinSearchLen
      · rw [if_pos hmin] at h
        refine Or.inl ⟨?_, Or.inr ⟨cand, n, hslot, hn, hmin⟩⟩
        split at h
        · cases h
        · split at h <;> (cases h; rfl)
      · rw [if_neg hmin] at h
        have hnq : ¬ Qualifies MinSearchLen env input table itr curr := by
          rintro ⟨cand1, n1, h1, h2, h3⟩
          rw [hslot] at h1
          cases h1
          rw [hn] at h2
          cases h2
          omega
        refine Or.inr ⟨by simp, hnq, ?_⟩
        by_cases hne : slot table (prevSlot SearchTblCnt curr) ≠ slot table base
        · right
          refine ⟨hne, ?_⟩
          unfold prevSlot at hne ⊢
          rw [if_pos hne] at h
          exact h
        · left
          refine ⟨not_not.mp hne, ?_⟩
          unfold prevSlot at hne ⊢
          rw [if_neg hne] at h
          simp only [Except.ok.injEq] at h
          subst h
          rfl

/-- The slot the scan ends on, against the last slot it probed: the same slot when
that slot is empty or holds a qualifying candidate, and the slot before it, holding
what slot `base` holds, otherwise. -/
theorem ScanLoop_curr (MinSearchLen SearchTblCnt : Nat) (env : Surroundings)
    (input : List Nat) (table : Table) (itr base runLen offset : Nat) (r : Scan) :
    ∀ fuel curr,
      ScanLoop MinSearchLen SearchTblCnt env input table itr base runLen offset fuel curr
        = .ok r →
      ∃ c, (ScanProbes MinSearchLen SearchTblCnt env input table itr base fuel curr).getLast?
          = some c ∧
        ((r.curr = c ∧
            (slot table c = none ∨ Qualifies MinSearchLen env input table itr c)) ∨
          (r.curr = prevSlot SearchTblCnt c ∧ slot table c ≠ none ∧
            ¬ Qualifies MinSearchLen env input table itr c ∧
            slot table (prevSlot SearchTblCnt c) = slot table base)) := by
  intro fuel
  induction fuel with
  | zero => intro curr h; simp [ScanLoop] at h
  | succ f ih =>
    intro curr h
    obtain ⟨rest, hL, hcase⟩ := ScanProbes_step MinSearchLen SearchTblCnt env input table itr
      base f curr
    rw [hL]
    rcases ScanLoop_step _ _ _ _ _ _ _ _ _ _ _ _ h with ⟨hc, hstop⟩ | ⟨hne, hnq, hrest⟩
    · rcases hcase with ⟨hr, _⟩ | ⟨_, hne, hnq, _⟩
      · subst hr
        exact ⟨curr, rfl, Or.inl ⟨hc, hstop⟩⟩
      · rcases hstop with h1 | h1
        · exact absurd h1 hne
        · exact absurd h1 hnq
    · rcases hrest with ⟨heq, hc⟩ | ⟨hneq, hloop⟩
      · rcases hcase with ⟨hr, _⟩ | ⟨_, _, _, hneq⟩
        · subst hr
          exact ⟨curr, rfl, Or.inr ⟨hc, hne, hnq, heq⟩⟩
        · exact absurd heq hneq
      · rcases hcase with ⟨_, hstop⟩ | ⟨hr, _⟩
        · rcases hstop with h1 | h1 | ⟨_, h1⟩
          · exact absurd h1 hne
          · exact absurd h1 hnq
          · exact absurd h1 hneq
        · obtain ⟨c, hc, hrel⟩ := ih _ hloop
          refine ⟨c, ?_, hrel⟩
          rw [hr]
          cases hP : ScanProbes MinSearchLen SearchTblCnt env input table itr base f
              (prevSlot SearchTblCnt curr) with
          | nil => rw [hP] at hc; simp at hc
          | cons a t => rw [hP] at hc; rw [List.getLast?_cons_cons]; exact hc


/-- C16 (amended): a `ProcessHash` call of a run of `Compress` sets one slot of
the table to the cursor, whatever the slot held, and leaves every other slot and
the size of the table as they were.  The slot is the one the scan ended on: the
last slot probed, when that slot is empty or holds a qualifying candidate; and
otherwise the slot `bucket`, to which the scan has come back around the table.
The input and the configuration are arguments of the call and are not part of its
result. -/
theorem ProcessHash_sets_one_slot (MinSearchLen SearchTblCnt : Nat) (env : Surroundings)
    (input : List Nat) (hMin : 1 ≤ MinSearchLen) (s : CompState)
    (hs : Reached MinSearchLen SearchTblCnt env input s) (r : Scan) (table1 : Table)
    (hp : ProcessHash MinSearchLen SearchTblCnt env input s.table s.itr 0 0 = .ok (r, table1)) :
    table1.length = s.table.length ∧ r.curr < s.table.length ∧
    slot table1 r.curr = some s.itr ∧
    (∀ i, i ≠ r.curr → slot table1 i = slot s.table i) ∧
    ∃ bucket c, Hash32 SearchTblCnt env input s.itr = .ok bucket ∧
      (ScanProbes MinSearchLen SearchTblCnt env input s.table s.itr bucket SearchTblCnt
        bucket).getLast? = some c ∧
      ((r.curr = c ∧
          (slot s.table c = none ∨ Qualifies MinSearchLen env input s.table s.itr c)) ∨
        (r.curr = bucket ∧ prevSlot SearchTblCnt c = bucket ∧ slot s.table c ≠ none ∧
          ¬ Qualifies MinSearchLen env input s.table s.itr c)) := by
  obtain ⟨htab, bucket, hh, hscan, _, hrlt⟩ := ProcessHash_table _ _ _ _ _ _ _ _ _ _ hp
  have hb := Hash32_lt SearchTblCnt env input s.itr bucket hh
  obtain ⟨_, _, hd⟩ := Reached_table MinSearchLen SearchTblCnt env input hMin s hs
  obtain ⟨h1, h2, h3, h4⟩ := ScanProbes_positions MinSearchLen SearchTblCnt env input s.table
    s.itr bucket hb hd SearchTblCnt 0 (by omega) (by omega) (by omega)
  rw [slotBack_zero] at h1 h2 h3 h4
  obtain ⟨c, hc, hrel⟩ := ScanLoop_curr _ _ _ _ _ _ _ _ _ _ _ _ hscan
  have hcget : (ScanProbes MinSearchLen SearchTblCnt env input s.table s.itr bucket SearchTblCnt
      bucket).getD ((ScanProbes MinSearchLen SearchTblCnt env input s.table s.itr bucket
        SearchTblCnt bucket).length - 1) 0 = c := by
    rw [List.getLast?_eq_getElem?] at hc
    rw [List.getD_eq_getElem?_getD, hc]
    rfl
  have hlast := (h4 ((ScanProbes MinSearchLen SearchTblCnt env input s.table s.itr bucket
    SearchTblCnt bucket).length - 1) (by omega)).mp (by omega)
  rw [hcget] at hlast
  have hcurr : (r.curr = c ∧
        (slot s.table c = none ∨ Qualifies MinSearchLen env input s.table s.itr c)) ∨
      (r.curr = bucket ∧ prevSlot SearchTblCnt c = bucket ∧ slot s.table c ≠ none ∧
        ¬ Qualifies MinSearchLen env input s.table s.itr c) := by
    rcases hrel with ⟨h, hstop⟩ | ⟨h, hne, hnq, _⟩
    · exact Or.inl ⟨h, hstop⟩
    · rcases hlast with h5 | h5 | h5
      · exact absurd h5 hne
      · exact absurd h5 hnq
      · exact Or.inr ⟨by rw [h, h5], h5, hne, hnq⟩
  refine ⟨by rw [htab, List.length_set], hrlt, ?_, ?_, bucket, c, hh, hc, hcurr⟩
  · rw [htab]
    exact slot_set_self _ _ _ hrlt
  · intro i hi
    rw [htab]
    exact slot_set_ne _ _ _ _ hi

set_option maxRecDepth 100000 in
/-- C16 (amended, at an input): the call at cursor 14 of the run on `overrunInput` with
the default configuration.  The scan stops at its first probe, slot 476, which
holds a qualifying candidate, and the call sets that slot. -/
theorem ProcessHash_sets_one_slot_witness :
    Reached 12 1024 quietEnv overrunInput
      ⟨14, [1, 2, 3, 4, 5, 6, 7, 8, 9, 10, 11, 12, 0, 0], [26], overrunTable⟩ ∧
    ProcessHash 12 1024 quietEnv overrunInput overrunTable 14 0 0
      = .ok (⟨14, 14, 476⟩, overrunTable.set 476 (some 14)) ∧
    slot (overrunTable.set 476 (some 14)) 476 = some 14 ∧
    (∀ i, i ≠ 476 → slot (overrunTable.set 476 (some 14)) i = slot overrunTable i) :=
  ⟨⟨14, by decide⟩, by decide,
    (ProcessHash_sets_one_slot 12 1024 quietEnv overrunInput (by decide)
      ⟨14, [1, 2, 3, 4, 5, 6, 7, 8, 9, 10, 11, 12, 0, 0], [26], overrunTable⟩ ⟨14, by decide⟩
      ⟨14, 14, 476⟩ (overrunTable.set 476 (some 14)) (by decide)).2.2.1,
    (ProcessHash_sets_one_slot 12 1024 quietEnv overrunInput (by decide)
      ⟨14, [1, 2, 3, 4, 5, 6, 7, 8, 9, 10, 11, 12, 0, 0], [26], overrunTable⟩ ⟨14, by decide⟩
      ⟨14, 14, 476⟩ (overrunTable.set 476 (some 14)) (by decide)).2.2.2.1⟩

/-- C16 (counterexample): the third call of the run on
`ascendingInput` with a table of two slots, both occupied.  The scan probes slot
0, the bucket, and then slot 1, the last slot it probes; neither candidate
qualifies, the slot before slot 1 is the bucket again, and the scan ends there.
The call sets slot 0; slot 1, the last slot probed, keeps the position 1. -/
theorem ProcessHash_ascendingInput :
    Reached 12 2 quietEnv ascendingInput ⟨2, [1, 2], [16], [some 0, some 1]⟩ ∧
    Hash32 2 quietEnv ascendingInput 2 = .ok 0 ∧
    ScanProbes 12 2 quietEnv ascendingInput [some 0, some 1] 2 0 2 0 = [0, 1] ∧
    (ScanProbes 12 2 quietEnv ascendingInput [some 0, some 1] 2 0 2 0).getLast? = some 1 ∧
    ProcessHash 12 2 quietEnv ascendingInput [some 0, some 1] 2 0 0
      = .ok (⟨0, 0, 0⟩, [some 2, some 1]) ∧
    slot [some 2, some 1] 1 = slot [some 0, some 1] 1 ∧
    slot [some 2, some 1] 1 ≠ some 2 ∧
    slot [some 2, some 1] 0 = some 2 :=
  ⟨⟨2, by decide⟩, by decide, by decide, by decide, by decide, by decide, by decide, by decide⟩

/-! ## The match at the end of `overrunInput` -/

set_option maxRecDepth 100000 in
/-- C12 (code at the failing input): in the run on the 26-byte input `overrunInput`
with the default configuration, the call at cursor 14 is made with the table
`overrunTable` and returns length 14 and offset 14, when the memory behind the
input is zero.  Twelve bytes are left at the cursor: the byte of the input at
index `14 - 14 + 12` is a zero byte, and there is no byte of the input at index
`14 + 12` to be equal to it. -/
theorem ProcessHash_overrunInput :
    CompressRounds 12 1024 quietEnv overrunInput 14 (startState 1024 overrunInput) =
      .ok (true, ⟨14, [1, 2, 3, 4, 5, 6, 7, 8, 9, 10, 11, 12, 0, 0], [26], overrunTable⟩) ∧
    ProcessHash 12 1024 quietEnv overrunInput overrunTable 14 0 0 =
      .ok (⟨14, 14, 476⟩, overrunTable.set 476 (some 14)) ∧
    overrunInput.length = 26 ∧
    overrunInput[14 - 14 + 12]? = some 0 ∧ overrunInput[14 + 12]? = none := by
  decide


set_option maxRecDepth 100000 in
/-- C13 (code at the failing input): in the run on the 26-byte input `overrunInput`
with the default configuration, the comparison of the bytes at cursor 14 with the
candidate at 0 gives length 14 when the memory behind the input is zero and length
13 when it holds `0xAA`, where 12 bytes are left.  The two surroundings give the
same byte at every index up to the terminating null character at index 26, so the
comparison has read the byte at index 27; and the round moves the cursor to 28, or
to 27, behind the end of the input. -/
theorem MatchLoop_overrunInput :
    MatchLoop quietEnv overrunInput 14 0 (14 + 1) 0 = .ok 14 ∧
    MatchLoop noisyEnv overrunInput 14 0 (14 + 1) 0 = .ok 13 ∧
    (∀ i, i ≤ overrunInput.length →
      readInput quietEnv overrunInput i = readInput noisyEnv overrunInput i) ∧
    readInput quietEnv overrunInput 27 = 0 ∧ readInput noisyEnv overrunInput 27 = 0xAA ∧
    overrunInput.length = 26 ∧
    Except.map (fun p => p.2.itr)
      (CompressRounds 12 1024 quietEnv overrunInput 15 (startState 1024 overrunInput)) = .ok 28 ∧
    Except.map (fun p => p.2.itr)
      (CompressRounds 12 1024 noisyEnv overrunInput 15 (startState 1024 overrunInput)) = .ok 27 :=
  ⟨by decide, by decide, fun i h => readInput_within quietEnv noisyEnv overrunInput i h,
    by decide, by decide, by decide, by decide, by decide⟩

set_option maxRecDepth 100000 in
/-- C17 (code at the failing input): with the default configuration and zero
memory behind the input, the stream `Compress` writes for the 26-byte input
`overrunInput` is the header 26, a literal run of 14 bytes and a back-reference of
length 14.  No end-of-buffer token is in it, and the lengths sum to 28. -/
theorem Compress_overrunInput_tokens :
    Except.map parseStream (Compress 12 1024 quietEnv overrunInput) =
      .ok (some (26, [.literalRun [1, 2, 3, 4, 5, 6, 7, 8, 9, 10, 11, 12, 0, 0],
        .backReference 14 14])) ∧
    [Token.literalRun [1, 2, 3, 4, 5, 6, 7, 8, 9, 10, 11, 12, 0, 0],
      Token.backReference 14 14].any Token.isEnd = false ∧
    ([Token.literalRun [1, 2, 3, 4, 5, 6, 7, 8, 9, 10, 11, 12, 0, 0],
      Token.backReference 14 14].map Token.size).sum = 28 ∧
    overrunInput.length = 26 := by
  decide


/-! ## The bytes `Hash32` reads -/

/-- The value of `Hash32` is determined by the bytes at the indices `Hash32Reads`. -/
theorem Hash32_reads (SearchTblCnt : Nat) (env env1 : Surroundings) (input input1 : List Nat)
    (ptr : Nat)
    (h : ∀ i ∈ Hash32Reads SearchTblCnt ptr, readInput env1 input1 i = readInput env input i) :
    Hash32 SearchTblCnt env1 input1 ptr = Hash32 SearchTblCnt env input ptr := by
  unfold Hash32
  simp only []
  have hfold : ∀ (l : List Nat) (a : Nat),
      (∀ i ∈ l, readInput env1 input1 (ptr + i) = readInput env input (ptr + i)) →
      List.foldl (fun hash i =>
        hash ^^^ (charToUnsigned (readInput env1 input1 (ptr + i)) * 0xDEADBEEF % 2 ^ 32)) a l
      = List.foldl (fun hash i =>
        hash ^^^ (charToUnsigned (readInput env input (ptr + i)) * 0xDEADBEEF % 2 ^ 32)) a l := by
    intro l
    induction l with
    | nil => intro a _; rw [List.foldl_nil, List.foldl_nil]
    | cons x l ih =>
      intro a hl
      rw [List.foldl_cons, List.foldl_cons, hl x (List.mem_cons_self x l)]
      exact ih _ (fun i hi => hl i (List.mem_cons_of_mem x hi))
  rw [hfold _ _ (fun i hi => h (ptr + i) (List.mem_map.mpr ⟨i, hi, rfl⟩))]

theorem Hash32Reads_mem (SearchTblCnt ptr i : Nat) (h : i ∈ Hash32Reads SearchTblCnt ptr) :
    ptr ≤ i ∧ i < ptr + (SearchTblCnt / 255 + 1) := by
  unfold Hash32Reads at h
  obtain ⟨k, hk, rfl⟩ := List.mem_map.mp h
  have hk1 := List.mem_range.mp hk
  have h1 : (SearchTblCnt / 0xFF % 2 ^ 32 + 1) % 2 ^ 32 ≤ SearchTblCnt / 0xFF % 2 ^ 32 + 1 :=
    Nat.mod_le _ _
  have h2 : SearchTblCnt / 0xFF % 2 ^ 32 ≤ SearchTblCnt / 0xFF := Nat.mod_le _ _
  norm_num at h1 h2 hk1 ⊢
  omega

theorem Hash32Reads_eq (SearchTblCnt ptr : Nat) (h : SearchTblCnt / 255 + 1 < 2 ^ 32) :
    Hash32Reads SearchTblCnt ptr = List.range' ptr (SearchTblCnt / 255 + 1) := by
  unfold Hash32Reads
  have h1 : SearchTblCnt / 0xFF % 2 ^ 32 = SearchTblCnt / 255 := Nat.mod_eq_of_lt (by omega)
  rw [h1, Nat.mod_eq_of_lt h]
  rw [List.range'_eq_map_range]

/-- The bytes `Hash32` reads and the value it returns.  `Hash32` at `ptr` reads the
bytes at the indices `Hash32Reads`, and its value is determined by them; these
are the `SearchTblCnt / 255 + 1` indices from `ptr` on (for a table of fewer than
`255 * (2 ^ 32 - 1)` slots, `maxChars` being a `uint32_t`; never more), and the
value is below `SearchTblCnt`.  With `SearchTblCnt / 255 + 1 ≤ MinSearchLen`, a
round of `Compress` in which the test `itr > (endPtr - MinSearchLen)` holds ends
the loop without a call of `ProcessHash`; and where `endPtr - MinSearchLen` does
not wrap, in a round in which the test fails every index `Hash32` reads is below
the size of the input. -/
theorem Hash32_reads_within (MinSearchLen SearchTblCnt : Nat) (env : Surroundings)
    (input : List Nat) (hcap : 1 ≤ SearchTblCnt) (hfit : SearchTblCnt / 255 + 1 ≤ MinSearchLen)
    (s : CompState) :
    (∀ env1 input1 ptr,
      (∀ i ∈ Hash32Reads SearchTblCnt ptr, readInput env1 input1 i = readInput env input i) →
      Hash32 SearchTblCnt env1 input1 ptr = Hash32 SearchTblCnt env input ptr) ∧
    (∀ ptr, SearchTblCnt / 255 + 1 < 2 ^ 32 →
      Hash32Reads SearchTblCnt ptr = List.range' ptr (SearchTblCnt / 255 + 1)) ∧
    (∀ ptr, ∃ bucket, Hash32 SearchTblCnt env input ptr = .ok bucket ∧ bucket < SearchTblCnt) ∧
    (nearEnd MinSearchLen env input s.itr →
      CompressStep MinSearchLen SearchTblCnt env input s =
        .ok (false, ⟨s.itr, s.pendingData,
          Encode END_OF_BUFFER s.output ++ s.pendingData ++ input.drop s.itr, s.table⟩)) ∧
    (MinSearchLen ≤ env.inputAddr + input.length → ¬ nearEnd MinSearchLen env input s.itr →
      ∀ i ∈ Hash32Reads SearchTblCnt s.itr, s.itr ≤ i ∧ i < input.length) := by
  refine ⟨fun env1 input1 ptr h => Hash32_reads SearchTblCnt env env1 input input1 ptr h,
    fun ptr h => Hash32Reads_eq SearchTblCnt ptr h,
    fun ptr => Hash32_ok SearchTblCnt env input ptr hcap, ?_, ?_⟩
  · exact CompressStep_of_nearEnd MinSearchLen SearchTblCnt env input s
  · intro hw h i hi
    have := Hash32Reads_mem SearchTblCnt s.itr i hi
    have hn : ¬ s.itr + MinSearchLen > input.length :=
      fun h1 => h ((nearEnd_of_fits MinSearchLen env input s.itr hw).mpr h1)
    omega

set_option maxRecDepth 100000 in
/-- C20 (code at the failing input): with `MinSearchLen = 2 ^ 64 - 1` and
`SearchTblCnt = 1024`, for which `SearchTblCnt / 255 + 1 ≤ MinSearchLen`, the
pointer `endPtr - MinSearchLen` wraps, the test `itr > (endPtr - MinSearchLen)`
fails at the cursors 0 and 1 of the two-byte input `AB`, and `ProcessHash` is
called there with 2 and 1 bytes left.  `Hash32` reads the indices 0 to 4 and 1 to
5, of which only 0 and 1 are below the size of the input; the slot the second
call fills is 681 when the memory behind the input is zero and 287 when it holds
`0xAA`. -/
theorem Hash32_reads_past_input :
    [0x41, 0x42].length = 2 ∧ 1024 / 255 + 1 ≤ 2 ^ 64 - 1 ∧
    ¬ nearEnd (2 ^ 64 - 1) quietEnv [0x41, 0x42] 0 ∧
    ¬ nearEnd (2 ^ 64 - 1) quietEnv [0x41, 0x42] 1 ∧
    Hash32Reads 1024 0 = [0, 1, 2, 3, 4] ∧ Hash32Reads 1024 1 = [1, 2, 3, 4, 5] ∧
    Hash32 1024 quietEnv [0x41, 0x42] 1 = .ok 681 ∧
    Hash32 1024 noisyEnv [0x41, 0x42] 1 = .ok 287 ∧
    CompressRounds (2 ^ 64 - 1) 1024 quietEnv [0x41, 0x42] 2 (startState 1024 [0x41, 0x42]) =
      .ok (true, ⟨2, [0x41, 0x42], [2], ((freshTable 1024).set 6 (some 0)).set 681 (some 1)⟩) ∧
    CompressRounds (2 ^ 64 - 1) 1024 noisyEnv [0x41, 0x42] 2 (startState 1024 [0x41, 0x42]) =
      .ok (true, ⟨2, [0x41, 0x42], [2], ((freshTable 1024).set 6 (some 0)).set 287 (some 1)⟩) := by
  decide

/-! ## A table the constructor did not allocate -/

/-- On a table without slots `ProcessHash` reads `LookupBuffer[sequenceHash]`
outside the allocation. -/
theorem ProcessHash_unallocated (MinSearchLen SearchTblCnt : Nat) (env : Surroundings)
    (input : List Nat) (table : Table) (itr runLen offset : Nat) (hcap : 1 ≤ SearchTblCnt)
    (hsize : table.length = 0) :
    ProcessHash MinSearchLen SearchTblCnt env input table itr runLen offset
      = .error .tableAccess := by
  obtain ⟨bucket, hh, _⟩ := Hash32_ok SearchTblCnt env input itr hcap
  unfold ProcessHash
  rw [hh]
  simp only []
  rw [if_pos (by omega)]

/-- When the size of the allocation wraps to less than one slot, `Compress` on an
input with a first call of `ProcessHash` does not return. -/
theorem Compress_unallocated (MinSearchLen SearchTblCnt : Nat) (env : Surroundings)
    (input : List Nat) (hcap : 1 ≤ SearchTblCnt) (halloc : lookupBufferBytes SearchTblCnt / 8 = 0)
    (hcall : ¬ nearEnd MinSearchLen env input 0) :
    Compress MinSearchLen SearchTblCnt env input = .error .tableAccess := by
  unfold Compress CompressFrom
  rw [CompressLoop_succ, if_pos (Nat.zero_le _)]
  unfold CompressStep
  rw [if_neg hcall, ProcessHash_unallocated MinSearchLen SearchTblCnt env input _ 0 0 0 hcap
    (by simp only [freshTable, List.length_replicate]; exact halloc)]

/-- C8 (code at the failing input): with `SearchTblCnt = 2 ^ 61` the size
`sizeof(char*) * SearchTblCnt` of the allocation wraps to 0 bytes, so the table
has no slot, and `Hash32` reads 538976289 bytes from the cursor.  On the 16-byte
input `ascendingInput` with `MinSearchLen = 12` the first round calls
`ProcessHash`, and `Compress` does not return an output. -/
theorem Compress_unallocated_table :
    1 ≤ 12 ∧ 1 ≤ 2 ^ 61 ∧
    lookupBufferBytes (2 ^ 61) = 0 ∧ (freshTable (2 ^ 61)).length = 0 ∧
    (Hash32Reads (2 ^ 61) 0).length = 538976289 ∧ ascendingInput.length = 16 ∧
    ¬ nearEnd 12 quietEnv ascendingInput 0 ∧
    Compress 12 (2 ^ 61) quietEnv ascendingInput = .error .tableAccess := by
  refine ⟨by decide, by norm_num, by decide, ?_, ?_, by decide, by decide, ?_⟩
  · simp only [freshTable, List.length_replicate]
    decide
  · unfold Hash32Reads
    rw [List.length_map, List.length_range]
    norm_num
  · exact Compress_unallocated 12 (2 ^ 61) quietEnv ascendingInput (by norm_num) (by decide)
      (by decide)

/-! ## The header of an input of `2 ^ 32` bytes -/

theorem memcpyFromInput_length (mem output output1 : List Nat) (dst src n : Nat)
    (h : memcpyFromInput mem output dst src n = .ok output1) :
    output1.length = output.length := by
  unfold memcpyFromInput at h
  split at h
  · cases h; rfl
  · split at h
    · cases h
    · split at h
      · cases h
      · cases h
        apply overwrite_length
        rw [List.length_take, List.length_drop]
        omega

theorem memcpyWithin_length (output output1 : List Nat) (dst offset n : Nat)
    (h : memcpyWithin output dst offset n = .ok output1) :
    output1.length = output.length := by
  unfold memcpyWithin at h
  simp only [] at h
  split at h
  · cases h; rfl
  · split at h
    · cases h
    · split at h
      · cases h
      · cases h
        apply overwrite_length
        rw [List.length_take, List.length_drop]
        omega

/-- A round of the loop of `Decompress` leaves the size of the output buffer as it
is. -/
theorem DecompressStep_length (input : List Nat) (s s1 : DecompState)
    (h : DecompressStep input s = .ok s1) : s1.output.length = s.output.length := by
  unfold DecompressStep at h
  split at h
  · cases h
  · split at h
    · split at h
      · cases h
      · rename_i out hm
        cases h
        exact memcpyFromInput_length _ _ _ _ _ _ hm
    · split at h
      · split at h
        · cases h
        · split at h
          · cases h
          · rename_i out hm
            cases h
            exact memcpyFromInput_length _ _ _ _ _ _ hm
      · split at h
        · split at h
          · cases h
          · split at h
            · cases h
            · split at h
              · cases h
              · rename_i out hm
                cases h
                exact memcpyWithin_length _ _ _ _ _ hm
        · cases h
          rfl

theorem DecompressLoop_length (input : List Nat) :
    ∀ fuel s s1, DecompressLoop input fuel s = .ok s1 →
      s1.output.length = s.output.length := by
  intro fuel
  induction fuel with
  | zero =>
    intro s s1 h
    unfold DecompressLoop at h
    split at h
    · cases h
    · cases h; rfl
  | succ fuel ih =>
    intro s s1 h
    unfold DecompressLoop at h
    split at h
    · cases hstep : DecompressStep input s with
      | error f => rw [hstep] at h; cases h
      | ok s2 =>
        rw [hstep] at h
        rw [ih s2 s1 h, DecompressStep_length input s s2 hstep]
    · cases h; rfl

/-- A stream that begins with the byte 0 is decompressed, if at all, to the empty
buffer: the output buffer is given the size 0 of the header and keeps it. -/
theorem Decompress_header_zero (rest result : List Nat)
    (h : Decompress (0 :: rest) [] = .ok result) : result = [] := by
  unfold Decompress at h
  rw [if_neg (by simp)] at h
  have hd : Decode (inputImage (0 :: rest)) 0 0 = .ok (1, 0) := by
    unfold Decode DecodeLoop inputImage
    simp [hdrContinueFlag, LEN_SHIFT]
  rw [hd] at h
  simp only [] at h
  cases hl : DecompressLoop (0 :: rest) (0 :: rest).length ⟨1, 0, resize [] 0⟩ with
  | error f => rw [hl] at h; cases h
  | ok s1 =>
    rw [hl] at h
    cases h
    have := DecompressLoop_length (0 :: rest) _ _ _ hl
    have hz : (resize [] 0).length = 0 := by simp [resize]
    exact List.eq_nil_of_length_eq_zero (by rw [this]; exact hz)

/-- A round of the main loop of `Compress` appends to the output. -/
theorem CompressStep_appends (MinSearchLen SearchTblCnt : Nat) (env : Surroundings)
    (input : List Nat) (s s1 : CompState) (b : Bool)
    (h : CompressStep MinSearchLen SearchTblCnt env input s = .ok (b, s1)) :
    ∃ rest, s1.output = s.output ++ rest := by
  unfold CompressStep at h
  split at h
  · cases h
    exact ⟨Encode END_OF_BUFFER [] ++ s.pendingData ++ input.drop s.itr, by
      show Encode END_OF_BUFFER s.output ++ s.pendingData ++ List.drop s.itr input = _
      rw [Encode_append END_OF_BUFFER s.output]
      simp only [List.append_assoc]⟩
  · split at h
    · cases h
    · rename_i r table hp
      simp only [] at h
      split at h
      · split at h
        · cases h
          exact ⟨Encode END_OF_BUFFER [] ++ (s.pendingData ++ [readInput env input s.itr]), by
            show Encode END_OF_BUFFER s.output ++ (s.pendingData ++ [readInput env input s.itr])
              = _
            rw [Encode_append END_OF_BUFFER s.output]
            simp only [List.append_assoc]⟩
        · cases h
          exact ⟨[], by simp⟩
      · cases h
        by_cases hp0 : s.pendingData.length ≠ 0
        · refine ⟨Encode SEQ_LEN [] ++ Encode s.pendingData.length [] ++ s.pendingData ++
            Encode SEQ_LOOKUP [] ++ Encode r.offset [] ++ Encode r.runLen [], ?_⟩
          show Encode r.runLen (Encode r.offset (Encode SEQ_LOOKUP
            (if s.pendingData.length ≠ 0 then
              Encode s.pendingData.length (Encode SEQ_LEN s.output) ++ s.pendingData
            else s.output))) = _
          rw [if_pos hp0, Encode_append r.runLen, Encode_append r.offset,
            Encode_append SEQ_LOOKUP, Encode_append s.pendingData.length,
            Encode_append SEQ_LEN s.output]
          simp only [List.append_assoc]
        · refine ⟨Encode SEQ_LOOKUP [] ++ Encode r.offset [] ++ Encode r.runLen [], ?_⟩
          show Encode r.runLen (Encode r.offset (Encode SEQ_LOOKUP
            (if s.pendingData.length ≠ 0 then
              Encode s.pendingData.length (Encode SEQ_LEN s.output) ++ s.pendingData
            else s.output))) = _
          rw [if_neg hp0, Encode_append r.runLen, Encode_append r.offset,
            Encode_append SEQ_LOOKUP s.output]
          simp only [List.append_assoc]

theorem CompressLoop_appends (MinSearchLen SearchTblCnt : Nat) (env : Surroundings)
    (input : List Nat) :
    ∀ fuel s s1, CompressLoop MinSearchLen SearchTblCnt env input fuel s = .ok s1 →
      ∃ rest, s1.output = s.output ++ rest := by
  intro fuel
  induction fuel with
  | zero =>
    intro s s1 h
    unfold CompressLoop at h
    split at h
    · cases h
    · cases h
      exact ⟨[], by simp⟩
  | succ fuel ih =>
    intro s s1 h
    rw [CompressLoop_succ] at h
    split at h
    · cases hstep : CompressStep MinSearchLen SearchTblCnt env input s with
      | error f => rw [hstep] at h; cases h
      | ok bs =>
        obtain ⟨b, s2⟩ := bs
        obtain ⟨rest, hrest⟩ := CompressStep_appends MinSearchLen SearchTblCnt env input s s2 b
          hstep
        rw [hstep] at h
        cases b with
        | false =>
          simp only [] at h
          cases h
          exact ⟨rest, hrest⟩
        | true =>
          simp only [] at h
          obtain ⟨rest1, hrest1⟩ := ih s2 s1 h
          exact ⟨rest ++ rest1, by rw [hrest1, hrest, List.append_assoc]⟩
    · cases h
      exact ⟨[], by simp⟩

/-- For an input of `2 ^ 32` bytes `Compress` returns an output that begins with
the header byte 0, the size reduced to 32 bits, and `Decompress` gives the output
buffer that size: what it returns for this output, if it returns, is empty. -/
theorem Compress_header_narrowed (SearchTblCnt : Nat) (env : Surroundings) (input : List Nat)
    (hcap : 1 ≤ SearchTblCnt) (hcap1 : SearchTblCnt < 2 ^ 61) (hsize : input.length = 2 ^ 32) :
    ∃ output, Compress 12 SearchTblCnt env input = .ok output ∧ output.take 1 = [0x00] ∧
      ∀ result, Decompress output [] = .ok result → result = [] := by
  obtain ⟨s1, hs1⟩ := CompressLoop_ok 12 SearchTblCnt env input (by omega) hcap
    (by rw [hsize]; norm_num) (input.length + 1)
    ⟨0, [], Encode input.length [], freshTable SearchTblCnt⟩
    (TableBelow_freshTable SearchTblCnt 0) (freshTable_length SearchTblCnt hcap1)
    (by show input.length + 1 ≤ 0 + (input.length + 1); omega)
  obtain ⟨rest, hrest⟩ := CompressLoop_appends 12 SearchTblCnt env input _ _ _ hs1
  have hhead : Encode input.length [] = [0x00] := by
    rw [hsize]
    decide
  have hout : s1.output = 0 :: rest := by
    rw [hrest]
    show Encode input.length [] ++ rest = _
    rw [hhead]
    rfl
  refine ⟨s1.output, Compress_of_loop 12 SearchTblCnt env input s1 hs1, ?_, ?_⟩
  · rw [hout]
    rfl
  · intro result h
    rw [hout] at h
    exact Decompress_header_zero rest result h

theorem hugeInput_length : hugeInput.length = 2 ^ 32 := by
  unfold hugeInput
  exact List.length_replicate _ _

/-- C1 (code at the failing input): with the default configuration, the input of
`2 ^ 32` bytes `41` is compressed to an output whose header is the single byte 0,
since `Encode` reduces the size to 32 bits; `Decompress` gives the output buffer
the size 0, so what it returns for this output is not the input. -/
theorem Compress_hugeInput :
    hugeInput.length = 2 ^ 32 ∧ Encode hugeInput.length [] = [0x00] ∧
    ∃ output, Compress 12 1024 quietEnv hugeInput = .ok output ∧ output.take 1 = [0x00] ∧
      ∀ result, Decompress output [] = .ok result → result = [] :=
  ⟨hugeInput_length, by rw [hugeInput_length]; decide,
    Compress_header_narrowed 1024 quietEnv hugeInput (by norm_num) (by norm_num)
      hugeInput_length⟩

/-- C2 (code at the failing input): with `MinSearchLen = 12` and a table of 512
slots, the input of `2 ^ 32` bytes `41`, which has more bytes than the table has
slots, is compressed to an output whose header is the single byte 0; `Decompress`
gives the output buffer the size 0, so what it returns for this output is not the
input. -/
theorem Compress_small_table_hugeInput :
    1 ≤ 512 ∧ 512 < hugeInput.length ∧
    ∃ output, Compress 12 512 quietEnv hugeInput = .ok output ∧ output.take 1 = [0x00] ∧
      ∀ result, Decompress output [] = .ok result → result = [] :=
  ⟨by norm_num, by rw [hugeInput_length]; norm_num,
    Compress_header_narrowed 512 quietEnv hugeInput (by norm_num) (by norm_num)
      hugeInput_length⟩

end LZ77
